import Mathlib

/-!
# iniread: a shallow embedding of `src/iniread.c`

C strings are modelled by the list of their characters before the terminating
NUL.  A stdio stream is the list of characters still to be read together with
its end-of-file indicator.  Functions whose C behaviour can be undefined
(reads of uninitialised heap bytes, writes before the start of an allocation)
or can fail to terminate return `Option`, with `none` standing for "no defined
result".  Every `malloc`, `realloc` and `strdup` is taken to succeed, except in the
last part of the embedding, which runs the builder of `ini_read_stream` against an
oracle for its allocations.

A document is modelled by the list of the section records linked so far.  The code
writes the field `first` of the `ini_file` record only when it links the first
section; the empty list stands for a record whose `first` was never written, and a
reader of such a record is taken to find `NULL` there, as it does when `malloc`
hands out zeroed memory.

The header `iniread.h` is not part of the sources: the error codes follow the
order of the `ini_errors` table, the three record types follow the way the
code uses their fields, and the buffer length `INIREAD_LINEBUF` is a parameter
`N` of every function that reads a stream.
-/

namespace IniRead

/-- A C string: the characters before the terminating NUL. -/
abbrev CStr := List Char

/-- The NUL character that terminates a C string. -/
def NUL : Char := Char.ofNat 0

/-- Error codes, numbered as the entries of the `ini_errors` table. -/
inductive IniErr
  | INI_OK
  | INI_NOSECTION
  | INI_NOKEY
  | INI_NOFILE
  | INI_IOERROR
  | INI_NOMEM
  deriving DecidableEq, Repr

/-- The `struct ini_kv_pair` record (the `next` link is the list tail). -/
structure ini_kv_pair where
  key : CStr
  value : CStr
  deriving DecidableEq, Repr

/-- The `struct ini_section` record: a name and its linked list of pairs. -/
structure ini_section where
  name : CStr
  items : List ini_kv_pair
  deriving DecidableEq, Repr

/-- The `struct ini_file` record: the linked list of sections and its count. -/
structure ini_file where
  first : List ini_section
  n_sec : Nat
  deriving DecidableEq, Repr

/-- A stdio stream opened for reading: unread characters and the EOF flag. -/
structure FILE where
  data : List Char
  eof : Bool
  deriving DecidableEq, Repr

/-- The string stored in a buffer: its content up to the first NUL. -/
def cstr (buf : List Char) : CStr := buf.takeWhile (fun c => decide (c ≠ NUL))

/-- C `strspn`: length of the longest prefix made of characters of `accept`. -/
def strspn (s accept : CStr) : Nat := (s.takeWhile (fun c => decide (c ∈ accept))).length

/-- C `strcspn`: length of the longest prefix free of characters of `reject`. -/
def strcspn (s reject : CStr) : Nat := (s.takeWhile (fun c => decide (c ∉ reject))).length

/-- The spaces-and-tabs set used throughout the source. -/
def WS : CStr := [' ', '\t']

/-- The loop of `get_nend`: `n` counts the current run of accepted characters. -/
def get_nend_loop (accept : CStr) : CStr → Nat → Nat
  | [], n => n
  | c :: cs, n => if c ∈ accept then get_nend_loop accept cs (n + 1) else get_nend_loop accept cs 0

/-- The function `get_nend`: number of contiguous characters at the end of `str` all in `accept`. -/
def get_nend (str accept : CStr) : Nat := get_nend_loop accept str 0

/-- The function `filter_line`: returns the buffer after the in-place `memmove`, the value
stored in `*removed`, and whether the result is non-zero.  The `memmove` copies
`len - l_white` bytes, so the last `l_white` bytes of the string stay where
they were. -/
def filter_line (raw : CStr) (len : Nat) : CStr × Nat × Bool :=
  let l_white := if len > 1 then strspn raw ['\t', ' '] else 0
  let raw1 := if len > 1 ∧ l_white > 0
    then (raw.drop l_white).take (len - l_white) ++ raw.drop (len - l_white)
    else raw
  let c0 := raw1.headD NUL
  (raw1, l_white, !(c0 = '#' || c0 = ';' || decide (len < l_white + 2)))

/-- The backward trimming loop of `get_section`, on indices of `str` itself
(`*(p + stop - 1)` is `str[stop]`).  `strchr` also finds the terminating NUL.
At index 0 the character is the opening bracket, where the loop stops. -/
def trim_stop (str : CStr) : Nat → Nat
  | 0 => 0
  | k + 1 =>
    let c := str.getD (k + 1) NUL
    if c ∈ WS ∨ c = NUL then trim_stop str k else k + 1

/-- The `start` and final `stop` indices computed by `get_section` (relative to `p = str + 1`). -/
def section_bounds (str : CStr) : Nat × Nat :=
  let p := str.drop 1
  let start := strspn p WS + 1
  let stop := start + strcspn (p.drop start) [']']
  (start, trim_stop str stop)

/-- The function `get_section`: the section name when `str` is a header line, `none` for `NULL`. -/
def get_section (str : CStr) : Option CStr :=
  if str.head? = some '[' ∧ str.length > 2 ∧ str.getLast? = some ']' then
    let b := section_bounds str
    some (((str.drop 1).take b.2).drop (b.1 - 1))
  else none

/-- The line buffer as `get_section` leaves it: reterminated at `p + stop`
when the line is a header, untouched otherwise. -/
def get_section_reterm (str : CStr) : CStr :=
  if str.head? = some '[' ∧ str.length > 2 ∧ str.getLast? = some ']' then
    str.take (1 + (section_bounds str).2)
  else str

/-- The function `get_key_value`: `none` for return value 1, the copied key and value for 0. -/
def get_key_value (str : CStr) : Option (CStr × CStr) :=
  let k_len := strcspn str ['\t', ' ', '=', ':']
  if k_len < 1 then none
  else
    let p := str.drop (k_len + strspn (str.drop k_len) ['\t', ' '])
    if p.headD NUL ≠ '=' ∧ p.headD NUL ≠ ':' then none
    else
      let p1 := p.drop (1 + strspn (p.drop 1) ['\t', ' '])
      if p1.length < 1 then none
      else some (str.take k_len, p1)

/-- The function `get_val_from_string`: the tail of `str` holding the value, `none` for `NULL`. -/
def get_val_from_string (str key : CStr) : Option CStr :=
  if str.take key.length = key then
    let p := str.drop key.length
    let p1 := p.drop (strspn p WS)
    if p1.headD NUL = '=' ∨ p1.headD NUL = ':' then
      some (p1.drop (strspn (p1.drop 1) WS + 1))
    else none
  else none

/-- The character loop of `fgets`: at most `m` characters, stopping after a
newline; the flag tells whether end-of-file was met while reading. -/
def fgets_chars : Nat → List Char → List Char × List Char × Bool
  | 0, data => ([], data, false)
  | _ + 1, [] => ([], [], true)
  | m + 1, c :: cs =>
    if c = '\n' then ([c], cs, false)
    else
      let r := fgets_chars m cs
      (c :: r.1, r.2.1, r.2.2)

/-- C `fgets(buf, n, fp)` for a buffer of `n ≥ 1` bytes: `none` for `NULL` (end-of-file
before any character).  The EOF flag is set when the end of the stream is met while
reading, not when the read stops at a newline or at `n - 1` characters. -/
def fgets (n : Nat) (fp : FILE) : Option (List Char) × FILE :=
  let r := fgets_chars (n - 1) fp.data
  if r.1 = [] ∧ r.2.2 = true then (none, ⟨r.2.1, true⟩)
  else (some r.1, ⟨r.2.1, fp.eof || r.2.2⟩)

/-- The first loop of `ini_readline`: read physical lines until `filter_line`
accepts one.  Yields the buffer, `adj` and the stream; `none` inside when
`fgets` returned `NULL`. -/
def skip_lines (N : Nat) : Nat → FILE → Option (Option (CStr × Nat) × FILE)
  | 0, _ => none
  | fuel + 1, fp =>
    match fgets N fp with
    | (none, fp1) => some (none, fp1)
    | (some chunk, fp1) =>
      let line_buf := cstr chunk
      let r := filter_line line_buf line_buf.length
      if r.2.2 then some (some (r.1, r.2.1), fp1) else skip_lines N fuel fp1

/-- The continuation loop of `ini_readline`.  `real_line` is the initialised
prefix of the heap block, NUL bytes included; `cumlen` is kept as an integer,
a negative value standing for the wrapped `size_t`. -/
def cont_loop (N : Nat) : Nat → FILE → List Char → Int → Option (List Char × FILE)
  | 0, _, _, _ => none
  | fuel + 1, fp, real_line, cumlen =>
    match fgets N fp with
    | (none, fp1) => some (real_line, fp1)
    | (some chunk, fp1) =>
      let line_buf := cstr chunk
      let buflen := line_buf.length
      let n_endslash : Int := (get_nend line_buf ['\\', '\n'] : Int) - 1
      if cumlen < 0 then none
      else
        let cl := cumlen.toNat
        let r1 := real_line.take (cl + buflen + 4)
        if r1.length < cl then none
        else
          let r2 := r1.take cl ++ line_buf ++ r1.drop (cl + buflen)
          let cumlen1 : Int := cumlen + buflen - Int.tdiv n_endslash 2 - 2
          if Int.tmod n_endslash 2 = 0 then
            if cumlen1 + 1 < 0 ∨ (r2.length : Int) < cumlen1 + 1 then none
            else some (r2.take (cumlen1 + 1).toNat ++ [NUL] ++ r2.drop ((cumlen1 + 1).toNat + 1), fp1)
          else cont_loop N fuel fp1 r2 cumlen1

/-- The function `ini_readline`: `some (some line, fp)` for a logical line, `some (none, fp)`
for `NULL` at end of stream, `none` when the behaviour is undefined. -/
def ini_readline (N : Nat) (fp : FILE) : Option (Option CStr × FILE) :=
  match skip_lines N (fp.data.length + 1) fp with
  | none => none
  | some (none, fp1) => some (none, fp1)
  | some (some (line_buf, adj), fp1) =>
    if fp1.eof then some (none, fp1)
    else
      let buflen := line_buf.length
      let n_endslash : Int := (get_nend line_buf ['\\', '\n'] : Int) - 1
      let half := (Int.tdiv n_endslash 2).toNat
      let line_buf1 := line_buf.take (buflen - half - 1) ++ ['\n']
      let real_line := line_buf1 ++ [NUL]
      let r :=
        if n_endslash > 0 ∧ Int.tmod n_endslash 2 ≠ 0 then
          cont_loop N (fp1.data.length + 1) fp1 real_line
            ((buflen : Int) - Int.tdiv n_endslash 2 - 2 - adj)
        else some (real_line, fp1)
      match r with
      | none => none
      | some (rl, fp2) =>
        if NUL ∈ rl then
          let s := cstr rl
          some (some (s.take (s.length - get_nend s [' ', '\t', '\n'])), fp2)
        else none

/-- Link a new, empty section at the tail of the section list. -/
def add_section (inidata : ini_file) (name : CStr) : ini_file :=
  ⟨inidata.first ++ [⟨name, []⟩], inidata.n_sec + 1⟩

/-- Link a pair at `*kvp`, the tail of the most recent section's item list. -/
def add_kvp (inidata : ini_file) (kv : ini_kv_pair) : Option ini_file :=
  match inidata.first.getLast? with
  | none => none
  | some s => some ⟨inidata.first.dropLast ++ [⟨s.name, s.items ++ [kv]⟩], inidata.n_sec⟩

/-- The `do_kvp` block of `ini_read_stream`. -/
def do_kvp (inidata : ini_file) (line : CStr) : Option ini_file :=
  match get_key_value line with
  | none => some inidata
  | some (key, val) => add_kvp inidata ⟨key, val⟩

/-- The main loop of `ini_read_stream`. -/
def ini_read_stream_loop (N : Nat) : Nat → FILE → ini_file → Bool → Option ini_file
  | 0, _, _, _ => none
  | fuel + 1, fp, inidata, first_sec_found =>
    match ini_readline N fp with
    | none => none
    | some (none, _) => some inidata
    | some (some line, fp1) =>
      match get_section line with
      | some p => ini_read_stream_loop N fuel fp1 (add_section inidata p) true
      | none =>
        if first_sec_found = false then
          match do_kvp (add_section inidata []) line with
          | none => none
          | some d => ini_read_stream_loop N fuel fp1 d true
        else
          match do_kvp inidata line with
          | none => none
          | some d => ini_read_stream_loop N fuel fp1 d true

/-- The function `ini_read_stream`: the document and the value left in `*err`. -/
def ini_read_stream (N : Nat) (fp : FILE) : Option (ini_file × IniErr) :=
  (ini_read_stream_loop N (fp.data.length + 1) fp ⟨[], 0⟩ false).map
    (fun d => (d, IniErr.INI_OK))

/-- The inner loop of `ini_get_value` over the pairs of a section. -/
def find_key (key : CStr) : List ini_kv_pair → Option CStr
  | [] => none
  | k :: ks => if k.key = key then some k.value else find_key key ks

/-- The outer loop of `ini_get_value` over the sections. -/
def ini_get_value_loop (sect key : CStr) : List ini_section → Option CStr × IniErr
  | [] => (none, IniErr.INI_NOSECTION)
  | s :: ss =>
    if s.name = sect then
      match find_key key s.items with
      | some v => (some v, IniErr.INI_OK)
      | none => (none, IniErr.INI_NOKEY)
    else ini_get_value_loop sect key ss

/-- The function `ini_get_value`: the value (`none` for `NULL`) and the value left in `*err`. -/
def ini_get_value (inf : ini_file) (sect key : CStr) : Option CStr × IniErr :=
  ini_get_value_loop sect key inf.first

/-- The loop of `ini_read_value`, on the stream of the opened file. -/
def ini_read_value_loop (N : Nat) (sect key : CStr) :
    Nat → FILE → Bool → IniErr → Option (Option CStr × IniErr)
  | 0, _, _, _ => none
  | fuel + 1, fp, in_section, e =>
    match ini_readline N fp with
    | none => none
    | some (none, _) => some (none, e)
    | some (some line, fp1) =>
      match get_section line with
      | some sec =>
        if in_section then some (none, e)
        else if sect = sec then
          match get_val_from_string (get_section_reterm line) key with
          | some v => some (some v, IniErr.INI_OK)
          | none => ini_read_value_loop N sect key fuel fp1 true IniErr.INI_NOKEY
        else ini_read_value_loop N sect key fuel fp1 false e
      | none =>
        if in_section then
          match get_val_from_string line key with
          | some v => some (some v, IniErr.INI_OK)
          | none => ini_read_value_loop N sect key fuel fp1 true e
        else ini_read_value_loop N sect key fuel fp1 false e

/-- The function `ini_read_value` on a file that opens and holds `content`. -/
def ini_read_value (N : Nat) (content : List Char) (sect key : CStr) :
    Option (Option CStr × IniErr) :=
  ini_read_value_loop N sect key (content.length + 1) ⟨content, false⟩ false IniErr.INI_NOSECTION

/-- The function `ini_read_file` on a file that opens and holds `content`. -/
def ini_read_file (N : Nat) (content : List Char) : Option (ini_file × IniErr) :=
  ini_read_stream N ⟨content, false⟩


/-- The function `ini_find_section`: the first section named `name`, `none` for `NULL`. -/
def ini_find_section (inf : ini_file) (name : CStr) : Option ini_section :=
  inf.first.find? (fun s => decide (s.name = name))

/-- The function `ini_get_section_value`: the value of the first pair of `s` with the key. -/
def ini_get_section_value (s : ini_section) (key : CStr) : Option CStr :=
  find_key key s.items

/-! ## The builder with allocation failures

The builder of `ini_read_stream` once more, with an oracle for the allocations it makes
itself: the `ini_file` record, each section record, each `strdup` of a section name, the
key and the value copies of `get_key_value`, and each pair record, in the order of the
calls.  The oracle is a list of outcomes consumed from the head, `true` for success; past
its end every allocation succeeds.  The allocations of `ini_readline` still succeed. -/

/-- A section record whose `name` may be the `NULL` of a failed `strdup`. -/
structure ini_section_raw where
  name : Option CStr
  items : List ini_kv_pair
  deriving DecidableEq, Repr

/-- An `ini_file` record over such sections. -/
structure ini_file_raw where
  first : List ini_section_raw
  n_sec : Nat
  deriving DecidableEq, Repr

/-- The outcome of the next allocation and the rest of the oracle. -/
def alloc_next (a : List Bool) : Bool × List Bool :=
  match a with
  | [] => (true, [])
  | b :: bs => (b, bs)

/-- The function `get_key_value` with its two `malloc` calls: `none` for return value 1,
also when the key copy or the value copy cannot be allocated. -/
def get_key_value_alloc (str : CStr) (a : List Bool) : Option (CStr × CStr) × List Bool :=
  match get_key_value str with
  | none => (none, a)
  | some kv =>
    let k := alloc_next a
    if k.1 then
      let v := alloc_next k.2
      if v.1 then (some kv, v.2) else (none, v.2)
    else (none, k.2)

/-- Link a pair at `*kvp`, the tail of the most recent section's item list. -/
def add_kvp_raw (inidata : ini_file_raw) (kv : ini_kv_pair) : Option ini_file_raw :=
  match inidata.first.getLast? with
  | none => none
  | some s => some ⟨inidata.first.dropLast ++ [⟨s.name, s.items ++ [kv]⟩], inidata.n_sec⟩

/-- The `do_kvp` block with its allocations: `some (none, a)` when the pair record cannot
be allocated and the function returns `NULL` with `INI_NOMEM`. -/
def do_kvp_alloc (inidata : ini_file_raw) (line : CStr) (a : List Bool) :
    Option (Option ini_file_raw × List Bool) :=
  match get_key_value_alloc line a with
  | (none, a1) => some (some inidata, a1)
  | (some (key, val), a1) =>
    let r := alloc_next a1
    if r.1 then (add_kvp_raw inidata ⟨key, val⟩).map (fun d => (some d, r.2))
    else some (none, r.2)

/-- The main loop of `ini_read_stream` with its allocations: the returned pointer
(`none` for `NULL`) and the value left in `*err`. -/
def ini_read_stream_alloc_loop (N : Nat) :
    Nat → FILE → List Bool → ini_file_raw → Bool → Option (Option ini_file_raw × IniErr)
  | 0, _, _, _, _ => none
  | fuel + 1, fp, a, inidata, first_sec_found =>
    match ini_readline N fp with
    | none => none
    | some (none, _) => some (some inidata, IniErr.INI_OK)
    | some (some line, fp1) =>
      let p := get_section line
      if p ≠ none ∨ first_sec_found = false then
        let s := alloc_next a
        if s.1 then
          let n := alloc_next s.2
          let name := if n.1 then some (p.getD []) else none
          let d1 : ini_file_raw := ⟨inidata.first ++ [⟨name, []⟩], inidata.n_sec + 1⟩
          if p = none then
            match do_kvp_alloc d1 line n.2 with
            | none => none
            | some (none, _) => some (none, IniErr.INI_NOMEM)
            | some (some d, a2) => ini_read_stream_alloc_loop N fuel fp1 a2 d true
          else ini_read_stream_alloc_loop N fuel fp1 n.2 d1 true
        else some (none, IniErr.INI_NOMEM)
      else
        match do_kvp_alloc inidata line a with
        | none => none
        | some (none, _) => some (none, IniErr.INI_NOMEM)
        | some (some d, a2) => ini_read_stream_alloc_loop N fuel fp1 a2 d true

/-- The function `ini_read_stream` with the allocations of the builder decided by `a`. -/
def ini_read_stream_alloc (N : Nat) (a : List Bool) (fp : FILE) :
    Option (Option ini_file_raw × IniErr) :=
  let r := alloc_next a
  if r.1 then ini_read_stream_alloc_loop N (fp.data.length + 1) fp r.2 ⟨[], 0⟩ false
  else some (none, IniErr.INI_NOMEM)

/-- A document all of whose section names were allocated. -/
def ini_file_raw_of (d : ini_file) : ini_file_raw :=
  ⟨d.first.map (fun s => ⟨some s.name, s.items⟩), d.n_sec⟩

/-! ## Vocabulary of the statements -/

/-- Trailing whitespace removed: spaces, tabs and newlines dropped from the end. -/
def rstrip (s : CStr) : CStr := s.rdropWhile (fun c => decide (c ∈ [' ', '\t', '\n']))

/-- The content of a physical line as the statements on `ini_readline` take it: not empty,
first character neither blank nor a comment mark, last character not a backslash, and
made of characters that can stand inside one line of text (no newline, no NUL). -/
def content_ok (c : CStr) : Prop :=
  c ≠ [] ∧ c.head? ≠ some ' ' ∧ c.head? ≠ some '\t' ∧ c.head? ≠ some '#' ∧
    c.head? ≠ some ';' ∧ c.getLast? ≠ some '\\' ∧ ∀ x ∈ c, x ≠ '\n' ∧ x ≠ NUL

instance (c : CStr) : Decidable (content_ok c) := by
  unfold content_ok
  infer_instance

/-- A physical line that is empty, made of spaces and tabs only, or whose first character
after optional leading spaces and tabs is `#` or `;`. -/
def blank_or_comment (l : CStr) : Bool :=
  match l.dropWhile (fun c => decide (c = ' ' ∨ c = '\t')) with
  | [] => true
  | c :: _ => decide (c = '#' ∨ c = ';')

/-- The logical lines that successive calls of `ini_readline` return until it returns
`NULL`; `none` when one of the calls has no defined result. -/
def logical_lines (N : Nat) : Nat → FILE → Option (List CStr)
  | 0, _ => none
  | fuel + 1, fp =>
    match ini_readline N fp with
    | none => none
    | some (none, _) => some []
    | some (some line, fp1) => (logical_lines N fuel fp1).map (fun ls => line :: ls)

/-- The body of the loop of `ini_read_stream`, run over a list of logical lines. -/
def build_loop : List CStr → ini_file → Bool → Option ini_file
  | [], inidata, _ => some inidata
  | line :: ls, inidata, first_sec_found =>
    match get_section line with
    | some p => build_loop ls (add_section inidata p) true
    | none =>
      if first_sec_found = false then
        match do_kvp (add_section inidata []) line with
        | none => none
        | some d => build_loop ls d true
      else
        match do_kvp inidata line with
        | none => none
        | some d => build_loop ls d true

/-- The body of the loop of `ini_read_value`, run over a list of logical lines. -/
def search_loop (sect key : CStr) : List CStr → Bool → IniErr → Option CStr × IniErr
  | [], _, e => (none, e)
  | line :: ls, in_section, e =>
    match get_section line with
    | some sec =>
      if in_section then (none, e)
      else if sect = sec then
        match get_val_from_string (get_section_reterm line) key with
        | some v => (some v, IniErr.INI_OK)
        | none => search_loop sect key ls true IniErr.INI_NOKEY
      else search_loop sect key ls false e
    | none =>
      if in_section then
        match get_val_from_string line key with
        | some v => (some v, IniErr.INI_OK)
        | none => search_loop sect key ls true e
      else search_loop sect key ls false e

/-- A physical line that `ini_readline` returns as it stands: content without trailing
backslash or trailing whitespace, within the buffer. -/
def simple_line (N : Nat) (l : CStr) : Prop :=
  content_ok l ∧ l.getLast? ≠ some ' ' ∧ l.getLast? ≠ some '\t' ∧ l.length + 2 ≤ N

instance (N : Nat) (l : CStr) : Decidable (simple_line N l) := by
  unfold simple_line
  infer_instance

/-- The pair a logical line contributes, if `get_key_value` accepts it. -/
def kv_of_line (l : CStr) : Option ini_kv_pair :=
  (get_key_value l).map (fun p => ⟨p.1, p.2⟩)

/-- The pairs of the block at the head of `ls`: the lines before the next header. -/
def block_items (ls : List CStr) : List ini_kv_pair :=
  (ls.takeWhile (fun l => decide (get_section l = none))).filterMap kv_of_line

/-- The sections opened by the header lines of `ls`, each with the pairs of its block. -/
def header_sections : List CStr → List ini_section
  | [] => []
  | l :: ls =>
    match get_section l with
    | some p => ⟨p, block_items ls⟩ :: header_sections ls
    | none => header_sections ls

/-- The section list of the document built from the logical lines `ls`: the implicit
empty-named section when the first line is not a header, then the header sections. -/
def document_sections (ls : List CStr) : List ini_section :=
  match ls with
  | [] => []
  | l :: _ =>
    match get_section l with
    | some _ => header_sections ls
    | none => ⟨[], block_items ls⟩ :: header_sections ls

/-- Text that can stand inside one physical line: no newline and no NUL. -/
def line_text (l : CStr) : Prop := ∀ c ∈ l, c ≠ '\n' ∧ c ≠ NUL

instance (l : CStr) : Decidable (line_text l) := by
  unfold line_text
  infer_instance

/-- A valid section name: non-empty, no `]`, no leading or trailing space or tab. -/
def valid_section_name (s : CStr) : Prop :=
  s ≠ [] ∧ (∀ c ∈ s, c ≠ ']') ∧ s.head? ≠ some ' ' ∧ s.head? ≠ some '\t' ∧
    s.getLast? ≠ some ' ' ∧ s.getLast? ≠ some '\t'

instance (s : CStr) : Decidable (valid_section_name s) := by
  unfold valid_section_name
  infer_instance

/-- A valid key: non-empty, no space, tab, `=` or `:`, not starting with `#`, `;` or `[`. -/
def valid_key (k : CStr) : Prop :=
  k ≠ [] ∧ (∀ c ∈ k, c ≠ ' ' ∧ c ≠ '\t' ∧ c ≠ '=' ∧ c ≠ ':') ∧
    k.head? ≠ some '#' ∧ k.head? ≠ some ';' ∧ k.head? ≠ some '['

instance (k : CStr) : Decidable (valid_key k) := by
  unfold valid_key
  infer_instance

/-- A valid value: non-empty, no leading or trailing space or tab, not ending in a backslash. -/
def valid_value (v : CStr) : Prop :=
  v ≠ [] ∧ v.head? ≠ some ' ' ∧ v.head? ≠ some '\t' ∧
    v.getLast? ≠ some ' ' ∧ v.getLast? ≠ some '\t' ∧ v.getLast? ≠ some '\\'

instance (v : CStr) : Decidable (valid_value v) := by
  unfold valid_value
  infer_instance

/-- The physical line at the head of the unread characters: the characters up to and
including the first newline, the characters after it, and whether the end of the stream
was met before a newline. -/
def first_line : List Char → List Char × List Char × Bool
  | [] => ([], [], true)
  | c :: cs =>
    if c = '\n' then ([c], cs, false)
    else
      let r := first_line cs
      (c :: r.1, r.2.1, r.2.2)

/-- Every physical line of the unread characters, the `cur` characters already passed
included, is shorter than `m`, so that `fgets` with a buffer of `m + 1` bytes reads it whole. -/
def lines_fit (m : Nat) : List Char → Nat → Bool
  | [], cur => decide (cur < m)
  | c :: cs, cur => if c = '\n' then decide (cur < m) && lines_fit m cs 0 else lines_fit m cs (cur + 1)

/-- What `fgets` returns when the line at the head fits the buffer, whatever its length. -/
def fgets_line_of (fp : FILE) : Option (List Char) × FILE :=
  let r := first_line fp.data
  if r.1 = [] ∧ r.2.2 = true then (none, ⟨r.2.1, true⟩)
  else (some r.1, ⟨r.2.1, fp.eof || r.2.2⟩)

/-- The pair a logical line adds to the document: none for a header line. -/
def line_pair (l : CStr) : Option ini_kv_pair :=
  if get_section l = none then kv_of_line l else none

/-- A text that stops at a line boundary: it is empty or its last character is a newline. -/
def ends_with_newline (d : List Char) : Prop := d = [] ∨ d.getLast? = some '\n'

instance (d : List Char) : Decidable (ends_with_newline d) := by
  unfold ends_with_newline
  infer_instance

/-- The logical lines of a stream none of which is cut short by the end of the stream:
every call of `ini_readline` that returns a line leaves the end-of-file indicator unset;
`none` otherwise. -/
def complete_lines (N : Nat) : Nat → FILE → Option (List CStr)
  | 0, _ => none
  | fuel + 1, fp =>
    match ini_readline N fp with
    | none => none
    | some (none, _) => some []
    | some (some line, fp1) =>
      if fp1.eof then none else (complete_lines N fuel fp1).map (fun ls => line :: ls)

/-! ## Elementary facts about the string primitives -/

theorem takeWhile_app_cons {α : Type} (p : α → Bool) (a : List α) (c : α) (b : List α)
    (ha : ∀ x ∈ a, p x = true) (hc : p c = false) :
    (a ++ c :: b).takeWhile p = a := by
  induction a with
  | nil => simp [List.takeWhile, hc]
  | cons x xs ih =>
    have hx : p x = true := ha x (List.mem_cons_self _ _)
    simp only [List.cons_append, List.takeWhile_cons, hx, if_true]
    rw [ih (fun y hy => ha y (List.mem_cons_of_mem _ hy))]

theorem takeWhile_all {α : Type} (p : α → Bool) (a : List α)
    (ha : ∀ x ∈ a, p x = true) : a.takeWhile p = a := by
  induction a with
  | nil => rfl
  | cons x xs ih =>
    have hx : p x = true := ha x (List.mem_cons_self _ _)
    simp only [List.takeWhile_cons, hx, if_true]
    rw [ih (fun y hy => ha y (List.mem_cons_of_mem _ hy))]

theorem strspn_app_cons (a : CStr) (c : Char) (b accept : CStr)
    (ha : ∀ x ∈ a, x ∈ accept) (hc : c ∉ accept) :
    strspn (a ++ c :: b) accept = a.length := by
  unfold strspn
  rw [takeWhile_app_cons _ a c b (fun x hx => by simpa using ha x hx) (by simpa using hc)]

theorem strcspn_app_cons (a : CStr) (c : Char) (b reject : CStr)
    (ha : ∀ x ∈ a, x ∉ reject) (hc : c ∈ reject) :
    strcspn (a ++ c :: b) reject = a.length := by
  unfold strcspn
  rw [takeWhile_app_cons _ a c b (fun x hx => by simpa using ha x hx) (by simpa using hc)]

theorem strspn_all (a accept : CStr) (ha : ∀ x ∈ a, x ∈ accept) :
    strspn a accept = a.length := by
  unfold strspn
  rw [takeWhile_all _ a (fun x hx => by simpa using ha x hx)]

theorem strcspn_all (a reject : CStr) (ha : ∀ x ∈ a, x ∉ reject) :
    strcspn a reject = a.length := by
  unfold strcspn
  rw [takeWhile_all _ a (fun x hx => by simpa using ha x hx)]

/-! ## `get_key_value` -/

/-- The general form behind the separator claims: key, blanks, separator, blanks, value. -/
theorem get_key_value_layout (k v ws1 ws2 : CStr) (sep : Char)
    (hk : k ≠ []) (hkc : ∀ c ∈ k, c ≠ ' ' ∧ c ≠ '\t' ∧ c ≠ '=' ∧ c ≠ ':')
    (hv : v ≠ []) (hv0 : v.head? ≠ some ' ' ∧ v.head? ≠ some '\t')
    (h1 : ∀ c ∈ ws1, c = ' ' ∨ c = '\t') (h2 : ∀ c ∈ ws2, c = ' ' ∨ c = '\t')
    (hsep : sep = '=' ∨ sep = ':') :
    get_key_value (k ++ ws1 ++ [sep] ++ ws2 ++ v) = some (k, v) := by
  obtain ⟨v0, vs, rfl⟩ := List.exists_cons_of_ne_nil hv
  have hv0a : v0 ≠ ' ' := fun h => hv0.1 (by simp [h])
  have hv0b : v0 ≠ '\t' := fun h => hv0.2 (by simp [h])
  have hklen : 0 < k.length := List.length_pos.mpr hk
  have hsep1 : sep ∉ ['\t', ' '] := by rcases hsep with h | h <;> subst h <;> decide
  have hsep2 : sep ∈ ['\t', ' ', '=', ':'] := by rcases hsep with h | h <;> subst h <;> decide
  -- the key ends at the first blank or separator
  have e1 : strcspn (k ++ ws1 ++ [sep] ++ ws2 ++ v0 :: vs) ['\t', ' ', '=', ':'] = k.length := by
    have hkk : ∀ x ∈ k, x ∉ ['\t', ' ', '=', ':'] := by
      intro x hx
      have := hkc x hx
      simp only [List.mem_cons, List.mem_singleton, List.not_mem_nil, or_false, not_or]
      exact ⟨this.2.1, this.1, this.2.2.1, this.2.2.2⟩
    cases ws1 with
    | nil =>
      have : k ++ [] ++ [sep] ++ ws2 ++ v0 :: vs = k ++ sep :: (ws2 ++ v0 :: vs) := by simp
      rw [this]
      exact strcspn_app_cons k sep _ _ hkk hsep2
    | cons w ws =>
      have : k ++ w :: ws ++ [sep] ++ ws2 ++ v0 :: vs = k ++ w :: (ws ++ [sep] ++ ws2 ++ v0 :: vs) := by
        simp
      rw [this]
      refine strcspn_app_cons k w _ _ hkk ?_
      rcases h1 w (List.mem_cons_self _ _) with h | h <;> subst h <;> decide
  have e2 : (k ++ ws1 ++ [sep] ++ ws2 ++ v0 :: vs).drop k.length = ws1 ++ sep :: (ws2 ++ v0 :: vs) := by
    have : k ++ ws1 ++ [sep] ++ ws2 ++ v0 :: vs = k ++ (ws1 ++ sep :: (ws2 ++ v0 :: vs)) := by simp
    rw [this, List.drop_left]
  have e3 : strspn (ws1 ++ sep :: (ws2 ++ v0 :: vs)) ['\t', ' '] = ws1.length :=
    strspn_app_cons ws1 sep _ _
      (fun x hx => by rcases h1 x hx with h | h <;> subst h <;> decide) hsep1
  have e4 : (k ++ ws1 ++ [sep] ++ ws2 ++ v0 :: vs).drop (k.length + ws1.length)
      = sep :: (ws2 ++ v0 :: vs) := by
    have : k ++ ws1 ++ [sep] ++ ws2 ++ v0 :: vs = (k ++ ws1) ++ (sep :: (ws2 ++ v0 :: vs)) := by simp
    rw [this, ← List.length_append, List.drop_left]
  have e5 : strspn (ws2 ++ v0 :: vs) ['\t', ' '] = ws2.length :=
    strspn_app_cons ws2 v0 _ _
      (fun x hx => by rcases h2 x hx with h | h <;> subst h <;> decide)
      (by simp only [List.mem_cons, List.mem_singleton, List.not_mem_nil, or_false, not_or]
          exact ⟨hv0b, hv0a⟩)
  have e6 : (sep :: (ws2 ++ v0 :: vs)).drop (1 + ws2.length) = v0 :: vs := by
    rw [Nat.add_comm]
    simp
  have e7 : (k ++ ws1 ++ [sep] ++ ws2 ++ v0 :: vs).take k.length = k := by
    have : k ++ ws1 ++ [sep] ++ ws2 ++ v0 :: vs = k ++ (ws1 ++ sep :: (ws2 ++ v0 :: vs)) := by simp
    rw [this, List.take_left]
  unfold get_key_value
  simp only [e1, e2, e3, e4, e7]
  have hh : ¬ ((sep :: (ws2 ++ v0 :: vs)).headD NUL ≠ '=' ∧ (sep :: (ws2 ++ v0 :: vs)).headD NUL ≠ ':') := by
    simp only [List.headD_cons]
    rcases hsep with h | h <;> subst h <;> simp
  have hk1 : ¬ k.length < 1 := by omega
  rw [if_neg hk1, if_neg hh]
  simp only [List.drop_succ_cons, List.drop_zero, e5, e6]
  simp

/-! ## `ini_get_value` -/

theorem find_key_none_iff (key : CStr) (items : List ini_kv_pair) :
    find_key key items = none ↔ ∀ kv ∈ items, kv.key ≠ key := by
  induction items with
  | nil => simp [find_key]
  | cons a as ih =>
    unfold find_key
    by_cases h : a.key = key
    · simp [h]
    · simp [h, ih]

theorem find_key_some_iff (key v : CStr) (items : List ini_kv_pair) :
    find_key key items = some v ↔
      ∃ pre kv post, items = pre ++ kv :: post ∧ (∀ x ∈ pre, x.key ≠ key) ∧
        kv.key = key ∧ kv.value = v := by
  induction items with
  | nil => simp [find_key]
  | cons a as ih =>
    unfold find_key
    by_cases h : a.key = key
    · rw [if_pos h]
      constructor
      · intro hv
        exact ⟨[], a, as, rfl, by simp, h, by simpa using hv⟩
      · rintro ⟨pre, kv, post, heq, hpre, hk, hval⟩
        cases pre with
        | nil =>
          simp only [List.nil_append, List.cons.injEq] at heq
          rw [heq.1, hval]
        | cons b bs =>
          simp only [List.cons_append, List.cons.injEq] at heq
          exact absurd (heq.1 ▸ h) (hpre b (List.mem_cons_self _ _))
    · rw [if_neg h, ih]
      constructor
      · rintro ⟨pre, kv, post, heq, hpre, hk, hval⟩
        refine ⟨a :: pre, kv, post, by simp [heq], ?_, hk, hval⟩
        intro x hx
        rcases List.mem_cons.mp hx with hx | hx
        · rw [hx]; exact h
        · exact hpre x hx
      · rintro ⟨pre, kv, post, heq, hpre, hk, hval⟩
        cases pre with
        | nil =>
          simp only [List.nil_append, List.cons.injEq] at heq
          exact absurd (heq.1 ▸ hk) h
        | cons b bs =>
          simp only [List.cons_append, List.cons.injEq] at heq
          exact ⟨bs, kv, post, heq.2, fun x hx => hpre x (List.mem_cons_of_mem _ hx), hk, hval⟩

/-- The outer loop, characterised through the first section with the wanted name. -/
theorem ini_get_value_loop_split (sect key : CStr) (pre : List ini_section) (s : ini_section)
    (post : List ini_section) (hpre : ∀ x ∈ pre, x.name ≠ sect) (hs : s.name = sect) :
    ini_get_value_loop sect key (pre ++ s :: post) =
      match find_key key s.items with
      | some v => (some v, IniErr.INI_OK)
      | none => (none, IniErr.INI_NOKEY) := by
  induction pre with
  | nil => simp [ini_get_value_loop, hs]
  | cons a as ih =>
    have ha : a.name ≠ sect := hpre a (List.mem_cons_self _ _)
    simp only [List.cons_append, ini_get_value_loop, if_neg ha]
    exact ih (fun x hx => hpre x (List.mem_cons_of_mem _ hx))

theorem ini_get_value_loop_nosec (sect key : CStr) (l : List ini_section)
    (h : ∀ x ∈ l, x.name ≠ sect) :
    ini_get_value_loop sect key l = (none, IniErr.INI_NOSECTION) := by
  induction l with
  | nil => rfl
  | cons a as ih =>
    have ha : a.name ≠ sect := h a (List.mem_cons_self _ _)
    simp only [ini_get_value_loop, if_neg ha]
    exact ih (fun x hx => h x (List.mem_cons_of_mem _ hx))

/-- Either no section has the name, or the list splits at the first one that has it. -/
theorem first_named_split (sect : CStr) (l : List ini_section) :
    (∀ x ∈ l, x.name ≠ sect) ∨
      ∃ pre s post, l = pre ++ s :: post ∧ (∀ x ∈ pre, x.name ≠ sect) ∧ s.name = sect := by
  induction l with
  | nil => left; simp
  | cons a as ih =>
    by_cases ha : a.name = sect
    · right; exact ⟨[], a, as, rfl, by simp, ha⟩
    · rcases ih with h | ⟨pre, s, post, heq, hpre, hs⟩
      · left
        intro x hx
        rcases List.mem_cons.mp hx with hx | hx
        · rw [hx]; exact ha
        · exact h x hx
      · right
        refine ⟨a :: pre, s, post, by simp [heq], ?_, hs⟩
        intro x hx
        rcases List.mem_cons.mp hx with hx | hx
        · rw [hx]; exact ha
        · exact hpre x hx

/-- The first section with a given name is unique. -/
theorem first_named_unique (sect : CStr) (pre pre2 : List ini_section) (s s2 : ini_section)
    (post post2 : List ini_section) (heq : pre ++ s :: post = pre2 ++ s2 :: post2)
    (hpre : ∀ x ∈ pre, x.name ≠ sect) (hs : s.name = sect)
    (hpre2 : ∀ x ∈ pre2, x.name ≠ sect) (hs2 : s2.name = sect) : s = s2 := by
  induction pre generalizing pre2 with
  | nil =>
    cases pre2 with
    | nil => simp at heq; exact heq.1
    | cons b bs =>
      simp only [List.nil_append, List.cons_append, List.cons.injEq] at heq
      exact absurd (heq.1 ▸ hs) (hpre2 b (List.mem_cons_self _ _))
  | cons a as ih =>
    cases pre2 with
    | nil =>
      simp only [List.nil_append, List.cons_append, List.cons.injEq] at heq
      exact absurd (heq.1 ▸ hs2) (hpre a (List.mem_cons_self _ _))
    | cons b bs =>
      simp only [List.cons_append, List.cons.injEq] at heq
      exact ih bs heq.2 (fun x hx => hpre x (List.mem_cons_of_mem _ hx))
        (fun x hx => hpre2 x (List.mem_cons_of_mem _ hx))

/-! ## Reading one physical line -/

theorem fgets_chars_line (m : Nat) (l rest : List Char)
    (hl : ∀ x ∈ l, x ≠ '\n') (hm : l.length < m) :
    fgets_chars m (l ++ '\n' :: rest) = (l ++ ['\n'], rest, false) := by
  induction l generalizing m with
  | nil =>
    cases m with
    | zero => simp at hm
    | succ m => simp [fgets_chars]
  | cons a as ih =>
    cases m with
    | zero => simp at hm
    | succ m =>
      have ha : a ≠ '\n' := hl a (List.mem_cons_self _ _)
      have := ih m (fun x hx => hl x (List.mem_cons_of_mem _ hx))
        (by simp only [List.length_cons] at hm; omega)
      simp [fgets_chars, ha, this]

theorem fgets_chars_last (m : Nat) (l : List Char)
    (hl : ∀ x ∈ l, x ≠ '\n') (hm : l.length < m) :
    fgets_chars m l = (l, [], true) := by
  induction l generalizing m with
  | nil =>
    cases m with
    | zero => simp at hm
    | succ m => simp [fgets_chars]
  | cons a as ih =>
    cases m with
    | zero => simp at hm
    | succ m =>
      have ha : a ≠ '\n' := hl a (List.mem_cons_self _ _)
      have := ih m (fun x hx => hl x (List.mem_cons_of_mem _ hx))
        (by simp only [List.length_cons] at hm; omega)
      simp [fgets_chars, ha, this]

theorem fgets_chars_full (l rest : List Char) (hl : ∀ x ∈ l, x ≠ '\n') :
    fgets_chars l.length (l ++ rest) = (l, rest, false) := by
  induction l with
  | nil => simp [fgets_chars]
  | cons a as ih =>
    have ha : a ≠ '\n' := hl a (List.mem_cons_self _ _)
    have := ih (fun x hx => hl x (List.mem_cons_of_mem _ hx))
    simp [fgets_chars, ha, this]

/-- A newline-terminated physical line that fits the buffer is read whole. -/
theorem fgets_line (N : Nat) (l rest : List Char) (e : Bool)
    (hl : ∀ x ∈ l, x ≠ '\n') (hN : l.length + 2 ≤ N) :
    fgets N ⟨l ++ '\n' :: rest, e⟩ = (some (l ++ ['\n']), ⟨rest, e⟩) := by
  unfold fgets
  simp only
  rw [fgets_chars_line (N - 1) l rest hl (by omega)]
  simp

/-- At the end of the stream `fgets` returns `NULL` and sets the EOF flag. -/
theorem fgets_eof (N : Nat) (e : Bool) (hN : 2 ≤ N) :
    fgets N ⟨[], e⟩ = (none, ⟨[], true⟩) := by
  unfold fgets
  obtain ⟨m, rfl⟩ : ∃ m, N = m + 2 := ⟨N - 2, by omega⟩
  simp [fgets_chars]

/-- A final fragment without newline is returned with the EOF flag set. -/
theorem fgets_last (N : Nat) (l : List Char) (e : Bool)
    (hl : ∀ x ∈ l, x ≠ '\n') (hne : l ≠ []) (hN : l.length + 2 ≤ N) :
    fgets N ⟨l, e⟩ = (some l, ⟨[], true⟩) := by
  unfold fgets
  simp only
  rw [fgets_chars_last (N - 1) l hl (by omega)]
  simp [hne]

theorem cstr_of_no_nul (l : List Char) (h : ∀ x ∈ l, x ≠ NUL) : cstr l = l := by
  unfold cstr
  exact takeWhile_all _ l (fun x hx => by simpa using h x hx)

theorem cstr_app_nul (l rest : List Char) (h : ∀ x ∈ l, x ≠ NUL) :
    cstr (l ++ NUL :: rest) = l := by
  unfold cstr
  exact takeWhile_app_cons _ l NUL rest (fun x hx => by simpa using h x hx) (by simp)

/-! ## `get_nend` and trailing-whitespace removal -/

theorem get_nend_loop_append (accept a b : CStr) (n : Nat) :
    get_nend_loop accept (a ++ b) n = get_nend_loop accept b (get_nend_loop accept a n) := by
  induction a generalizing n with
  | nil => rfl
  | cons x xs ih =>
    simp only [List.cons_append, get_nend_loop]
    split <;> exact ih _

theorem get_nend_loop_all (accept a : CStr) (n : Nat) (h : ∀ x ∈ a, x ∈ accept) :
    get_nend_loop accept a n = n + a.length := by
  induction a generalizing n with
  | nil => rfl
  | cons x xs ih =>
    have hx : x ∈ accept := h x (List.mem_cons_self _ _)
    simp only [get_nend_loop, if_pos hx, List.length_cons]
    rw [ih _ (fun y hy => h y (List.mem_cons_of_mem _ hy))]
    omega

/-- A run of accepted characters after a rejected one is counted exactly. -/
theorem get_nend_run (accept a r : CStr) (x : Char) (hx : x ∉ accept)
    (hr : ∀ y ∈ r, y ∈ accept) :
    get_nend (a ++ x :: r) accept = r.length := by
  unfold get_nend
  rw [get_nend_loop_append]
  simp only [get_nend_loop, if_neg hx]
  rw [get_nend_loop_all accept r 0 hr]
  omega

theorem get_nend_all (accept r : CStr) (hr : ∀ y ∈ r, y ∈ accept) :
    get_nend r accept = r.length := by
  unfold get_nend
  rw [get_nend_loop_all accept r 0 hr]
  omega

theorem get_nend_concat (accept a : CStr) (x : Char) :
    get_nend (a ++ [x]) accept = if x ∈ accept then get_nend a accept + 1 else 0 := by
  unfold get_nend
  rw [get_nend_loop_append]
  simp only [get_nend_loop]

theorem get_nend_le (accept a : CStr) : get_nend a accept ≤ a.length := by
  induction a using List.reverseRecOn with
  | nil => simp [get_nend, get_nend_loop]
  | append_singleton xs x ih =>
    rw [get_nend_concat]
    split
    · simp only [List.length_append, List.length_singleton]; omega
    · omega

/-- The final retermination of `ini_readline` removes exactly the trailing whitespace. -/
theorem take_get_nend_eq_rstrip (s : CStr) :
    s.take (s.length - get_nend s [' ', '\t', '\n']) = rstrip s := by
  unfold rstrip
  induction s using List.reverseRecOn with
  | nil => simp [List.rdropWhile_nil]
  | append_singleton xs x ih =>
    rw [get_nend_concat]
    by_cases hx : x ∈ [' ', '\t', '\n']
    · rw [if_pos hx, List.rdropWhile_concat_pos _ _ _ (by simpa using hx), ← ih]
      have hle := get_nend_le [' ', '\t', '\n'] xs
      have : (xs ++ [x]).length - (get_nend xs [' ', '\t', '\n'] + 1)
          = xs.length - get_nend xs [' ', '\t', '\n'] := by
        simp only [List.length_append, List.length_singleton]; omega
      rw [this, List.take_append_of_le_length (by omega)]
    · rw [if_neg hx, List.rdropWhile_concat_neg _ _ _ (by simpa using hx)]
      simp

theorem rstrip_concat_newline (s : CStr) : rstrip (s ++ ['\n']) = rstrip s := by
  unfold rstrip
  exact List.rdropWhile_concat_pos _ _ _ (by decide)

theorem rstrip_of_last (s : CStr) (x : Char) (hx : x ∉ [' ', '\t', '\n']) :
    rstrip (s ++ [x]) = s ++ [x] := by
  unfold rstrip
  exact List.rdropWhile_concat_neg _ _ _ (by simpa using hx)

/-! ## C integer division on `n_endslash = get_nend - 1` -/

theorem tdiv_pred (m : Nat) : Int.tdiv ((m : Int) - 1) 2 = (((m - 1) / 2 : Nat) : Int) := by
  cases m with
  | zero => decide
  | succ k =>
    have : ((k + 1 : Nat) : Int) - 1 = (k : Int) := by push_cast; omega
    rw [this]
    simp only [Nat.add_sub_cancel]
    exact (Int.ofNat_tdiv k 2).symm

theorem tmod_pred_eq_zero (m : Nat) : Int.tmod ((m : Int) - 1) 2 = 0 ↔ m % 2 = 1 := by
  cases m with
  | zero => decide
  | succ k =>
    have : ((k + 1 : Nat) : Int) - 1 = (k : Int) := by push_cast; omega
    rw [this]
    have h2 : Int.tmod (k : Int) 2 = ((k % 2 : Nat) : Int) := (Int.ofNat_tmod k 2).symm
    rw [h2]
    omega

/-! ## `filter_line` and the first loop of `ini_readline` -/

/-- A line of at least two bytes whose first byte is neither blank nor a comment mark is kept unchanged. -/
theorem filter_line_content (x : Char) (t : CStr) (ht : t ≠ [])
    (hx : x ≠ ' ' ∧ x ≠ '\t' ∧ x ≠ '#' ∧ x ≠ ';') :
    filter_line (x :: t) (x :: t).length = (x :: t, 0, true) := by
  obtain ⟨y, ys, rfl⟩ := List.exists_cons_of_ne_nil ht
  have hs : strspn (x :: y :: ys) ['\t', ' '] = 0 := by
    unfold strspn
    rw [List.takeWhile_cons_of_neg (by simp [hx.1, hx.2.1])]
    rfl
  unfold filter_line
  simp only [hs, List.length_cons]
  simp [hx.2.2.1, hx.2.2.2]

/-- Blank lines and comment lines are rejected, with or without their newline. -/
theorem filter_line_reject (w t : CStr) (hw : ∀ c ∈ w, c = ' ' ∨ c = '\t')
    (ht : t = [] ∨ t = ['\n'] ∨ t.head? = some '#' ∨ t.head? = some ';') :
    (filter_line (w ++ t) (w ++ t).length).2.2 = false := by
  have hwacc : ∀ c ∈ w, c ∈ ['\t', ' '] := by
    intro c hc
    rcases hw c hc with h | h <;> subst h <;> decide
  have hsp : strspn (w ++ t) ['\t', ' '] = w.length := by
    rcases ht with h | h | h | h
    · subst h
      simpa using strspn_all w _ hwacc
    · subst h
      exact strspn_app_cons w '\n' [] _ hwacc (by decide)
    · obtain ⟨r, rfl⟩ : ∃ r, t = '#' :: r := by
        cases t with
        | nil => simp at h
        | cons a r => simp at h; exact ⟨r, by rw [h]⟩
      exact strspn_app_cons w '#' r _ hwacc (by decide)
    · obtain ⟨r, rfl⟩ : ∃ r, t = ';' :: r := by
        cases t with
        | nil => simp at h
        | cons a r => simp at h; exact ⟨r, by rw [h]⟩
      exact strspn_app_cons w ';' r _ hwacc (by decide)
  unfold filter_line
  simp only [hsp]
  rcases ht with h | h | h | h
  · subst h
    by_cases h1 : (w ++ []).length > 1
    · simp only [if_pos h1]
      simp
    · simp only [if_neg h1]
      have : w.length < 2 := by simp only [List.length_append, List.length_nil] at h1; omega
      simp [this]
  · subst h
    by_cases h1 : (w ++ ['\n']).length > 1
    · simp only [if_pos h1]
      simp
    · simp only [if_neg h1]
      have : w.length + 1 < 2 := by simp only [List.length_append, List.length_singleton] at h1; omega
      simp [this]
  · obtain ⟨r, rfl⟩ : ∃ r, t = '#' :: r := by
      cases t with
      | nil => simp at h
      | cons a r => simp at h; exact ⟨r, by rw [h]⟩
    by_cases h1 : (w ++ '#' :: r).length > 1
    · simp only [if_pos h1]
      have h1a : 1 < w.length + (r.length + 1) := by simpa using h1
      by_cases h2 : w.length > 0
      · simp [h1a, h2]
      · have : w = [] := List.length_eq_zero.mp (by omega)
        subst this
        simp
    · have : w = [] := by
        simp only [List.length_append, List.length_cons] at h1
        exact List.length_eq_zero.mp (by omega)
      subst this
      simp
  · obtain ⟨r, rfl⟩ : ∃ r, t = ';' :: r := by
      cases t with
      | nil => simp at h
      | cons a r => simp at h; exact ⟨r, by rw [h]⟩
    by_cases h1 : (w ++ ';' :: r).length > 1
    · simp only [if_pos h1]
      have h1a : 1 < w.length + (r.length + 1) := by simpa using h1
      by_cases h2 : w.length > 0
      · simp [h1a, h2]
      · have : w = [] := List.length_eq_zero.mp (by omega)
        subst this
        simp
    · have : w = [] := by
        simp only [List.length_append, List.length_cons] at h1
        exact List.length_eq_zero.mp (by omega)
      subst this
      simp

theorem skip_lines_mono (N : Nat) (k j : Nat) (fp : FILE)
    (r : Option (CStr × Nat) × FILE) (h : skip_lines N k fp = some r) :
    skip_lines N (k + j) fp = some r := by
  induction k generalizing fp with
  | zero => simp [skip_lines] at h
  | succ k ih =>
    have : k + 1 + j = (k + j) + 1 := by omega
    rw [this]
    unfold skip_lines at h ⊢
    cases hf : fgets N fp with
    | mk o fp1 =>
      rw [hf] at h
      cases o with
      | none => simpa using h
      | some chunk =>
        simp only at h ⊢
        split at h
        · rename_i hk
          rw [if_pos hk]; exact h
        · rename_i hk
          rw [if_neg hk]; exact ih fp1 h

theorem cont_loop_mono (N : Nat) (k j : Nat) (fp : FILE) (rl : List Char) (cumlen : Int)
    (r : List Char × FILE) (h : cont_loop N k fp rl cumlen = some r) :
    cont_loop N (k + j) fp rl cumlen = some r := by
  induction k generalizing fp rl cumlen with
  | zero => simp [cont_loop] at h
  | succ k ih =>
    have : k + 1 + j = (k + j) + 1 := by omega
    rw [this]
    unfold cont_loop at h ⊢
    cases hf : fgets N fp with
    | mk o fp1 =>
      rw [hf] at h
      cases o with
      | none => simpa using h
      | some chunk =>
        simp only at h ⊢
        split at h
        · simp at h
        · rename_i h1
          rw [if_neg h1]
          split at h
          · simp at h
          · rename_i h2
            rw [if_neg h2]
            split at h
            · rename_i h3
              rw [if_pos h3]; exact h
            · rename_i h3
              rw [if_neg h3]; exact ih _ _ _ h

/-! ## `ini_readline` on a physical line with content -/

theorem replicate_backslash_mem (n : Nat) :
    ∀ y ∈ List.replicate n '\\' ++ ['\n'], y ∈ ['\\', '\n'] := by
  intro y hy
  rcases List.mem_append.mp hy with h | h
  · rw [List.eq_of_mem_replicate h]; decide
  · rw [List.mem_singleton.mp h]; decide

/-- The trailing run counted on a line `c`, `n` backslashes, newline. -/
theorem get_nend_content (c : CStr) (n : Nat) (hc : content_ok c) :
    get_nend (c ++ List.replicate n '\\' ++ ['\n']) ['\\', '\n'] = n + 1 := by
  obtain ⟨hne, -, -, -, -, hlast, hall⟩ := hc
  obtain ⟨c1, x, rfl⟩ : ∃ c1 x, c = c1 ++ [x] :=
    ⟨c.dropLast, c.getLast hne, (List.dropLast_append_getLast hne).symm⟩
  have hx1 : x ≠ '\\' := by
    intro h; apply hlast; simp [h]
  have hx2 : x ≠ '\n' := (hall x (by simp)).1
  have : c1 ++ [x] ++ List.replicate n '\\' ++ ['\n']
      = c1 ++ x :: (List.replicate n '\\' ++ ['\n']) := by simp
  rw [this, get_nend_run _ c1 _ x (by simp [hx1, hx2]) (replicate_backslash_mem n)]
  simp

/-- What `ini_readline` does with a first physical line `c`, `n` backslashes, newline
that fits the buffer: the heap block after the first copy, and either the continuation
loop (odd `n`) or the final retermination. -/
theorem ini_readline_first (N : Nat) (c : CStr) (n : Nat) (rest : List Char)
    (hc : content_ok c) (hN : c.length + n + 2 ≤ N) :
    ini_readline N ⟨c ++ List.replicate n '\\' ++ '\n' :: rest, false⟩ =
      match (if n % 2 = 1 then
          cont_loop N (rest.length + 1) ⟨rest, false⟩
            (c ++ List.replicate (n - n / 2) '\\' ++ ['\n', NUL])
            (((c.length + n - n / 2 - 1 : Nat) : Int))
        else some (c ++ List.replicate (n - n / 2) '\\' ++ ['\n', NUL], ⟨rest, false⟩)) with
      | none => none
      | some (rl, fp2) => if NUL ∈ rl then some (some (rstrip (cstr rl)), fp2) else none := by
  have hnend := get_nend_content c n hc
  obtain ⟨hne, h1, h2, h3, h4, hlast, hall⟩ := hc
  obtain ⟨x, t, rfl⟩ := List.exists_cons_of_ne_nil hne
  have hx : x ≠ ' ' ∧ x ≠ '\t' ∧ x ≠ '#' ∧ x ≠ ';' :=
    ⟨fun h => h1 (by simp [h]), fun h => h2 (by simp [h]), fun h => h3 (by simp [h]),
      fun h => h4 (by simp [h])⟩
  have hlnl : ∀ y ∈ x :: t ++ List.replicate n '\\', y ≠ '\n' := by
    intro y hy
    rcases List.mem_append.mp hy with h | h
    · exact (hall y h).1
    · rw [List.eq_of_mem_replicate h]; decide
  have hlnul : ∀ y ∈ x :: t ++ List.replicate n '\\' ++ ['\n'], y ≠ NUL := by
    intro y hy
    rcases List.mem_append.mp hy with h | h
    · rcases List.mem_append.mp h with h | h
      · exact (hall y h).2
      · rw [List.eq_of_mem_replicate h]; decide
    · rw [List.mem_singleton.mp h]; decide
  have hfg : fgets N ⟨x :: t ++ List.replicate n '\\' ++ '\n' :: rest, false⟩
      = (some (x :: t ++ List.replicate n '\\' ++ ['\n']), ⟨rest, false⟩) :=
    fgets_line N _ rest false hlnl (by simp only [List.length_append, List.length_replicate]; omega)
  have hfl : filter_line (x :: t ++ List.replicate n '\\' ++ ['\n'])
      (x :: t ++ List.replicate n '\\' ++ ['\n']).length
      = (x :: t ++ List.replicate n '\\' ++ ['\n'], 0, true) := by
    have := filter_line_content x (t ++ List.replicate n '\\' ++ ['\n']) (by simp) hx
    simpa using this
  have hskip : skip_lines N ((x :: t ++ List.replicate n '\\' ++ '\n' :: rest).length + 1)
      ⟨x :: t ++ List.replicate n '\\' ++ '\n' :: rest, false⟩
      = some (some (x :: t ++ List.replicate n '\\' ++ ['\n'], 0), ⟨rest, false⟩) := by
    unfold skip_lines
    rw [hfg]
    simp only [cstr_of_no_nul _ hlnul, hfl, if_true]
  have hpos : 0 < (x :: t).length := by simp
  have hlen0 : (x :: t ++ List.replicate n '\\' ++ ['\n']).length = (x :: t).length + n + 1 := by
    simp only [List.length_append, List.length_replicate, List.length_singleton]
  have htake : (x :: t ++ List.replicate n '\\' ++ ['\n']).take
      ((x :: t ++ List.replicate n '\\' ++ ['\n']).length - (n / 2) - 1)
      = x :: t ++ List.replicate (n - n / 2) '\\' := by
    have hlen : (x :: t ++ List.replicate n '\\' ++ ['\n']).length - (n / 2) - 1
        = (x :: t).length + (n - n / 2) := by
      rw [hlen0]; omega
    have s1 : (x :: t ++ (List.replicate n '\\' ++ ['\n'])).take ((x :: t).length + (n - n / 2))
        = x :: t ++ (List.replicate n '\\' ++ ['\n']).take (n - n / 2) := List.take_append _
    have s2 : (List.replicate n '\\' ++ ['\n']).take (n - n / 2)
        = (List.replicate n '\\').take (n - n / 2) :=
      List.take_append_of_le_length (by simp only [List.length_replicate]; omega)
    have s3 : (List.replicate n '\\').take (n - n / 2) = List.replicate (n - n / 2) '\\' := by
      rw [List.take_replicate]
      congr 1
      omega
    rw [hlen, List.append_assoc, s1, s2, s3]
  unfold ini_readline
  simp only [hskip]
  simp only [hnend, Bool.false_eq_true, if_false]
  have e1 : ((n + 1 : Nat) : Int) - 1 = (n : Int) := by push_cast; omega
  have e2 : Int.tdiv (n : Int) 2 = ((n / 2 : Nat) : Int) := (Int.ofNat_tdiv n 2).symm
  have e3 : Int.tmod (n : Int) 2 = ((n % 2 : Nat) : Int) := (Int.ofNat_tmod n 2).symm
  simp only [e1, e2, e3, Int.toNat_ofNat, htake]
  have e4 : ((x :: t ++ List.replicate n '\\' ++ ['\n']).length : Int) - ((n / 2 : Nat) : Int) - 2
      - ((0 : Nat) : Int) = (((x :: t).length + n - n / 2 - 1 : Nat) : Int) := by
    rw [hlen0]
    push_cast
    omega
  rw [e4]
  by_cases hodd : n % 2 = 1
  · have hc1 : (n : Int) > 0 ∧ ((n % 2 : Nat) : Int) ≠ 0 := by omega
    rw [if_pos hc1, if_pos hodd]
    have hr : x :: t ++ List.replicate (n - n / 2) '\\' ++ ['\n'] ++ [NUL]
        = x :: t ++ List.replicate (n - n / 2) '\\' ++ ['\n', NUL] := by simp
    rw [hr]
    cases cont_loop N (rest.length + 1) ⟨rest, false⟩
        (x :: t ++ List.replicate (n - n / 2) '\\' ++ ['\n', NUL])
        (((x :: t).length + n - n / 2 - 1 : Nat) : Int) with
    | none => rfl
    | some r =>
      obtain ⟨rl, fp2⟩ := r
      simp only [take_get_nend_eq_rstrip]
  · have hc1 : ¬ ((n : Int) > 0 ∧ ((n % 2 : Nat) : Int) ≠ 0) := by omega
    rw [if_neg hc1, if_neg hodd]
    have hr : x :: t ++ List.replicate (n - n / 2) '\\' ++ ['\n'] ++ [NUL]
        = x :: t ++ List.replicate (n - n / 2) '\\' ++ ['\n', NUL] := by simp
    rw [hr]
    simp only [take_get_nend_eq_rstrip]

/-- An even number of trailing backslashes: the line is not continued, half of the
backslashes stay, and trailing whitespace is removed. -/
theorem ini_readline_even (N : Nat) (c : CStr) (n : Nat) (rest : List Char)
    (hc : content_ok c) (hn : n % 2 = 0) (hN : c.length + n + 2 ≤ N) :
    ini_readline N ⟨c ++ List.replicate n '\\' ++ '\n' :: rest, false⟩ =
      some (some (rstrip (c ++ List.replicate (n / 2) '\\')), ⟨rest, false⟩) := by
  rw [ini_readline_first N c n rest hc hN]
  have hodd : ¬ n % 2 = 1 := by omega
  rw [if_neg hodd]
  have hnn : n - n / 2 = n / 2 := by omega
  rw [hnn]
  have hnul : ∀ y ∈ c ++ List.replicate (n / 2) '\\' ++ ['\n'], y ≠ NUL := by
    intro y hy
    rcases List.mem_append.mp hy with h | h
    · rcases List.mem_append.mp h with h | h
      · exact (hc.2.2.2.2.2.2 y h).2
      · rw [List.eq_of_mem_replicate h]; decide
    · rw [List.mem_singleton.mp h]; decide
  have hr : c ++ List.replicate (n / 2) '\\' ++ ['\n', NUL]
      = (c ++ List.replicate (n / 2) '\\' ++ ['\n']) ++ NUL :: [] := by simp
  simp only
  rw [if_pos (by simp), hr, cstr_app_nul _ [] hnul, rstrip_concat_newline]

/-- A physical line that does not end in a backslash has a trailing run of one: its newline. -/
theorem get_nend_plain (d : CStr) (hd : d.getLast? ≠ some '\\') (hnl : ∀ x ∈ d, x ≠ '\n') :
    get_nend (d ++ ['\n']) ['\\', '\n'] = 1 := by
  by_cases h : d = []
  · subst h; decide
  · obtain ⟨d1, x, rfl⟩ : ∃ d1 x, d = d1 ++ [x] :=
      ⟨d.dropLast, d.getLast h, (List.dropLast_append_getLast h).symm⟩
    have hx1 : x ≠ '\\' := by
      intro h; apply hd; simp [h]
    have hx2 : x ≠ '\n' := hnl x (by simp)
    have : d1 ++ [x] ++ ['\n'] = d1 ++ x :: ['\n'] := by simp
    rw [this, get_nend_run _ d1 ['\n'] x (by simp [hx1, hx2]) (by decide)]
    rfl

/-- One turn of the continuation loop on a newline-terminated line without trailing
backslash: the line is copied at `cumlen` and the block is reterminated over its newline. -/
theorem cont_loop_last (N k : Nat) (P junk d rest : List Char) (e : Bool)
    (hd : d.getLast? ≠ some '\\') (hdt : ∀ x ∈ d, x ≠ '\n' ∧ x ≠ NUL)
    (hP : P ≠ []) (hN : d.length + 2 ≤ N) :
    ∃ tail, cont_loop N (k + 1) ⟨d ++ '\n' :: rest, e⟩ (P ++ junk) (P.length : Int)
      = some (P ++ d ++ NUL :: tail, ⟨rest, e⟩) := by
  have hfg := fgets_line N d rest e (fun x hx => (hdt x hx).1) hN
  have hnul : ∀ y ∈ d ++ ['\n'], y ≠ NUL := by
    intro y hy
    rcases List.mem_append.mp hy with h | h
    · exact (hdt y h).2
    · rw [List.mem_singleton.mp h]; decide
  have hnend := get_nend_plain d hd (fun x hx => (hdt x hx).1)
  have hPpos : 0 < P.length := List.length_pos.mpr hP
  unfold cont_loop
  rw [hfg]
  simp only [cstr_of_no_nul _ hnul, hnend]
  have h0 : ¬ ((P.length : Int) < 0) := by omega
  rw [if_neg h0]
  simp only [Int.toNat_ofNat]
  have hlen1 : ¬ ((P ++ junk).take (P.length + (d ++ ['\n']).length + 4)).length < P.length := by
    simp only [List.length_take, List.length_append]
    omega
  rw [if_neg hlen1]
  have ht1 : ((P ++ junk).take (P.length + (d ++ ['\n']).length + 4)).take P.length = P := by
    rw [List.take_take]
    have : min P.length (P.length + (d ++ ['\n']).length + 4) = P.length := by omega
    rw [this, List.take_left]
  rw [ht1]
  have hd0 : Int.tdiv (((1 : Nat) : Int) - 1) 2 = 0 := by decide
  have hm0 : Int.tmod (((1 : Nat) : Int) - 1) 2 = 0 := by decide
  simp only [hd0, hm0, if_true]
  have hidx : ((P.length : Int) + ((d ++ ['\n']).length : Int) - 0 - 2 + 1)
      = ((P.length + d.length : Nat) : Int) := by
    simp only [List.length_append, List.length_singleton]
    push_cast
    omega
  rw [hidx]
  generalize ((P ++ junk).take (P.length + (d ++ ['\n']).length + 4)).drop
    (P.length + (d ++ ['\n']).length) = j2
  have hc2 : ¬ ((((P.length + d.length : Nat) : Int) < 0) ∨
      (((P ++ (d ++ ['\n']) ++ j2).length : Int) < ((P.length + d.length : Nat) : Int))) := by
    simp only [List.length_append, List.length_singleton]
    push_cast
    omega
  rw [if_neg hc2]
  simp only [Int.toNat_ofNat]
  have ht2 : (P ++ (d ++ ['\n']) ++ j2).take (P.length + d.length) = P ++ d := by
    have : P ++ (d ++ ['\n']) ++ j2 = (P ++ d) ++ ('\n' :: j2) := by simp
    rw [this, ← List.length_append, List.take_left]
  rw [ht2]
  exact ⟨(P ++ (d ++ ['\n']) ++ j2).drop (P.length + d.length + 1), by simp⟩

/-- An odd number of trailing backslashes joins the next physical line: the continuation
backslash and the newline disappear and half of the remaining backslashes stay. -/
theorem ini_readline_join (N : Nat) (c d : CStr) (n : Nat) (rest : List Char)
    (hc : content_ok c) (hn : n % 2 = 1)
    (hd : d.getLast? ≠ some '\\') (hdt : ∀ x ∈ d, x ≠ '\n' ∧ x ≠ NUL)
    (hN : c.length + n + 2 ≤ N) (hNd : d.length + 2 ≤ N) :
    ini_readline N ⟨c ++ List.replicate n '\\' ++ '\n' :: (d ++ '\n' :: rest), false⟩ =
      some (some (rstrip (c ++ List.replicate ((n - 1) / 2) '\\' ++ d)), ⟨rest, false⟩) := by
  rw [ini_readline_first N c n _ hc hN, if_pos hn]
  have hnn : n - n / 2 = (n - 1) / 2 + 1 := by omega
  have hrl : c ++ List.replicate (n - n / 2) '\\' ++ ['\n', NUL]
      = (c ++ List.replicate ((n - 1) / 2) '\\') ++ ['\\', '\n', NUL] := by
    rw [hnn, List.replicate_succ']
    simp
  have hcl : c.length + n - n / 2 - 1 = (c ++ List.replicate ((n - 1) / 2) '\\').length := by
    have : 0 < c.length := List.length_pos.mpr hc.1
    simp only [List.length_append, List.length_replicate]
    omega
  rw [hrl, hcl]
  obtain ⟨tail, ht⟩ := cont_loop_last N (d ++ '\n' :: rest).length
    (c ++ List.replicate ((n - 1) / 2) '\\') ['\\', '\n', NUL] d rest false hd hdt
    (by simp [hc.1]) hNd
  rw [ht]
  have hnul : ∀ y ∈ c ++ List.replicate ((n - 1) / 2) '\\' ++ d, y ≠ NUL := by
    intro y hy
    rcases List.mem_append.mp hy with h | h
    · rcases List.mem_append.mp h with h | h
      · exact (hc.2.2.2.2.2.2 y h).2
      · rw [List.eq_of_mem_replicate h]; decide
    · exact (hdt y h).2
  simp only
  rw [if_pos (by simp), cstr_app_nul _ tail hnul]

/-! ## Blank lines and comments -/

theorem cstr_append_of_no_nul (a b : List Char) (h : ∀ x ∈ a, x ≠ NUL) :
    cstr (a ++ b) = a ++ cstr b := by
  unfold cstr
  exact List.takeWhile_append_of_pos (fun x hx => by simpa using h x hx)

/-- The buffer after `fgets` on a blank or comment line is rejected by `filter_line`,
whether the line came with its newline (`t` is the newline) or not (`t` is empty). -/
theorem filter_line_blank_or_comment (l t : CStr) (hl : blank_or_comment l = true)
    (ht : t = [] ∨ t = ['\n']) :
    (filter_line (cstr (l ++ t)) (cstr (l ++ t)).length).2.2 = false := by
  have hsplit := List.takeWhile_append_dropWhile (fun c => decide (c = ' ' ∨ c = '\t')) l
  have hw : ∀ c ∈ l.takeWhile (fun c => decide (c = ' ' ∨ c = '\t')), c = ' ' ∨ c = '\t' := by
    intro c hc
    simpa using List.mem_takeWhile_imp hc
  have hwn : ∀ c ∈ l.takeWhile (fun c => decide (c = ' ' ∨ c = '\t')), c ≠ NUL := by
    intro c hc
    rcases hw c hc with h | h <;> subst h <;> decide
  generalize l.takeWhile (fun c => decide (c = ' ' ∨ c = '\t')) = w at hsplit hw hwn
  unfold blank_or_comment at hl
  generalize l.dropWhile (fun c => decide (c = ' ' ∨ c = '\t')) = r at hsplit hl
  subst hsplit
  cases r with
  | nil =>
    have htn : ∀ x ∈ t, x ≠ NUL := by
      rcases ht with h | h <;> subst h <;> simp; decide
    rw [List.append_nil, cstr_append_of_no_nul w t hwn, cstr_of_no_nul t htn]
    exact filter_line_reject w t hw (by rcases ht with h | h <;> simp [h])
  | cons c r1 =>
    have hc : c = '#' ∨ c = ';' := by simpa using hl
    have hcn : c ≠ NUL := by rcases hc with h | h <;> subst h <;> decide
    have e1 : cstr (w ++ c :: r1 ++ t) = w ++ c :: cstr (r1 ++ t) := by
      have : w ++ c :: r1 ++ t = (w ++ [c]) ++ (r1 ++ t) := by simp
      rw [this, cstr_append_of_no_nul (w ++ [c]) _ (by
        intro x hx
        rcases List.mem_append.mp hx with h | h
        · exact hwn x h
        · rw [List.mem_singleton.mp h]; exact hcn)]
      simp
    rw [e1]
    exact filter_line_reject w (c :: cstr (r1 ++ t)) hw
      (by rcases hc with h | h <;> subst h <;> simp)

theorem skip_lines_step_eof (N fuel : Nat) (fp fp1 : FILE) (hf : fgets N fp = (none, fp1)) :
    skip_lines N (fuel + 1) fp = some (none, fp1) := by
  unfold skip_lines
  rw [hf]

theorem skip_lines_step_reject (N fuel : Nat) (fp fp1 : FILE) (chunk : List Char)
    (hf : fgets N fp = (some chunk, fp1))
    (hr : (filter_line (cstr chunk) (cstr chunk).length).2.2 = false) :
    skip_lines N (fuel + 1) fp = skip_lines N fuel fp1 := by
  conv_lhs => unfold skip_lines
  rw [hf]
  simp only [hr, Bool.false_eq_true, if_false]

/-- The first loop of `ini_readline` runs over blank and comment lines without stopping. -/
theorem skip_lines_rejected (N k : Nat) (lines : List CStr) (rest : List Char) (e : Bool)
    (h : ∀ l ∈ lines, blank_or_comment l = true ∧ (∀ x ∈ l, x ≠ '\n') ∧ l.length + 2 ≤ N) :
    skip_lines N (lines.length + k) ⟨(lines.map (fun l => l ++ ['\n'])).flatten ++ rest, e⟩
      = skip_lines N k ⟨rest, e⟩ := by
  induction lines with
  | nil => simp
  | cons l ls ih =>
    obtain ⟨hb, hnl, hfit⟩ := h l (List.mem_cons_self _ _)
    have hfuel : (l :: ls).length + k = (ls.length + k) + 1 := by
      simp only [List.length_cons]; omega
    have hdata : ((l :: ls).map (fun l => l ++ ['\n'])).flatten ++ rest
        = l ++ '\n' :: ((ls.map (fun l => l ++ ['\n'])).flatten ++ rest) := by
      simp
    rw [hfuel, hdata, skip_lines_step_reject N _ _ _ _ (fgets_line N l _ e hnl hfit)
      (filter_line_blank_or_comment l ['\n'] hb (Or.inr rfl))]
    exact ih (fun x hx => h x (List.mem_cons_of_mem _ hx))

/-- A final fragment without newline that is blank or a comment ends the first loop with `NULL`. -/
theorem skip_lines_last_rejected (N k : Nat) (last : CStr) (e : Bool)
    (hb : blank_or_comment last = true) (hnl : ∀ x ∈ last, x ≠ '\n')
    (hfit : last.length + 1 ≤ N) (hN : 2 ≤ N) :
    skip_lines N (k + 2) ⟨last, e⟩ = some (none, ⟨[], true⟩) := by
  by_cases hne : last = []
  · subst hne
    exact skip_lines_step_eof N _ _ _ (fgets_eof N e hN)
  · have hrej := filter_line_blank_or_comment last [] hb (Or.inl rfl)
    rw [List.append_nil] at hrej
    by_cases hlt : last.length + 2 ≤ N
    · rw [skip_lines_step_reject N _ _ _ _ (fgets_last N last e hnl hne hlt) hrej]
      exact skip_lines_step_eof N _ _ _ (fgets_eof N true hN)
    · have hlen : N - 1 = last.length := by omega
      have hfg : fgets N ⟨last, e⟩ = (some last, ⟨[], e⟩) := by
        unfold fgets
        simp only
        have := fgets_chars_full last [] hnl
        rw [List.append_nil] at this
        rw [hlen, this]
        simp
      rw [skip_lines_step_reject N _ _ _ _ hfg hrej]
      have := skip_lines_step_eof N k _ _ (fgets_eof N e hN)
      rw [this]

theorem flatten_lines_length (lines : List CStr) :
    lines.length ≤ ((lines.map (fun l => l ++ ['\n'])).flatten).length := by
  induction lines with
  | nil => simp
  | cons l ls ih =>
    simp only [List.map_cons, List.flatten_cons, List.length_append, List.length_cons,
      List.length_singleton]
    omega

/-- On a stream of blank and comment lines `ini_readline` returns `NULL`. -/
theorem ini_readline_all_rejected (N : Nat) (lines : List CStr) (last : CStr)
    (h : ∀ l ∈ lines, blank_or_comment l = true ∧ (∀ x ∈ l, x ≠ '\n') ∧ l.length + 2 ≤ N)
    (hb : blank_or_comment last = true) (hnl : ∀ x ∈ last, x ≠ '\n')
    (hfit : last.length + 1 ≤ N) (hN : 2 ≤ N) :
    ini_readline N ⟨(lines.map (fun l => l ++ ['\n'])).flatten ++ last, false⟩
      = some (none, ⟨[], true⟩) := by
  have h1 : skip_lines N (lines.length + 2)
      ⟨(lines.map (fun l => l ++ ['\n'])).flatten ++ last, false⟩ = some (none, ⟨[], true⟩) := by
    rw [skip_lines_rejected N 2 lines last false h]
    exact skip_lines_last_rejected N 0 last false hb hnl hfit hN
  by_cases hne : last = []
  · -- the fuel is at least the number of lines plus one
    have h1a : skip_lines N (lines.length + 1)
        ⟨(lines.map (fun l => l ++ ['\n'])).flatten ++ last, false⟩ = some (none, ⟨[], true⟩) := by
      rw [skip_lines_rejected N 1 lines last false h]
      subst hne
      exact skip_lines_step_eof N 0 _ _ (fgets_eof N false hN)
    have hlen := flatten_lines_length lines
    obtain ⟨j, hj⟩ : ∃ j, ((lines.map (fun l => l ++ ['\n'])).flatten ++ last).length + 1
        = lines.length + 1 + j :=
      ⟨((lines.map (fun l => l ++ ['\n'])).flatten ++ last).length - lines.length, by
        simp only [List.length_append]; omega⟩
    unfold ini_readline
    simp only
    rw [hj, skip_lines_mono N _ j _ _ h1a]
  · have hlen := flatten_lines_length lines
    have hpos : 0 < last.length := List.length_pos.mpr hne
    obtain ⟨j, hj⟩ : ∃ j, ((lines.map (fun l => l ++ ['\n'])).flatten ++ last).length + 1
        = lines.length + 2 + j :=
      ⟨((lines.map (fun l => l ++ ['\n'])).flatten ++ last).length - lines.length - 1, by
        simp only [List.length_append]; omega⟩
    unfold ini_readline
    simp only
    rw [hj, skip_lines_mono N _ j _ _ h1]

/-! ## The sequence of logical lines of a stream -/

theorem logical_lines_mono (N k j : Nat) (fp : FILE) (ls : List CStr)
    (h : logical_lines N k fp = some ls) : logical_lines N (k + j) fp = some ls := by
  induction k generalizing fp ls with
  | zero => simp [logical_lines] at h
  | succ k ih =>
    have : k + 1 + j = (k + j) + 1 := by omega
    rw [this]
    unfold logical_lines at h ⊢
    cases hr : ini_readline N fp with
    | none => rw [hr] at h; simp at h
    | some r =>
      obtain ⟨o, fp1⟩ := r
      rw [hr] at h
      cases o with
      | none => simpa using h
      | some line =>
        simp only at h ⊢
        cases hl : logical_lines N k fp1 with
        | none => rw [hl] at h; simp at h
        | some ls1 =>
          rw [hl] at h
          rw [ih fp1 ls1 hl]
          exact h

/-- The loop of `ini_read_stream` is `build_loop` on the logical lines of the stream. -/
theorem ini_read_stream_loop_eq (N fuel : Nat) (fp : FILE) (d : ini_file) (b : Bool) :
    ini_read_stream_loop N fuel fp d b
      = (logical_lines N fuel fp).bind (fun ls => build_loop ls d b) := by
  induction fuel generalizing fp d b with
  | zero => simp [ini_read_stream_loop, logical_lines]
  | succ k ih =>
    unfold ini_read_stream_loop logical_lines
    cases hr : ini_readline N fp with
    | none => simp
    | some r =>
      obtain ⟨o, fp1⟩ := r
      cases o with
      | none => simp [build_loop]
      | some line =>
        simp only
        cases hl : logical_lines N k fp1 with
        | none =>
          simp only [Option.map_none', Option.none_bind]
          cases get_section line with
          | some p => simp only; rw [ih, hl]; rfl
          | none =>
            simp only
            split
            · cases do_kvp (add_section d []) line with
              | none => rfl
              | some d1 => simp only; rw [ih, hl]; rfl
            · cases do_kvp d line with
              | none => rfl
              | some d1 => simp only; rw [ih, hl]; rfl
        | some ls =>
          simp only [Option.map_some', Option.some_bind]
          conv_rhs => unfold build_loop
          cases get_section line with
          | some p => simp only; rw [ih, hl]; rfl
          | none =>
            simp only
            split
            · cases do_kvp (add_section d []) line with
              | none => rfl
              | some d1 => simp only; rw [ih, hl]; rfl
            · cases do_kvp d line with
              | none => rfl
              | some d1 => simp only; rw [ih, hl]; rfl

/-- When every logical line of the stream is read with a defined result, the loop of
`ini_read_value` is `search_loop` on those lines. -/
theorem ini_read_value_loop_eq (N : Nat) (sect key : CStr) (fuel : Nat) (fp : FILE)
    (b : Bool) (e : IniErr) (ls : List CStr) (h : logical_lines N fuel fp = some ls) :
    ini_read_value_loop N sect key fuel fp b e = some (search_loop sect key ls b e) := by
  induction fuel generalizing fp b e ls with
  | zero => simp [logical_lines] at h
  | succ k ih =>
    unfold logical_lines at h
    unfold ini_read_value_loop
    cases hr : ini_readline N fp with
    | none => rw [hr] at h; simp at h
    | some r =>
      obtain ⟨o, fp1⟩ := r
      rw [hr] at h
      cases o with
      | none =>
        simp only [Option.some.injEq] at h
        subst h
        simp [search_loop]
      | some line =>
        simp only at h ⊢
        cases hl : logical_lines N k fp1 with
        | none => rw [hl] at h; simp at h
        | some ls1 =>
          rw [hl] at h
          simp only [Option.map_some', Option.some.injEq] at h
          subst h
          conv_rhs => unfold search_loop
          cases get_section line with
          | some sec =>
            simp only
            split
            · rfl
            · split
              · cases get_val_from_string (get_section_reterm line) key with
                | some v => rfl
                | none => simp only; exact ih fp1 _ _ ls1 hl
              · exact ih fp1 _ _ ls1 hl
          | none =>
            simp only
            split
            · cases get_val_from_string line key with
              | some v => rfl
              | none => simp only; exact ih fp1 _ _ ls1 hl
            · exact ih fp1 _ _ ls1 hl

theorem ini_readline_eof (N : Nat) (e : Bool) (hN : 2 ≤ N) :
    ini_readline N ⟨[], e⟩ = some (none, ⟨[], true⟩) := by
  unfold ini_readline
  simp only [List.length_nil, Nat.zero_add]
  rw [skip_lines_step_eof N 0 _ _ (fgets_eof N e hN)]

theorem ini_readline_simple (N : Nat) (l : CStr) (rest : List Char) (h : simple_line N l) :
    ini_readline N ⟨l ++ '\n' :: rest, false⟩ = some (some l, ⟨rest, false⟩) := by
  obtain ⟨hc, h1, h2, hN⟩ := h
  have := ini_readline_even N l 0 rest hc (by rfl) (by omega)
  simp only [List.replicate_zero, List.append_nil, Nat.zero_div] at this
  rw [this]
  obtain ⟨l1, x, rfl⟩ : ∃ l1 x, l = l1 ++ [x] :=
    ⟨l.dropLast, l.getLast hc.1, (List.dropLast_append_getLast hc.1).symm⟩
  have hx : x ∉ [' ', '\t', '\n'] := by
    have a1 : x ≠ ' ' := fun h => h1 (by simp [h])
    have a2 : x ≠ '\t' := fun h => h2 (by simp [h])
    have a3 : x ≠ '\n' := (hc.2.2.2.2.2.2 x (by simp)).1
    simp [a1, a2, a3]
  rw [rstrip_of_last l1 x hx]

/-- A stream made of simple lines reads back as exactly those lines. -/
theorem logical_lines_simple (N : Nat) (ls : List CStr) (h : ∀ l ∈ ls, simple_line N l)
    (hN : 2 ≤ N) :
    logical_lines N (ls.length + 1) ⟨(ls.map (fun l => l ++ ['\n'])).flatten, false⟩ = some ls := by
  induction ls with
  | nil =>
    unfold logical_lines
    simp only [List.map_nil, List.flatten_nil]
    rw [ini_readline_eof N false hN]
  | cons l ls ih =>
    have hdata : ((l :: ls).map (fun l => l ++ ['\n'])).flatten
        = l ++ '\n' :: (ls.map (fun l => l ++ ['\n'])).flatten := by simp
    rw [hdata]
    unfold logical_lines
    rw [ini_readline_simple N l _ (h l (List.mem_cons_self _ _))]
    simp only [List.length_cons]
    rw [ih (fun x hx => h x (List.mem_cons_of_mem _ hx))]
    rfl

/-- The function `ini_read_stream` on a stream of simple lines builds the document of those lines. -/
theorem ini_read_stream_simple (N : Nat) (ls : List CStr) (h : ∀ l ∈ ls, simple_line N l)
    (hN : 2 ≤ N) :
    ini_read_stream N ⟨(ls.map (fun l => l ++ ['\n'])).flatten, false⟩
      = (build_loop ls ⟨[], 0⟩ false).map (fun d => (d, IniErr.INI_OK)) := by
  unfold ini_read_stream
  rw [ini_read_stream_loop_eq]
  have hlen := flatten_lines_length ls
  obtain ⟨j, hj⟩ : ∃ j, ((ls.map (fun l => l ++ ['\n'])).flatten).length + 1 = ls.length + 1 + j :=
    ⟨((ls.map (fun l => l ++ ['\n'])).flatten).length - ls.length, by omega⟩
  simp only
  rw [hj, logical_lines_mono N _ j _ _ (logical_lines_simple N ls h hN)]
  rfl

/-! ## `get_section` -/

theorem getD_append_cons (a : CStr) (x : Char) (b : CStr) (d : Char) :
    (a ++ x :: b).getD a.length d = x := by
  rw [List.getD_eq_getElem?_getD, List.getElem?_append_right (Nat.le_refl _)]
  simp

/-- The backward loop steps over a run of blanks and stops on the character before it. -/
theorem trim_stop_ws (a : CStr) (x : Char) (w b : CStr) (hx : x ∉ WS ∧ x ≠ NUL)
    (hw : ∀ c ∈ w, c ∈ WS) (ha : a ≠ []) :
    trim_stop (a ++ x :: w ++ b) (a.length + w.length) = a.length := by
  induction w using List.reverseRecOn generalizing b with
  | nil =>
    obtain ⟨k, hk⟩ : ∃ k, a.length = k + 1 := ⟨a.length - 1, by
      have := List.length_pos.mpr ha; omega⟩
    simp only [List.length_nil, Nat.add_zero, List.append_nil]
    have hg : (a ++ x :: b).getD (k + 1) NUL = x := by rw [← hk]; exact getD_append_cons a x b NUL
    have hgoal : trim_stop (a ++ [x] ++ b) (k + 1) = k + 1 := by
      have e : a ++ [x] ++ b = a ++ x :: b := by simp
      rw [e]
      unfold trim_stop
      simp only [hg]
      rw [if_neg (by simp [hx.1, hx.2])]
    have e : a ++ x :: ([] : CStr) ++ b = a ++ [x] ++ b := by simp
    simpa [hk] using hgoal
  | append_singleton w1 y ih =>
    have hy : y ∈ WS := hw y (by simp)
    have hlen : a.length + (w1 ++ [y]).length = (a.length + w1.length) + 1 := by
      simp only [List.length_append, List.length_singleton]; omega
    have e : a ++ x :: (w1 ++ [y]) ++ b = (a ++ x :: w1) ++ y :: b := by simp
    have hg : ((a ++ x :: w1) ++ y :: b).getD (a.length + w1.length + 1) NUL = y := by
      have := getD_append_cons (a ++ x :: w1) y b NUL
      simpa [Nat.add_assoc] using this
    rw [hlen, e]
    unfold trim_stop
    simp only [hg]
    rw [if_pos (Or.inl hy)]
    have := ih (y :: b) (fun c hc => hw c (by simp [hc]))
    have e2 : a ++ x :: w1 ++ y :: b = (a ++ x :: w1) ++ y :: b := by simp
    rw [← e2]
    exact this

/-- A header line `[`, blanks, name, blanks, `]` yields the name. -/
theorem get_section_header (w1 name w2 : CStr)
    (hw1 : ∀ c ∈ w1, c = ' ' ∨ c = '\t') (hw2 : ∀ c ∈ w2, c = ' ' ∨ c = '\t')
    (hne : name ≠ []) (hh : name.head? ≠ some ' ' ∧ name.head? ≠ some '\t')
    (hl : name.getLast? ≠ some ' ' ∧ name.getLast? ≠ some '\t' ∧ name.getLast? ≠ some NUL)
    (hb : ∀ c ∈ name, c ≠ ']') :
    get_section ('[' :: w1 ++ name ++ w2 ++ [']']) = some name := by
  obtain ⟨n0, nt, rfl⟩ := List.exists_cons_of_ne_nil hne
  obtain ⟨nd, nl, hnd⟩ : ∃ nd nl, n0 :: nt = nd ++ [nl] :=
    ⟨(n0 :: nt).dropLast, (n0 :: nt).getLast hne, (List.dropLast_append_getLast hne).symm⟩
  have hn0 : n0 ∉ WS := by
    have a1 : n0 ≠ ' ' := fun h => hh.1 (by simp [h])
    have a2 : n0 ≠ '\t' := fun h => hh.2 (by simp [h])
    simp [WS, a1, a2]
  have hnl : nl ∉ WS ∧ nl ≠ NUL := by
    rw [hnd] at hl
    have a1 : nl ≠ ' ' := fun h => hl.1 (by simp [h])
    have a2 : nl ≠ '\t' := fun h => hl.2.1 (by simp [h])
    have a3 : nl ≠ NUL := fun h => hl.2.2 (by simp [h])
    exact ⟨by simp [WS, a1, a2], a3⟩
  have hw1' : ∀ c ∈ w1, c ∈ WS := by
    intro c hc; rcases hw1 c hc with h | h <;> subst h <;> decide
  have hw2' : ∀ c ∈ w2, c ∈ WS := by
    intro c hc; rcases hw2 c hc with h | h <;> subst h <;> decide
  have hguard : ('[' :: w1 ++ (n0 :: nt) ++ w2 ++ [']']).head? = some '[' ∧
      ('[' :: w1 ++ (n0 :: nt) ++ w2 ++ [']']).length > 2 ∧
      ('[' :: w1 ++ (n0 :: nt) ++ w2 ++ [']']).getLast? = some ']' := by
    refine ⟨by simp, ?_, ?_⟩
    · simp only [List.length_append, List.length_cons, List.length_singleton, List.length_nil]
      omega
    · have : '[' :: w1 ++ (n0 :: nt) ++ w2 ++ [']'] = ('[' :: w1 ++ (n0 :: nt) ++ w2) ++ [']'] := rfl
      rw [this, List.getLast?_concat]
  have hp : ('[' :: w1 ++ (n0 :: nt) ++ w2 ++ [']']).drop 1 = w1 ++ n0 :: (nt ++ w2 ++ [']']) := by
    simp
  have hspn : strspn (w1 ++ n0 :: (nt ++ w2 ++ [']'])) WS = w1.length :=
    strspn_app_cons w1 n0 _ WS hw1' hn0
  have hdrop : (w1 ++ n0 :: (nt ++ w2 ++ [']'])).drop (w1.length + 1) = (nt ++ w2) ++ ']' :: [] := by
    have : w1 ++ n0 :: (nt ++ w2 ++ [']']) = (w1 ++ [n0]) ++ (nt ++ w2 ++ [']']) := by simp
    rw [this]
    have hl2 : w1.length + 1 = (w1 ++ [n0]).length := by simp
    rw [hl2, List.drop_left]
  have hcspn : strcspn ((nt ++ w2) ++ ']' :: []) [']'] = (nt ++ w2).length := by
    refine strcspn_app_cons (nt ++ w2) ']' [] [']'] ?_ (by simp)
    intro c hc
    rcases List.mem_append.mp hc with h | h
    · simpa using hb c (List.mem_cons_of_mem _ h)
    · rcases hw2 c h with h | h <;> subst h <;> decide
  have htrim : trim_stop ('[' :: w1 ++ (n0 :: nt) ++ w2 ++ [']'])
      (w1.length + 1 + (nt ++ w2).length) = w1.length + (n0 :: nt).length := by
    have e : '[' :: w1 ++ (n0 :: nt) ++ w2 ++ [']'] = ('[' :: w1 ++ nd) ++ nl :: w2 ++ [']'] := by
      rw [hnd]; simp
    have hlen : w1.length + 1 + (nt ++ w2).length = ('[' :: w1 ++ nd).length + w2.length := by
      have : (n0 :: nt).length = (nd ++ [nl]).length := by rw [hnd]
      simp only [List.length_append, List.length_cons, List.length_nil] at this ⊢
      omega
    have hlen2 : w1.length + (n0 :: nt).length = ('[' :: w1 ++ nd).length := by
      have : (n0 :: nt).length = (nd ++ [nl]).length := by rw [hnd]
      simp only [List.length_append, List.length_cons, List.length_nil] at this ⊢
      omega
    rw [e, hlen, hlen2]
    exact trim_stop_ws ('[' :: w1 ++ nd) nl w2 [']'] hnl hw2' (by simp)
  unfold get_section
  rw [if_pos hguard]
  unfold section_bounds
  simp only [hp, hspn, hdrop, hcspn, htrim]
  have hres : ((w1 ++ n0 :: (nt ++ w2 ++ [']'])).take (w1.length + (n0 :: nt).length)).drop
      (w1.length + 1 - 1) = n0 :: nt := by
    have e : w1 ++ n0 :: (nt ++ w2 ++ [']']) = (w1 ++ (n0 :: nt)) ++ (w2 ++ [']']) := by simp
    rw [e, ← List.length_append, List.take_left, Nat.add_sub_cancel, List.drop_left]
  rw [hres]

/-- A line that does not start with `[` is not a header. -/
theorem get_section_none_of_head (str : CStr) (h : str.head? ≠ some '[') :
    get_section str = none := by
  unfold get_section
  rw [if_neg (fun hc => h hc.1)]

/-! ## The document as a function of the logical lines -/

theorem block_items_header (l : CStr) (ls : List CStr) (p : CStr) (h : get_section l = some p) :
    block_items (l :: ls) = [] := by
  unfold block_items
  rw [List.takeWhile_cons_of_neg (by simp [h])]
  rfl

theorem block_items_line (l : CStr) (ls : List CStr) (h : get_section l = none) :
    block_items (l :: ls) = (kv_of_line l).toList ++ block_items ls := by
  unfold block_items
  rw [List.takeWhile_cons_of_pos (by simp [h]), List.filterMap_cons]
  cases kv_of_line l <;> rfl

theorem add_kvp_last (pre : List ini_section) (cur : ini_section) (n : Nat) (kv : ini_kv_pair) :
    add_kvp ⟨pre ++ [cur], n⟩ kv = some ⟨pre ++ [⟨cur.name, cur.items ++ [kv]⟩], n⟩ := by
  unfold add_kvp
  simp

theorem do_kvp_last (pre : List ini_section) (cur : ini_section) (n : Nat) (l : CStr) :
    do_kvp ⟨pre ++ [cur], n⟩ l
      = some ⟨pre ++ [⟨cur.name, cur.items ++ (kv_of_line l).toList⟩], n⟩ := by
  unfold do_kvp kv_of_line
  cases h : get_key_value l with
  | none => simp
  | some p =>
    obtain ⟨key, val⟩ := p
    simp only [Option.map_some', Option.toList_some]
    exact add_kvp_last pre cur n ⟨key, val⟩

/-- Once a section is open, the loop appends the block at the head of the lines to it
and then links the sections of the following headers. -/
theorem build_loop_open (ls : List CStr) (pre : List ini_section) (cur : ini_section) (n : Nat) :
    build_loop ls ⟨pre ++ [cur], n⟩ true
      = some ⟨pre ++ [⟨cur.name, cur.items ++ block_items ls⟩] ++ header_sections ls,
          n + (header_sections ls).length⟩ := by
  induction ls generalizing pre cur n with
  | nil => simp [build_loop, block_items, header_sections]
  | cons l ls ih =>
    unfold build_loop
    cases h : get_section l with
    | some p =>
      simp only
      have e : add_section ⟨pre ++ [cur], n⟩ p = ⟨(pre ++ [cur]) ++ [⟨p, []⟩], n + 1⟩ := rfl
      rw [e, ih (pre ++ [cur]) ⟨p, []⟩ (n + 1), block_items_header l ls p h]
      simp only [header_sections, h, List.append_nil, List.nil_append, List.length_cons]
      congr 2
      · simp
      · omega
    | none =>
      simp only [Bool.true_eq_false, if_false]
      rw [do_kvp_last pre cur n l]
      simp only
      rw [ih pre ⟨cur.name, cur.items ++ (kv_of_line l).toList⟩ n, block_items_line l ls h]
      simp only [header_sections, h, List.append_assoc]

/-- The document `ini_read_stream` builds from the logical lines `ls`. -/
theorem build_loop_start (ls : List CStr) :
    build_loop ls ⟨[], 0⟩ false
      = some ⟨document_sections ls, (document_sections ls).length⟩ := by
  cases ls with
  | nil => rfl
  | cons l ls =>
    unfold build_loop document_sections
    cases h : get_section l with
    | some p =>
      simp only
      have e : add_section ⟨[], 0⟩ p = ⟨[] ++ [⟨p, []⟩], 1⟩ := rfl
      rw [e, build_loop_open ls [] ⟨p, []⟩ 1]
      simp only [header_sections, h, List.nil_append, List.length_cons]
      congr 2
      omega
    | none =>
      simp only [if_true]
      have e : add_section ⟨[], 0⟩ [] = ⟨[] ++ [⟨[], []⟩], 1⟩ := rfl
      rw [e, do_kvp_last [] ⟨[], []⟩ 1 l]
      simp only
      rw [build_loop_open ls [] _ 1, block_items_line l ls h]
      simp only [header_sections, h, List.nil_append, List.length_cons, List.singleton_append]
      congr 2
      omega

/-- The function `ini_read_stream` in terms of the logical lines of the stream. -/
theorem ini_read_stream_of_lines (N : Nat) (fp : FILE) (ls : List CStr)
    (h : logical_lines N (fp.data.length + 1) fp = some ls) :
    ini_read_stream N fp
      = some (⟨document_sections ls, (document_sections ls).length⟩, IniErr.INI_OK) := by
  unfold ini_read_stream
  rw [ini_read_stream_loop_eq, h]
  simp only [Option.some_bind, build_loop_start]
  rfl

/-- The logical lines of a stream made of simple lines, at the fuel `ini_read_stream` uses. -/
theorem logical_lines_simple_full (N : Nat) (ls : List CStr) (h : ∀ l ∈ ls, simple_line N l)
    (hN : 2 ≤ N) :
    logical_lines N (((ls.map (fun l => l ++ ['\n'])).flatten).length + 1)
      ⟨(ls.map (fun l => l ++ ['\n'])).flatten, false⟩ = some ls := by
  have hlen := flatten_lines_length ls
  obtain ⟨j, hj⟩ : ∃ j, ((ls.map (fun l => l ++ ['\n'])).flatten).length + 1 = ls.length + 1 + j :=
    ⟨((ls.map (fun l => l ++ ['\n'])).flatten).length - ls.length, by omega⟩
  rw [hj]
  exact logical_lines_mono N _ j _ _ (logical_lines_simple N ls h hN)

/-! ## Valid names, keys and values, and the lines they make -/

/-- The header line of a valid name is returned as it stands and names the section. -/
theorem header_line (N : Nat) (s : CStr) (hs : valid_section_name s) (hts : line_text s)
    (hfit : ('[' :: s ++ [']']).length + 2 ≤ N) :
    simple_line N ('[' :: s ++ [']']) ∧ get_section ('[' :: s ++ [']']) = some s := by
  obtain ⟨hsne, hsb, hsh1, hsh2, hsl1, hsl2⟩ := hs
  have hlast : ('[' :: s ++ [']']).getLast? = some ']' := by
    have : '[' :: s ++ [']'] = ('[' :: s) ++ [']'] := rfl
    rw [this, List.getLast?_concat]
  constructor
  · refine ⟨⟨by simp, by simp, by simp, by simp, by simp, ?_, ?_⟩, ?_, ?_, hfit⟩
    · rw [hlast]; decide
    · intro x hx
      simp only [List.cons_append, List.mem_cons, List.mem_append, List.mem_singleton,
        List.not_mem_nil, or_false] at hx
      rcases hx with h | h | h
      · subst h; decide
      · exact hts x h
      · subst h; decide
    · rw [hlast]; decide
    · rw [hlast]; decide
  · have := get_section_header [] s [] (by simp) (by simp) hsne ⟨hsh1, hsh2⟩
      ⟨hsl1, hsl2, ?_⟩ hsb
    · simpa using this
    · intro h
      exact (hts NUL (List.mem_of_getLast?_eq_some h)).2 rfl

/-- The line `k ws* sep ws* v` of a valid key and value is returned as it stands, is not
a header, and splits into `(k, v)`. -/
theorem kv_line (N : Nat) (k v ws1 ws2 : CStr) (sep : Char)
    (hk : valid_key k) (hv : valid_value v) (htk : line_text k) (htv : line_text v)
    (hsep : sep = '=' ∨ sep = ':')
    (h1 : ∀ c ∈ ws1, c = ' ' ∨ c = '\t') (h2 : ∀ c ∈ ws2, c = ' ' ∨ c = '\t')
    (hfit : (k ++ ws1 ++ [sep] ++ ws2 ++ v).length + 2 ≤ N) :
    simple_line N (k ++ ws1 ++ [sep] ++ ws2 ++ v) ∧
    get_section (k ++ ws1 ++ [sep] ++ ws2 ++ v) = none ∧
    get_key_value (k ++ ws1 ++ [sep] ++ ws2 ++ v) = some (k, v) := by
  obtain ⟨hkne, hkc, hk1, hk2, hk3⟩ := hk
  obtain ⟨hvne, hvh1, hvh2, hvl1, hvl2, hvl3⟩ := hv
  obtain ⟨k0, kt, rfl⟩ := List.exists_cons_of_ne_nil hkne
  obtain ⟨vd, vl, rfl⟩ : ∃ vd vl, v = vd ++ [vl] :=
    ⟨v.dropLast, v.getLast hvne, (List.dropLast_append_getLast hvne).symm⟩
  have hk0 := hkc k0 (List.mem_cons_self _ _)
  have hlast2 : (k0 :: kt ++ ws1 ++ [sep] ++ ws2 ++ (vd ++ [vl])).getLast? = some vl := by
    have : k0 :: kt ++ ws1 ++ [sep] ++ ws2 ++ (vd ++ [vl])
        = (k0 :: kt ++ ws1 ++ [sep] ++ ws2 ++ vd) ++ [vl] := by simp
    rw [this, List.getLast?_concat]
  have hvl : vl ≠ ' ' ∧ vl ≠ '\t' ∧ vl ≠ '\\' :=
    ⟨fun h => hvl1 (by simp [h]), fun h => hvl2 (by simp [h]), fun h => hvl3 (by simp [h])⟩
  refine ⟨⟨⟨by simp, ?_, ?_, ?_, ?_, ?_, ?_⟩, ?_, ?_, hfit⟩, ?_, ?_⟩
  · simp only [List.cons_append, List.head?_cons, ne_eq, Option.some.injEq]; exact hk0.1
  · simp only [List.cons_append, List.head?_cons, ne_eq, Option.some.injEq]; exact hk0.2.1
  · simp only [List.cons_append, List.head?_cons, ne_eq, Option.some.injEq]
    exact fun h => hk1 (by simp [h])
  · simp only [List.cons_append, List.head?_cons, ne_eq, Option.some.injEq]
    exact fun h => hk2 (by simp [h])
  · rw [hlast2]; simpa using hvl.2.2
  · intro x hx
    simp only [List.mem_append, List.mem_singleton] at hx
    rcases hx with (((h | h) | h) | h) | h
    · exact htk x h
    · rcases h1 x h with h | h <;> subst h <;> decide
    · subst h; rcases hsep with h | h <;> subst h <;> decide
    · rcases h2 x h with h | h <;> subst h <;> decide
    · exact htv x (by simpa using h)
  · rw [hlast2]; simpa using hvl.1
  · rw [hlast2]; simpa using hvl.2.1
  · apply get_section_none_of_head
    simp only [List.cons_append, List.head?_cons, ne_eq, Option.some.injEq]
    exact fun h => hk3 (by simp [h])
  · exact get_key_value_layout (k0 :: kt) (vd ++ [vl]) ws1 ws2 sep hkne hkc hvne ⟨hvh1, hvh2⟩
      h1 h2 hsep

/-! ## What every name returned by `get_section` satisfies -/

theorem getElem?_after_takeWhile {α : Type} (q : α → Bool) (l : List α) (c : α)
    (h : l[(l.takeWhile q).length]? = some c) : q c = false := by
  induction l with
  | nil => simp at h
  | cons a as ih =>
    by_cases ha : q a = true
    · rw [List.takeWhile_cons_of_pos ha, List.length_cons, List.getElem?_cons_succ] at h
      exact ih h
    · rw [List.takeWhile_cons_of_neg ha] at h
      simp only [List.length_nil, List.getElem?_cons_zero, Option.some.injEq] at h
      rw [← h]
      simpa using ha

theorem mem_take_le_takeWhile {α : Type} (q : α → Bool) (l : List α) (k : Nat) (c : α)
    (hc : c ∈ l.take k) (hk : k ≤ (l.takeWhile q).length) : q c = true := by
  have hsplit := List.takeWhile_append_dropWhile q l
  rw [← hsplit, List.take_append_of_le_length hk] at hc
  exact List.mem_takeWhile_imp (List.mem_of_mem_take hc)

theorem trim_stop_le (str : CStr) (s : Nat) : trim_stop str s ≤ s := by
  induction s with
  | zero => simp [trim_stop]
  | succ k ih =>
    unfold trim_stop
    simp only
    split
    · omega
    · omega

theorem trim_stop_spec (str : CStr) (s : Nat) :
    trim_stop str s = 0 ∨
      (str.getD (trim_stop str s) NUL ∉ WS ∧ str.getD (trim_stop str s) NUL ≠ NUL) := by
  induction s with
  | zero => left; simp [trim_stop]
  | succ k ih =>
    unfold trim_stop
    simp only
    split
    · exact ih
    · rename_i hc
      right
      exact ⟨fun h => hc (Or.inl h), fun h => hc (Or.inr h)⟩

/-- Every name returned by `get_section` begins and ends with a character that is not a
space or tab, and holds no `]` after its first character. -/
theorem get_section_name_props (str name : CStr) (h : get_section str = some name) :
    name.head? ≠ some ' ' ∧ name.head? ≠ some '\t' ∧
    name.getLast? ≠ some ' ' ∧ name.getLast? ≠ some '\t' ∧
    ∀ c ∈ name.tail, c ≠ ']' := by
  unfold get_section at h
  split at h
  swap
  · simp at h
  simp only [Option.some.injEq] at h
  unfold section_bounds at h
  simp only [Nat.add_sub_cancel] at h
  generalize hp : str.drop 1 = p at h
  generalize hstop : trim_stop str
    (strspn p WS + 1 + strcspn (p.drop (strspn p WS + 1)) [']']) = stop at h
  have hle : stop ≤ strspn p WS + 1 + strcspn (p.drop (strspn p WS + 1)) [']'] := by
    rw [← hstop]; exact trim_stop_le _ _
  have hspec := trim_stop_spec str
    (strspn p WS + 1 + strcspn (p.drop (strspn p WS + 1)) [']'])
  rw [hstop] at hspec
  -- the first character
  have hhead : ∀ c, name.head? = some c → c ∉ WS := by
    intro c hc
    rw [← h, List.head?_drop, List.getElem?_take] at hc
    split at hc
    · have := getElem?_after_takeWhile (fun c => decide (c ∈ WS)) p c hc
      simpa using this
    · simp at hc
  -- the last character
  have hlast : ∀ c, name.getLast? = some c → c ∉ WS := by
    intro c hc
    rw [← h, List.getLast?_drop] at hc
    split at hc
    · simp at hc
    · rw [List.getLast?_take] at hc
      split at hc
      · simp at hc
      · rename_i hs0
        rcases hspec with h0 | ⟨hw, hn⟩
        · exact absurd h0 hs0
        · have hlt : stop < str.length := by
            by_contra hge
            exact hn (List.getD_eq_default _ _ (by omega))
          have hget : str[stop]? = some (str.getD stop NUL) := by
            rw [List.getD_eq_getElem?_getD, List.getElem?_eq_getElem hlt]
            simp
          have hpget : p[stop - 1]? = some (str.getD stop NUL) := by
            rw [← hp, List.getElem?_drop]
            have : 1 + (stop - 1) = stop := by omega
            rw [this]
            exact hget
          rw [hpget] at hc
          have hc2 : str.getD stop NUL = c := by simpa [Option.or] using hc
          rw [← hc2]
          exact hw
  refine ⟨fun hc => hhead ' ' hc (by decide), fun hc => hhead '\t' hc (by decide),
    fun hc => hlast ' ' hc (by decide), fun hc => hlast '\t' hc (by decide), ?_⟩
  intro c hc
  rw [← h, List.tail_drop, List.drop_take] at hc
  have := mem_take_le_takeWhile (fun c => decide (c ∉ [']'])) (p.drop (strspn p WS + 1))
    (stop - (strspn p WS + 1)) c hc (by
      have : strcspn (p.drop (strspn p WS + 1)) [']']
          = ((p.drop (strspn p WS + 1)).takeWhile (fun c => decide (c ∉ [']']))).length := rfl
      omega)
  simpa using this

/-! ## The stream search against the document lookup -/

theorem strspn_WS (s : CStr) : strspn s WS = strspn s ['\t', ' '] := by
  unfold strspn WS
  congr 2
  funext c
  simp [or_comm]

theorem strcspn_le (s reject : CStr) : strcspn s reject ≤ s.length := by
  unfold strcspn
  exact (List.takeWhile_prefix _).length_le

/-- A line that `get_key_value` splits into `(key, v)` is matched by `get_val_from_string`
for that key, with the same value. -/
theorem get_val_of_get_key_value (l key v : CStr) (h : get_key_value l = some (key, v)) :
    get_val_from_string l key = some v := by
  unfold get_key_value at h
  simp only at h
  split at h
  · simp at h
  split at h
  · simp at h
  rename_i hsep
  split at h
  · simp at h
  simp only [Option.some.injEq, Prod.mk.injEq] at h
  obtain ⟨hk, hv⟩ := h
  have hlen : key.length = strcspn l ['\t', ' ', '=', ':'] := by
    rw [← hk, List.length_take]
    exact Nat.min_eq_left (strcspn_le _ _)
  unfold get_val_from_string
  rw [hlen, if_pos hk]
  simp only [strspn_WS]
  rw [List.drop_drop]
  have hsep2 : (l.drop (strcspn l ['\t', ' ', '=', ':'] +
      strspn (l.drop (strcspn l ['\t', ' ', '=', ':'])) ['\t', ' '])).headD NUL = '=' ∨
      (l.drop (strcspn l ['\t', ' ', '=', ':'] +
      strspn (l.drop (strcspn l ['\t', ' ', '=', ':'])) ['\t', ' '])).headD NUL = ':' := by
    by_contra hc
    exact hsep ⟨fun h => hc (Or.inl h), fun h => hc (Or.inr h)⟩
  rw [if_pos hsep2, Nat.add_comm _ 1, hv]

/-- For a key without blanks and separators, a match of `get_val_from_string` with a
non-empty value is a line that `get_key_value` splits into that key and value. -/
theorem get_key_value_of_get_val (l key v : CStr)
    (hkc : ∀ c ∈ key, c ≠ ' ' ∧ c ≠ '\t' ∧ c ≠ '=' ∧ c ≠ ':') (hkne : key ≠ [])
    (h : get_val_from_string l key = some v) (hv : v ≠ []) :
    get_key_value l = some (key, v) := by
  unfold get_val_from_string at h
  split at h
  swap
  · simp at h
  rename_i htake
  simp only at h
  split at h
  swap
  · simp at h
  rename_i hsep
  simp only [Option.some.injEq] at h
  have hl : l = key ++ l.drop key.length := by
    conv_lhs => rw [← List.take_append_drop key.length l, htake]
  generalize l.drop key.length = p at hl hsep h
  subst hl
  -- the first character after the key is a blank or the separator
  have hp : ∃ c rest, p = c :: rest ∧ c ∈ ['\t', ' ', '=', ':'] := by
    cases p with
    | nil =>
      simp only [List.drop_nil, List.headD_nil] at hsep
      rcases hsep with h | h <;> exact absurd h (by decide)
    | cons c rest =>
      refine ⟨c, rest, rfl, ?_⟩
      by_cases hc : c ∈ WS
      · simp only [WS, List.mem_cons, List.mem_singleton, List.not_mem_nil, or_false] at hc
        rcases hc with h | h <;> subst h <;> decide
      · have h0 : strspn (c :: rest) WS = 0 := by
          unfold strspn
          rw [List.takeWhile_cons_of_neg (by simpa using hc)]
          rfl
        rw [h0] at hsep
        simp only [List.drop_zero, List.headD_cons] at hsep
        rcases hsep with h | h <;> subst h <;> decide
  obtain ⟨c, rest, hpe, hc⟩ := hp
  have hkk : ∀ x ∈ key, x ∉ ['\t', ' ', '=', ':'] := by
    intro x hx
    have := hkc x hx
    simp only [List.mem_cons, List.mem_singleton, List.not_mem_nil, or_false, not_or]
    exact ⟨this.2.1, this.1, this.2.2.1, this.2.2.2⟩
  have e1 : strcspn (key ++ p) ['\t', ' ', '=', ':'] = key.length := by
    rw [hpe]
    exact strcspn_app_cons key c rest _ hkk hc
  have hklen : ¬ key.length < 1 := by
    have := List.length_pos.mpr hkne
    omega
  unfold get_key_value
  simp only [e1, List.drop_left, List.take_left]
  rw [if_neg hklen]
  rw [← List.drop_drop, List.drop_left, ← strspn_WS]
  have hsep2 : ¬ ((p.drop (strspn p WS)).headD NUL ≠ '=' ∧ (p.drop (strspn p WS)).headD NUL ≠ ':') := by
    intro hc2
    rcases hsep with h | h
    · exact hc2.1 h
    · exact hc2.2 h
  rw [if_neg hsep2, ← strspn_WS, Nat.add_comm 1 _, h]
  have hvlen : ¬ v.length < 1 := by
    have := List.length_pos.mpr hv
    omega
  rw [if_neg hvlen]

/-- The reterminated header line starts with `[`, so no key that starts otherwise matches it. -/
theorem get_val_reterm_none (l sec key : CStr) (h : get_section l = some sec)
    (hkne : key ≠ []) (hk : key.head? ≠ some '[') :
    get_val_from_string (get_section_reterm l) key = none := by
  unfold get_section at h
  split at h
  swap
  · simp at h
  rename_i hg
  unfold get_section_reterm
  rw [if_pos hg]
  unfold get_val_from_string
  rw [if_neg]
  intro htake
  apply hk
  obtain ⟨k0, kt, rfl⟩ := List.exists_cons_of_ne_nil hkne
  have hh := congrArg List.head? htake
  rw [List.take_take] at hh
  cases l with
  | nil => simp at hg
  | cons a as =>
    have ha : a = '[' := by simpa using hg.1
    subst ha
    have hm : min (k0 :: kt).length (1 + (section_bounds ('[' :: as)).2)
        = (min kt.length (section_bounds ('[' :: as)).2) + 1 := by
      simp only [List.length_cons]; omega
    rw [hm, List.take_succ_cons] at hh
    simpa using hh.symm

/-- Inside the target section the search finds what `find_key` finds in the block. -/
theorem search_loop_in_section (sect key : CStr) (ls : List CStr) (e : IniErr)
    (hkc : ∀ c ∈ key, c ≠ ' ' ∧ c ≠ '\t' ∧ c ≠ '=' ∧ c ≠ ':') (hkne : key ≠ [])
    (hval : ∀ l ∈ ls, get_val_from_string l key ≠ some []) :
    search_loop sect key ls true e =
      match find_key key (block_items ls) with
      | some v => (some v, IniErr.INI_OK)
      | none => (none, e) := by
  induction ls with
  | nil => rfl
  | cons l ls ih =>
    have ih' := ih (fun x hx => hval x (List.mem_cons_of_mem _ hx))
    unfold search_loop
    cases hs : get_section l with
    | some sec =>
      simp only [if_true]
      rw [block_items_header l ls sec hs]
      rfl
    | none =>
      simp only [if_true]
      rw [block_items_line l ls hs]
      cases hg : get_val_from_string l key with
      | some v =>
        have hv : v ≠ [] := fun h0 => hval l (List.mem_cons_self _ _) (by rw [hg, h0])
        have hkv := get_key_value_of_get_val l key v hkc hkne hg hv
        simp [kv_of_line, hkv, find_key]
      | none =>
        simp only
        rw [ih']
        cases hkv : get_key_value l with
        | none => simp [kv_of_line, hkv]
        | some pr =>
          obtain ⟨k1, v1⟩ := pr
          have hne : k1 ≠ key := by
            intro heq
            subst heq
            have := get_val_of_get_key_value l k1 v1 hkv
            rw [hg] at this
            simp at this
          simp [kv_of_line, hkv, find_key, hne]

/-- Before the target section the search follows the section list of the headers. -/
theorem search_loop_headers (sect key : CStr) (ls : List CStr)
    (hkc : ∀ c ∈ key, c ≠ ' ' ∧ c ≠ '\t' ∧ c ≠ '=' ∧ c ≠ ':') (hkne : key ≠ [])
    (hk : key.head? ≠ some '[')
    (hval : ∀ l ∈ ls, get_val_from_string l key ≠ some []) :
    search_loop sect key ls false IniErr.INI_NOSECTION
      = ini_get_value_loop sect key (header_sections ls) := by
  induction ls with
  | nil => rfl
  | cons l ls ih =>
    have hval' : ∀ x ∈ ls, get_val_from_string x key ≠ some [] :=
      fun x hx => hval x (List.mem_cons_of_mem _ hx)
    have ih' := ih hval'
    unfold search_loop header_sections
    cases hs : get_section l with
    | some sec =>
      simp only [Bool.false_eq_true, if_false]
      unfold ini_get_value_loop
      simp only
      by_cases heq : sect = sec
      · rw [if_pos heq, if_pos heq.symm, get_val_reterm_none l sec key hs hkne hk]
        simp only
        exact search_loop_in_section sect key ls IniErr.INI_NOKEY hkc hkne hval'
      · rw [if_neg heq, if_neg (fun h => heq h.symm)]
        exact ih'
    | none =>
      simp only [Bool.false_eq_true, if_false]
      exact ih'

theorem ini_get_value_loop_document (sect key : CStr) (ls : List CStr) (hsect : sect ≠ []) :
    ini_get_value_loop sect key (document_sections ls)
      = ini_get_value_loop sect key (header_sections ls) := by
  cases ls with
  | nil => rfl
  | cons l ls =>
    cases hs : get_section l with
    | some p => simp only [document_sections, hs]
    | none =>
      simp only [document_sections, hs]
      conv_lhs => unfold ini_get_value_loop
      rw [if_neg (fun h => hsect h.symm)]

/-! ## The buffer length does not matter when every physical line fits -/

theorem lines_fit_cur (m : Nat) (l : List Char) (cur : Nat) (h : lines_fit m l cur = true) :
    cur < m := by
  induction l generalizing cur with
  | nil => simpa [lines_fit] using h
  | cons c cs ih =>
    unfold lines_fit at h
    split at h
    · simp only [Bool.and_eq_true, decide_eq_true_eq] at h
      exact h.1
    · have := ih (cur + 1) h
      omega

theorem fgets_chars_fit (m : Nat) (l : List Char) (cur : Nat) (h : lines_fit m l cur = true) :
    fgets_chars (m - cur) l = first_line l ∧ lines_fit m (first_line l).2.1 0 = true := by
  induction l generalizing cur with
  | nil =>
    have hc := lines_fit_cur m [] cur h
    obtain ⟨j, hj⟩ : ∃ j, m - cur = j + 1 := ⟨m - cur - 1, by omega⟩
    rw [hj]
    refine ⟨rfl, ?_⟩
    simp only [first_line, lines_fit, decide_eq_true_eq]
    omega
  | cons c cs ih =>
    have hc := lines_fit_cur m (c :: cs) cur h
    obtain ⟨j, hj⟩ : ∃ j, m - cur = j + 1 := ⟨m - cur - 1, by omega⟩
    rw [hj]
    unfold lines_fit at h
    unfold fgets_chars first_line
    by_cases hnl : c = '\n'
    · rw [if_pos hnl] at h
      simp only [Bool.and_eq_true, decide_eq_true_eq] at h
      simp only [if_pos hnl]
      exact ⟨trivial, h.2⟩
    · rw [if_neg hnl] at h
      simp only [if_neg hnl]
      have hj2 : j = m - (cur + 1) := by omega
      obtain ⟨e1, e2⟩ := ih (cur + 1) h
      rw [hj2, e1]
      exact ⟨rfl, e2⟩

theorem fgets_fit (N : Nat) (fp : FILE) (h : lines_fit (N - 1) fp.data 0 = true) :
    fgets N fp = fgets_line_of fp ∧ lines_fit (N - 1) (fgets_line_of fp).2.data 0 = true := by
  obtain ⟨e1, e2⟩ := fgets_chars_fit (N - 1) fp.data 0 h
  rw [Nat.sub_zero] at e1
  unfold fgets fgets_line_of
  simp only [e1]
  refine ⟨trivial, ?_⟩
  split <;> exact e2

theorem skip_lines_fit (N M k : Nat) (fp : FILE)
    (hN : lines_fit (N - 1) fp.data 0 = true) (hM : lines_fit (M - 1) fp.data 0 = true) :
    skip_lines N k fp = skip_lines M k fp ∧
      ∀ r fp1, skip_lines N k fp = some (r, fp1) →
        lines_fit (N - 1) fp1.data 0 = true ∧ lines_fit (M - 1) fp1.data 0 = true := by
  induction k generalizing fp with
  | zero => exact ⟨rfl, fun r fp1 h => by simp [skip_lines] at h⟩
  | succ k ih =>
    obtain ⟨eN, fN⟩ := fgets_fit N fp hN
    obtain ⟨eM, fM⟩ := fgets_fit M fp hM
    unfold skip_lines
    rw [eN, eM]
    cases hf : fgets_line_of fp with
    | mk o fp1 =>
      rw [hf] at fN fM
      cases o with
      | none =>
        refine ⟨rfl, ?_⟩
        intro r fp2 h
        simp only [Option.some.injEq, Prod.mk.injEq] at h
        rw [← h.2]
        exact ⟨fN, fM⟩
      | some chunk =>
        simp only
        split
        · refine ⟨rfl, ?_⟩
          intro r fp2 h
          simp only [Option.some.injEq, Prod.mk.injEq] at h
          rw [← h.2]
          exact ⟨fN, fM⟩
        · exact ih fp1 fN fM

theorem cont_loop_fit (N M k : Nat) (fp : FILE) (rl : List Char) (cumlen : Int)
    (hN : lines_fit (N - 1) fp.data 0 = true) (hM : lines_fit (M - 1) fp.data 0 = true) :
    cont_loop N k fp rl cumlen = cont_loop M k fp rl cumlen ∧
      ∀ r fp1, cont_loop N k fp rl cumlen = some (r, fp1) →
        lines_fit (N - 1) fp1.data 0 = true ∧ lines_fit (M - 1) fp1.data 0 = true := by
  induction k generalizing fp rl cumlen with
  | zero => exact ⟨rfl, fun r fp1 h => by simp [cont_loop] at h⟩
  | succ k ih =>
    obtain ⟨eN, fN⟩ := fgets_fit N fp hN
    obtain ⟨eM, fM⟩ := fgets_fit M fp hM
    unfold cont_loop
    rw [eN, eM]
    cases hf : fgets_line_of fp with
    | mk o fp1 =>
      rw [hf] at fN fM
      cases o with
      | none =>
        refine ⟨rfl, ?_⟩
        intro r fp2 h
        simp only [Option.some.injEq, Prod.mk.injEq] at h
        rw [← h.2]
        exact ⟨fN, fM⟩
      | some chunk =>
        simp only
        split
        · exact ⟨rfl, fun r fp2 h => by simp at h⟩
        · split
          · exact ⟨rfl, fun r fp2 h => by simp at h⟩
          · split
            · split
              · exact ⟨rfl, fun r fp2 h => by simp at h⟩
              · refine ⟨rfl, ?_⟩
                intro r fp2 h
                simp only [Option.some.injEq, Prod.mk.injEq] at h
                rw [← h.2]
                exact ⟨fN, fM⟩
            · exact ih fp1 _ _ fN fM

theorem ini_readline_fit (N M : Nat) (fp : FILE)
    (hN : lines_fit (N - 1) fp.data 0 = true) (hM : lines_fit (M - 1) fp.data 0 = true) :
    ini_readline N fp = ini_readline M fp ∧
      ∀ o fp1, ini_readline N fp = some (o, fp1) →
        lines_fit (N - 1) fp1.data 0 = true ∧ lines_fit (M - 1) fp1.data 0 = true := by
  obtain ⟨es, fs⟩ := skip_lines_fit N M (fp.data.length + 1) fp hN hM
  unfold ini_readline
  rw [← es]
  cases hs : skip_lines N (fp.data.length + 1) fp with
  | none => exact ⟨rfl, fun o fp1 h => by simp at h⟩
  | some r =>
    obtain ⟨o, fp1⟩ := r
    obtain ⟨f1N, f1M⟩ := fs o fp1 hs
    cases o with
    | none =>
      refine ⟨rfl, ?_⟩
      intro o fp2 h
      simp only [Option.some.injEq, Prod.mk.injEq] at h
      rw [← h.2]
      exact ⟨f1N, f1M⟩
    | some pr =>
      obtain ⟨line_buf, adj⟩ := pr
      obtain ⟨ec, fc⟩ := cont_loop_fit N M (fp1.data.length + 1) fp1
        (line_buf.take (line_buf.length -
          (Int.tdiv ((get_nend line_buf ['\\', '\n'] : Int) - 1) 2).toNat - 1) ++ ['\n'] ++ [NUL])
        ((line_buf.length : Int) - Int.tdiv ((get_nend line_buf ['\\', '\n'] : Int) - 1) 2 - 2 - adj)
        f1N f1M
      simp only
      rw [← ec]
      refine ⟨rfl, ?_⟩
      intro o fp2 h
      split at h
      · simp only [Option.some.injEq, Prod.mk.injEq] at h
        rw [← h.2]
        exact ⟨f1N, f1M⟩
      · split at h
        · simp at h
        · rename_i rl fp3 heq
          have hfp3 : lines_fit (N - 1) fp3.data 0 = true ∧ lines_fit (M - 1) fp3.data 0 = true := by
            split at heq
            · exact fc rl fp3 heq
            · simp only [Option.some.injEq, Prod.mk.injEq] at heq
              rw [← heq.2]
              exact ⟨f1N, f1M⟩
          split at h
          · simp only [Option.some.injEq, Prod.mk.injEq] at h
            rw [← h.2]
            exact hfp3
          · simp at h

theorem logical_lines_fit (N M k : Nat) (fp : FILE)
    (hN : lines_fit (N - 1) fp.data 0 = true) (hM : lines_fit (M - 1) fp.data 0 = true) :
    logical_lines N k fp = logical_lines M k fp := by
  induction k generalizing fp with
  | zero => rfl
  | succ k ih =>
    obtain ⟨er, fr⟩ := ini_readline_fit N M fp hN hM
    unfold logical_lines
    rw [← er]
    cases hr : ini_readline N fp with
    | none => rfl
    | some r =>
      obtain ⟨o, fp1⟩ := r
      cases o with
      | none => rfl
      | some line =>
        simp only
        obtain ⟨f1N, f1M⟩ := fr _ fp1 hr
        rw [ih fp1 f1N f1M]

theorem ini_read_value_loop_fit (N M : Nat) (sect key : CStr) (k : Nat) (fp : FILE)
    (b : Bool) (e : IniErr)
    (hN : lines_fit (N - 1) fp.data 0 = true) (hM : lines_fit (M - 1) fp.data 0 = true) :
    ini_read_value_loop N sect key k fp b e = ini_read_value_loop M sect key k fp b e := by
  induction k generalizing fp b e with
  | zero => rfl
  | succ k ih =>
    obtain ⟨er, fr⟩ := ini_readline_fit N M fp hN hM
    unfold ini_read_value_loop
    rw [← er]
    cases hr : ini_readline N fp with
    | none => rfl
    | some r =>
      obtain ⟨o, fp1⟩ := r
      cases o with
      | none => rfl
      | some line =>
        simp only
        obtain ⟨f1N, f1M⟩ := fr _ fp1 hr
        cases get_section line with
        | some sec =>
          simp only
          split
          · rfl
          · split
            · cases get_val_from_string (get_section_reterm line) key with
              | some v => rfl
              | none => exact ih fp1 _ _ f1N f1M
            · exact ih fp1 _ _ f1N f1M
        | none =>
          simp only
          split
          · cases get_val_from_string line key with
            | some v => rfl
            | none => exact ih fp1 _ _ f1N f1M
          · exact ih fp1 _ _ f1N f1M

/-- Two buffer lengths that both hold every physical line of the text give the same
logical lines, the same document and the same answer of the stream search. -/
theorem buffer_length_irrelevant (N M : Nat) (data : List Char)
    (hN : lines_fit (N - 1) data 0 = true) (hM : lines_fit (M - 1) data 0 = true) :
    ini_readline N ⟨data, false⟩ = ini_readline M ⟨data, false⟩ ∧
    ini_read_stream N ⟨data, false⟩ = ini_read_stream M ⟨data, false⟩ ∧
    ∀ sect key, ini_read_value N data sect key = ini_read_value M data sect key := by
  refine ⟨(ini_readline_fit N M ⟨data, false⟩ hN hM).1, ?_, ?_⟩
  · unfold ini_read_stream
    rw [ini_read_stream_loop_eq, ini_read_stream_loop_eq,
      logical_lines_fit N M _ ⟨data, false⟩ hN hM]
  · intro sect key
    unfold ini_read_value
    exact ini_read_value_loop_fit N M sect key _ ⟨data, false⟩ false _ hN hM

/-! ## Names are never empty -/

theorem cstr_no_nul (b : List Char) : ∀ c ∈ cstr b, c ≠ NUL := by
  intro c hc
  unfold cstr at hc
  simpa using List.mem_takeWhile_imp hc

/-- Every logical line returned by `ini_readline` is a C string: it holds no NUL. -/
theorem ini_readline_no_nul (N : Nat) (fp fp1 : FILE) (l : CStr)
    (h : ini_readline N fp = some (some l, fp1)) : ∀ c ∈ l, c ≠ NUL := by
  unfold ini_readline at h
  split at h
  · simp at h
  · simp at h
  · simp only at h
    split at h
    · simp at h
    · split at h
      · simp at h
      · split at h
        · simp only [Option.some.injEq, Prod.mk.injEq] at h
          intro c hc
          rw [← h.1] at hc
          exact cstr_no_nul _ c (List.mem_of_mem_take hc)
        · simp at h

theorem logical_lines_no_nul (N k : Nat) (fp : FILE) (ls : List CStr)
    (h : logical_lines N k fp = some ls) : ∀ l ∈ ls, ∀ c ∈ l, c ≠ NUL := by
  induction k generalizing fp ls with
  | zero => simp [logical_lines] at h
  | succ k ih =>
    unfold logical_lines at h
    cases hr : ini_readline N fp with
    | none => rw [hr] at h; simp at h
    | some r =>
      obtain ⟨o, fp1⟩ := r
      rw [hr] at h
      cases o with
      | none =>
        simp only [Option.some.injEq] at h
        rw [← h]; simp
      | some line =>
        simp only at h
        cases hl : logical_lines N k fp1 with
        | none => rw [hl] at h; simp at h
        | some ls1 =>
          rw [hl] at h
          simp only [Option.map_some', Option.some.injEq] at h
          rw [← h]
          intro l hmem
          rcases List.mem_cons.mp hmem with h1 | h1
          · rw [h1]; exact ini_readline_no_nul N fp fp1 line hr
          · exact ih fp1 ls1 hl l h1

theorem trim_stop_ge (str : CStr) (j s : Nat) (hjs : j ≤ s)
    (hj : str.getD j NUL ∉ WS ∧ str.getD j NUL ≠ NUL) : j ≤ trim_stop str s := by
  induction s with
  | zero => simp [trim_stop]; omega
  | succ k ih =>
    unfold trim_stop
    simp only
    split
    · rename_i hc
      by_cases hjk : j = k + 1
      · rw [← hjk] at hc
        rcases hc with h | h
        · exact absurd h hj.1
        · exact absurd h hj.2
      · exact ih (by omega)
    · exact hjs

/-- On a C string, the backward loop of `get_section` does not move before the first
non-blank character after the opening bracket, and the name is not empty. -/
theorem get_section_nonempty (str name : CStr) (hstr : ∀ c ∈ str, c ≠ NUL)
    (h : get_section str = some name) :
    (section_bounds str).1 ≤ (section_bounds str).2 ∧ 1 ≤ name.length := by
  unfold get_section at h
  split at h
  swap
  · simp at h
  rename_i hg
  simp only [Option.some.injEq] at h
  unfold section_bounds at h ⊢
  simp only [Nat.add_sub_cancel] at h ⊢
  generalize hp : str.drop 1 = p at h
  -- the closing bracket is not blank, so the run of blanks ends inside `p`
  have hplast : p.getLast? = some ']' := by
    rw [← hp, List.getLast?_drop, if_neg (by omega)]
    exact hg.2.2
  have hnw : strspn p WS < p.length := by
    by_contra hge
    have hle : strspn p WS ≤ p.length := by
      unfold strspn
      exact (List.takeWhile_prefix _).length_le
    have heq : (p.takeWhile (fun c => decide (c ∈ WS))).length = p.length := by
      unfold strspn at hge hle
      omega
    have hall : p.takeWhile (fun c => decide (c ∈ WS)) = p :=
      (List.takeWhile_prefix _).eq_of_length heq
    have hmem : (']' : Char) ∈ p := List.mem_of_getLast?_eq_some hplast
    rw [← hall] at hmem
    have := List.mem_takeWhile_imp hmem
    simp [WS] at this
  have hget : p[strspn p WS]? = some (p[strspn p WS]) := List.getElem?_eq_getElem hnw
  have hc1 : p[strspn p WS] ∉ WS := by
    have := getElem?_after_takeWhile (fun c => decide (c ∈ WS)) p _ hget
    simpa using this
  have hc2 : p[strspn p WS] ≠ NUL := by
    apply hstr
    have hm : p[strspn p WS] ∈ p := List.getElem_mem _
    have hsub : ∀ x ∈ p, x ∈ str := fun x hx => List.mem_of_mem_drop (hp ▸ hx)
    exact hsub _ hm
  have hstrget : str.getD (strspn p WS + 1) NUL = p[strspn p WS] := by
    rw [List.getD_eq_getElem?_getD]
    have : str[strspn p WS + 1]? = p[strspn p WS]? := by
      rw [← hp, List.getElem?_drop, Nat.add_comm]
    rw [this, hget]
    rfl
  have hge := trim_stop_ge str (strspn p WS + 1)
    (strspn p WS + 1 + strcspn (p.drop (strspn p WS + 1)) [']']) (by omega)
    (by rw [hstrget]; exact ⟨hc1, hc2⟩)
  refine ⟨hge, ?_⟩
  rw [← h, List.length_drop, List.length_take]
  omega

/-! ## What every stored pair satisfies -/

theorem take_takeWhile_length {α : Type} (q : α → Bool) (l : List α) :
    l.take (l.takeWhile q).length = l.takeWhile q :=
  (List.prefix_iff_eq_take.mp (List.takeWhile_prefix q)).symm

/-- A pair returned by `get_key_value` has a non-empty key without blanks and separators
and a non-empty value that does not start with a blank. -/
theorem get_key_value_props (l k v : CStr) (h : get_key_value l = some (k, v)) :
    1 ≤ k.length ∧ (∀ c ∈ k, c ≠ ' ' ∧ c ≠ '\t' ∧ c ≠ '=' ∧ c ≠ ':') ∧
    1 ≤ v.length ∧ v.head? ≠ some ' ' ∧ v.head? ≠ some '\t' := by
  unfold get_key_value at h
  simp only at h
  split at h
  · simp at h
  rename_i hk1
  split at h
  · simp at h
  split at h
  · simp at h
  rename_i hv1
  simp only [Option.some.injEq, Prod.mk.injEq] at h
  obtain ⟨hk, hv⟩ := h
  have hkt : k = l.takeWhile (fun c => decide (c ∉ ['\t', ' ', '=', ':'])) := by
    rw [← hk]
    exact take_takeWhile_length _ l
  refine ⟨?_, ?_, ?_, ?_⟩
  · rw [hkt]
    unfold strcspn at hk1
    omega
  · intro c hc
    rw [hkt] at hc
    have := List.mem_takeWhile_imp hc
    simp only [List.mem_cons, List.mem_singleton, List.not_mem_nil, or_false, not_or,
      decide_eq_true_eq] at this
    exact ⟨this.2.1, this.1, this.2.2.1, this.2.2.2⟩
  · rw [← hv]; omega
  · generalize l.drop (strcspn l ['\t', ' ', '=', ':'] +
      strspn (l.drop (strcspn l ['\t', ' ', '=', ':'])) ['\t', ' ']) = P at hv
    have hhead : ∀ c, v.head? = some c → c ∉ ['\t', ' '] := by
      intro c hc
      rw [← hv, ← List.drop_drop, List.head?_drop] at hc
      have := getElem?_after_takeWhile (fun c => decide (c ∈ ['\t', ' '])) (P.drop 1) c hc
      simpa using this
    exact ⟨fun hc => hhead ' ' hc (by decide), fun hc => hhead '\t' hc (by decide)⟩

theorem block_items_source (ls : List CStr) (kv : ini_kv_pair) (h : kv ∈ block_items ls) :
    ∃ l ∈ ls, get_key_value l = some (kv.key, kv.value) := by
  unfold block_items at h
  obtain ⟨l, hl, hkv⟩ := List.mem_filterMap.mp h
  refine ⟨l, (List.takeWhile_prefix _).subset hl, ?_⟩
  unfold kv_of_line at hkv
  cases hg : get_key_value l with
  | none => rw [hg] at hkv; simp at hkv
  | some p =>
    rw [hg] at hkv
    simp only [Option.map_some', Option.some.injEq] at hkv
    rw [← hkv]

theorem header_sections_items (ls : List CStr) (s : ini_section) (hs : s ∈ header_sections ls)
    (kv : ini_kv_pair) (hkv : kv ∈ s.items) :
    ∃ l ∈ ls, get_key_value l = some (kv.key, kv.value) := by
  induction ls with
  | nil => simp [header_sections] at hs
  | cons l ls ih =>
    unfold header_sections at hs
    cases hg : get_section l with
    | some p =>
      rw [hg] at hs
      simp only [List.mem_cons] at hs
      rcases hs with h | h
      · rw [h] at hkv
        obtain ⟨l1, hl1, h1⟩ := block_items_source ls kv hkv
        exact ⟨l1, List.mem_cons_of_mem _ hl1, h1⟩
      · obtain ⟨l1, hl1, h1⟩ := ih h
        exact ⟨l1, List.mem_cons_of_mem _ hl1, h1⟩
    | none =>
      rw [hg] at hs
      obtain ⟨l1, hl1, h1⟩ := ih hs
      exact ⟨l1, List.mem_cons_of_mem _ hl1, h1⟩

/-- Every pair of a built document was returned by `get_key_value` on a logical line. -/
theorem document_sections_items (ls : List CStr) (s : ini_section)
    (hs : s ∈ document_sections ls) (kv : ini_kv_pair) (hkv : kv ∈ s.items) :
    ∃ l ∈ ls, get_key_value l = some (kv.key, kv.value) := by
  cases ls with
  | nil => simp [document_sections] at hs
  | cons l ls =>
    cases hg : get_section l with
    | some p =>
      simp only [document_sections, hg] at hs
      exact header_sections_items _ s hs kv hkv
    | none =>
      simp only [document_sections, hg, List.mem_cons] at hs
      rcases hs with h | h
      · rw [h] at hkv
        exact block_items_source _ kv hkv
      · exact header_sections_items _ s h kv hkv

theorem block_and_header_items (ls : List CStr) :
    block_items ls ++ ((header_sections ls).map (fun s => s.items)).flatten
      = ls.filterMap line_pair := by
  induction ls with
  | nil => rfl
  | cons l ls ih =>
    cases hg : get_section l with
    | some p =>
      rw [block_items_header l ls p hg]
      simp only [header_sections, hg, List.map_cons, List.flatten_cons, List.nil_append]
      rw [ih, List.filterMap_cons]
      simp [line_pair, hg]
    | none =>
      rw [block_items_line l ls hg]
      simp only [header_sections, hg]
      rw [List.append_assoc, ih, List.filterMap_cons]
      simp only [line_pair, hg, if_true]
      cases kv_of_line l <;> rfl

/-- All pairs of a built document, in order: the pairs of its non-header lines. -/
theorem document_sections_all_items (ls : List CStr) :
    ((document_sections ls).map (fun s => s.items)).flatten = ls.filterMap line_pair := by
  cases ls with
  | nil => rfl
  | cons l ls =>
    cases hg : get_section l with
    | some p =>
      simp only [document_sections, hg]
      have := block_and_header_items (l :: ls)
      rw [block_items_header l ls p hg, List.nil_append] at this
      exact this
    | none =>
      simp only [document_sections, hg, List.map_cons, List.flatten_cons]
      exact block_and_header_items (l :: ls)

/-- A line with an empty key: it is empty or starts with a blank or a separator. -/
theorem get_key_value_empty_key (l : CStr)
    (h : l = [] ∨ l.head? = some ' ' ∨ l.head? = some '\t' ∨ l.head? = some '=' ∨
      l.head? = some ':') : get_key_value l = none := by
  have hk : strcspn l ['\t', ' ', '=', ':'] = 0 := by
    unfold strcspn
    cases l with
    | nil => rfl
    | cons a as =>
      have ha : a ∈ ['\t', ' ', '=', ':'] := by
        simp only [List.head?_cons, Option.some.injEq] at h
        rcases h with h | h | h | h | h
        · simp at h
        all_goals (subst h; decide)
      have hna : ¬ (decide (a ∉ ['\t', ' ', '=', ':']) = true) := by
        simp only [decide_eq_true_eq, not_not]
        exact ha
      rw [List.takeWhile_cons]
      simp only [hna, if_false]
      rfl
  unfold get_key_value
  simp only [hk]
  rfl

/-- A line without separator after the key: a bare word, or a word followed by blanks
and then by something that is not a separator. -/
theorem get_key_value_no_separator (k w rest : CStr) (hkne : k ≠ [])
    (hk : ∀ c ∈ k, c ≠ ' ' ∧ c ≠ '\t' ∧ c ≠ '=' ∧ c ≠ ':')
    (hw : ∀ c ∈ w, c = ' ' ∨ c = '\t')
    (hrest : rest = [] ∨
      (w ≠ [] ∧ ∃ c t, rest = c :: t ∧ c ≠ ' ' ∧ c ≠ '\t' ∧ c ≠ '=' ∧ c ≠ ':')) :
    get_key_value (k ++ w ++ rest) = none := by
  have hkk : ∀ x ∈ k, x ∉ ['\t', ' ', '=', ':'] := by
    intro x hx
    have := hk x hx
    simp only [List.mem_cons, List.mem_singleton, List.not_mem_nil, or_false, not_or]
    exact ⟨this.2.1, this.1, this.2.2.1, this.2.2.2⟩
  have hwacc : ∀ c ∈ w, c ∈ ['\t', ' '] := by
    intro c hc
    rcases hw c hc with h | h <;> subst h <;> decide
  have hklen : ¬ k.length < 1 := by
    have := List.length_pos.mpr hkne
    omega
  have e1 : strcspn (k ++ w ++ rest) ['\t', ' ', '=', ':'] = k.length := by
    cases w with
    | nil =>
      rcases hrest with h | ⟨h, -⟩
      · subst h
        simpa using strcspn_all k _ hkk
      · exact absurd rfl h
    | cons a as =>
      have : k ++ a :: as ++ rest = k ++ a :: (as ++ rest) := by simp
      rw [this]
      refine strcspn_app_cons k a _ _ hkk ?_
      rcases hw a (List.mem_cons_self _ _) with h | h <;> subst h <;> decide
  have e2 : (k ++ w ++ rest).drop k.length = w ++ rest := by
    rw [List.append_assoc, List.drop_left]
  have e3 : strspn (w ++ rest) ['\t', ' '] = w.length := by
    rcases hrest with h | ⟨-, c, t, h, hc⟩
    · subst h
      simpa using strspn_all w _ hwacc
    · subst h
      exact strspn_app_cons w c t _ hwacc (by simp [hc.1, hc.2.1])
  have e4 : (k ++ w ++ rest).drop (k.length + w.length) = rest := by
    rw [← List.length_append, List.drop_left]
  have e5 : rest.headD NUL ≠ '=' ∧ rest.headD NUL ≠ ':' := by
    rcases hrest with h | ⟨-, c, t, h, hc⟩
    · subst h; decide
    · subst h; exact ⟨hc.2.2.1, hc.2.2.2⟩
  unfold get_key_value
  simp only [e1, e2, e3, e4]
  rw [if_neg hklen, if_pos e5]

/-- A line with nothing after the separator and its blanks. -/
theorem get_key_value_no_value (k w1 w2 : CStr) (sep : Char) (hkne : k ≠ [])
    (hk : ∀ c ∈ k, c ≠ ' ' ∧ c ≠ '\t' ∧ c ≠ '=' ∧ c ≠ ':')
    (hw1 : ∀ c ∈ w1, c = ' ' ∨ c = '\t') (hw2 : ∀ c ∈ w2, c = ' ' ∨ c = '\t')
    (hsep : sep = '=' ∨ sep = ':') :
    get_key_value (k ++ w1 ++ [sep] ++ w2) = none := by
  have hkk : ∀ x ∈ k, x ∉ ['\t', ' ', '=', ':'] := by
    intro x hx
    have := hk x hx
    simp only [List.mem_cons, List.mem_singleton, List.not_mem_nil, or_false, not_or]
    exact ⟨this.2.1, this.1, this.2.2.1, this.2.2.2⟩
  have hklen : ¬ k.length < 1 := by
    have := List.length_pos.mpr hkne
    omega
  have hsep1 : sep ∉ ['\t', ' '] := by rcases hsep with h | h <;> subst h <;> decide
  have hsep2 : sep ∈ ['\t', ' ', '=', ':'] := by rcases hsep with h | h <;> subst h <;> decide
  have e1 : strcspn (k ++ w1 ++ [sep] ++ w2) ['\t', ' ', '=', ':'] = k.length := by
    cases w1 with
    | nil =>
      have : k ++ [] ++ [sep] ++ w2 = k ++ sep :: w2 := by simp
      rw [this]
      exact strcspn_app_cons k sep _ _ hkk hsep2
    | cons a as =>
      have : k ++ a :: as ++ [sep] ++ w2 = k ++ a :: (as ++ [sep] ++ w2) := by simp
      rw [this]
      refine strcspn_app_cons k a _ _ hkk ?_
      rcases hw1 a (List.mem_cons_self _ _) with h | h <;> subst h <;> decide
  have e2 : (k ++ w1 ++ [sep] ++ w2).drop k.length = w1 ++ sep :: w2 := by
    have : k ++ w1 ++ [sep] ++ w2 = k ++ (w1 ++ sep :: w2) := by simp
    rw [this, List.drop_left]
  have e3 : strspn (w1 ++ sep :: w2) ['\t', ' '] = w1.length :=
    strspn_app_cons w1 sep _ _
      (fun x hx => by rcases hw1 x hx with h | h <;> subst h <;> decide) hsep1
  have e4 : (k ++ w1 ++ [sep] ++ w2).drop (k.length + w1.length) = sep :: w2 := by
    have : k ++ w1 ++ [sep] ++ w2 = (k ++ w1) ++ (sep :: w2) := by simp
    rw [this, ← List.length_append, List.drop_left]
  have e5 : strspn w2 ['\t', ' '] = w2.length :=
    strspn_all w2 _ (fun x hx => by rcases hw2 x hx with h | h <;> subst h <;> decide)
  have e6 : ¬ ((sep :: w2).headD NUL ≠ '=' ∧ (sep :: w2).headD NUL ≠ ':') := by
    simp only [List.headD_cons]
    rcases hsep with h | h <;> subst h <;> simp
  unfold get_key_value
  simp only [e1, e2, e3, e4]
  rw [if_neg hklen, if_neg e6]
  simp only [List.drop_succ_cons, List.drop_zero, e5]
  have e7 : (sep :: w2).drop (1 + w2.length) = [] := by
    rw [Nat.add_comm]; simp
  rw [e7]
  rfl

/-! ## Splitting a document at a header line -/

theorem block_items_append_header (a : List CStr) (h : CStr) (b : List CStr) (p : CStr)
    (hh : get_section h = some p) : block_items (a ++ h :: b) = block_items a := by
  unfold block_items
  induction a with
  | nil =>
    rw [List.nil_append, List.takeWhile_cons]
    simp [hh]
  | cons x xs ih =>
    rw [List.cons_append, List.takeWhile_cons, List.takeWhile_cons]
    by_cases hx : get_section x = none
    · simp only [hx, decide_True, if_true, List.filterMap_cons]
      simp only [hx, decide_True] at ih
      cases kv_of_line x with
      | none => simpa using ih
      | some kv => simpa using ih
    · simp [hx]

theorem header_sections_append_header (a : List CStr) (h : CStr) (b : List CStr) (p : CStr)
    (hh : get_section h = some p) :
    header_sections (a ++ h :: b) = header_sections a ++ header_sections (h :: b) := by
  induction a with
  | nil => rfl
  | cons x xs ih =>
    rw [List.cons_append]
    cases hx : get_section x with
    | none =>
      simp only [header_sections, hx]
      simpa [header_sections, hh] using ih
    | some q =>
      simp only [header_sections, hx, List.cons_append]
      rw [block_items_append_header xs h b p hh]
      rw [ih]
      simp only [header_sections]

theorem document_sections_append_header (a : List CStr) (h : CStr) (b : List CStr) (p : CStr)
    (hh : get_section h = some p) :
    document_sections (a ++ h :: b) = document_sections a ++ header_sections (h :: b) := by
  cases a with
  | nil =>
    simp only [List.nil_append, document_sections, hh]
  | cons x xs =>
    rw [List.cons_append]
    cases hx : get_section x with
    | none =>
      simp only [document_sections, hx, List.cons_append]
      rw [← List.cons_append, block_items_append_header (x :: xs) h b p hh,
        header_sections_append_header (x :: xs) h b p hh]
    | some q =>
      simp only [document_sections, hx]
      rw [← List.cons_append, header_sections_append_header (x :: xs) h b p hh]

theorem block_items_no_header (a : List CStr) (ha : ∀ l ∈ a, get_section l = none) :
    block_items a = a.filterMap kv_of_line := by
  unfold block_items
  rw [takeWhile_all]
  intro x hx
  simp [ha x hx]

/-! ## Inserting a line that is neither a header nor a pair -/

theorem block_items_insert (a : List CStr) (m : CStr) (b : List CStr)
    (hs : get_section m = none) (hk : get_key_value m = none) :
    block_items (a ++ m :: b) = block_items (a ++ b) := by
  induction a with
  | nil =>
    rw [List.nil_append, List.nil_append, block_items_line m b hs]
    simp [kv_of_line, hk]
  | cons x xs ih =>
    rw [List.cons_append, List.cons_append]
    cases hx : get_section x with
    | none => rw [block_items_line x _ hx, block_items_line x _ hx, ih]
    | some p => rw [block_items_header x _ p hx, block_items_header x _ p hx]

theorem header_sections_insert (a : List CStr) (m : CStr) (b : List CStr)
    (hs : get_section m = none) (hk : get_key_value m = none) :
    header_sections (a ++ m :: b) = header_sections (a ++ b) := by
  induction a with
  | nil => simp only [List.nil_append, header_sections, hs]
  | cons x xs ih =>
    rw [List.cons_append, List.cons_append]
    cases hx : get_section x with
    | none => simp only [header_sections, hx, ih]
    | some p => simp only [header_sections, hx, ih, block_items_insert xs m b hs hk]

theorem document_sections_insert (a : List CStr) (m : CStr) (b : List CStr)
    (hs : get_section m = none) (hk : get_key_value m = none)
    (hpos : a ≠ [] ∨ ∃ l rest, b = l :: rest ∧ get_section l = none) :
    document_sections (a ++ m :: b) = document_sections (a ++ b) := by
  cases a with
  | cons x xs =>
    rw [List.cons_append, List.cons_append]
    have hb := block_items_insert (x :: xs) m b hs hk
    have hh := header_sections_insert (x :: xs) m b hs hk
    rw [List.cons_append, List.cons_append] at hb hh
    cases hx : get_section x with
    | none => simp only [document_sections, hx, hb, hh]
    | some p => simp only [document_sections, hx, hh]
  | nil =>
    rcases hpos with h | ⟨l, rest, hb, hl⟩
    · exact absurd rfl h
    · rw [hb, List.nil_append, List.nil_append]
      have hb1 := block_items_insert [] m (l :: rest) hs hk
      have hh1 := header_sections_insert [] m (l :: rest) hs hk
      rw [List.nil_append, List.nil_append] at hb1 hh1
      simp only [document_sections, hs, hl, hb1, hh1]

theorem document_sections_insert_first (m : CStr) (b : List CStr)
    (hs : get_section m = none) (hk : get_key_value m = none)
    (hpos : b = [] ∨ ∃ l rest p, b = l :: rest ∧ get_section l = some p) :
    document_sections (m :: b) = ⟨[], []⟩ :: document_sections b := by
  have hb1 := block_items_insert [] m b hs hk
  have hh1 := header_sections_insert [] m b hs hk
  rw [List.nil_append, List.nil_append] at hb1 hh1
  rcases hpos with h | ⟨l, rest, p, hb, hl⟩
  · rw [h]
    rw [h] at hb1 hh1
    simp only [document_sections, hs, hb1, hh1]
    rfl
  · rw [hb]
    rw [hb] at hb1 hh1
    simp only [document_sections, hs, hl, hb1, hh1, block_items_header l rest p hl]

/-! ## Reading a stream that is followed by more characters -/

theorem fgets_chars_append (m : Nat) (d s : List Char) (h : (fgets_chars m d).2.2 = false) :
    fgets_chars m (d ++ s) = ((fgets_chars m d).1, (fgets_chars m d).2.1 ++ s, false) := by
  induction m generalizing d with
  | zero => simp [fgets_chars]
  | succ m ih =>
    cases d with
    | nil => simp [fgets_chars] at h
    | cons c cs =>
      rw [List.cons_append]
      unfold fgets_chars
      by_cases hc : c = '\n'
      · simp [hc]
      · unfold fgets_chars at h
        simp only [hc, if_false] at h ⊢
        rw [ih cs h]

theorem fgets_append (N : Nat) (d : List Char) (e : Bool) (s : List Char)
    (o : Option (List Char)) (d1 : List Char) (h : fgets N ⟨d, e⟩ = (o, ⟨d1, false⟩)) :
    e = false ∧ fgets N ⟨d ++ s, false⟩ = (o, ⟨d1 ++ s, false⟩) := by
  unfold fgets at h ⊢
  simp only at h ⊢
  split at h
  · simp at h
  · rename_i hc
    simp only [Prod.mk.injEq, FILE.mk.injEq, Bool.or_eq_false_iff] at h
    obtain ⟨ho, hd, he, hf⟩ := h
    rw [fgets_chars_append (N - 1) d s hf]
    simp only [Bool.or_false, Bool.false_eq_true, and_false, if_false, ho, hd]
    exact ⟨he, trivial⟩

theorem fgets_none_eof (N : Nat) (fp fp1 : FILE) (h : fgets N fp = (none, fp1)) :
    fp1.eof = true := by
  unfold fgets at h
  simp only at h
  split at h
  · simp only [Prod.mk.injEq, true_and] at h
    rw [← h]
  · simp at h

theorem skip_lines_append (N k : Nat) (d : List Char) (e : Bool) (s : List Char)
    (x : CStr × Nat) (d1 : List Char)
    (h : skip_lines N k ⟨d, e⟩ = some (some x, ⟨d1, false⟩)) :
    e = false ∧ skip_lines N k ⟨d ++ s, false⟩ = some (some x, ⟨d1 ++ s, false⟩) := by
  induction k generalizing d e with
  | zero => simp [skip_lines] at h
  | succ k ih =>
    unfold skip_lines at h ⊢
    cases hf : fgets N ⟨d, e⟩ with
    | mk o fp1 =>
      obtain ⟨d2, e2⟩ := fp1
      rw [hf] at h
      cases o with
      | none => simp at h
      | some chunk =>
        simp only at h
        by_cases ha : (filter_line (cstr chunk) (cstr chunk).length).2.2 = true
        · rw [if_pos ha] at h
          simp only [Option.some.injEq, Prod.mk.injEq, FILE.mk.injEq] at h
          obtain ⟨hx, hd2, he2⟩ := h
          rw [hd2, he2] at hf
          obtain ⟨he, hf2⟩ := fgets_append N d e s _ d1 hf
          refine ⟨he, ?_⟩
          rw [hf2]
          simp only
          rw [if_pos ha, hx]
        · rw [if_neg ha] at h
          obtain ⟨he2, hrec⟩ := ih d2 e2 h
          rw [he2] at hf
          obtain ⟨he, hf2⟩ := fgets_append N d e s _ d2 hf
          refine ⟨he, ?_⟩
          rw [hf2]
          simp only
          rw [if_neg ha]
          exact hrec

theorem cont_loop_append (N k : Nat) (d : List Char) (e : Bool) (s : List Char)
    (rl : List Char) (cumlen : Int) (rl1 d1 : List Char)
    (h : cont_loop N k ⟨d, e⟩ rl cumlen = some (rl1, ⟨d1, false⟩)) :
    e = false ∧ cont_loop N k ⟨d ++ s, false⟩ rl cumlen = some (rl1, ⟨d1 ++ s, false⟩) := by
  induction k generalizing d e rl cumlen with
  | zero => simp [cont_loop] at h
  | succ k ih =>
    unfold cont_loop at h ⊢
    cases hf : fgets N ⟨d, e⟩ with
    | mk o fp1 =>
      obtain ⟨d2, e2⟩ := fp1
      rw [hf] at h
      cases o with
      | none =>
        simp only [Option.some.injEq, Prod.mk.injEq, FILE.mk.injEq] at h
        have := fgets_none_eof N _ _ hf
        simp only at this
        rw [this] at h
        simp at h
      | some chunk =>
        simp only at h
        split at h
        · simp at h
        · rename_i h1
          split at h
          · simp at h
          · rename_i h2
            split at h
            · rename_i h3
              split at h
              · simp at h
              · rename_i h4
                simp only [Option.some.injEq, Prod.mk.injEq, FILE.mk.injEq] at h
                obtain ⟨hr, hd2, he2⟩ := h
                rw [hd2, he2] at hf
                obtain ⟨he, hf2⟩ := fgets_append N d e s _ d1 hf
                refine ⟨he, ?_⟩
                rw [hf2]
                simp only
                rw [if_neg h1, if_neg h2, if_pos h3, if_neg h4, hr]
            · rename_i h3
              obtain ⟨he2, hrec⟩ := ih d2 e2 _ _ h
              rw [he2] at hf
              obtain ⟨he, hf2⟩ := fgets_append N d e s _ d2 hf
              refine ⟨he, ?_⟩
              rw [hf2]
              simp only
              rw [if_neg h1, if_neg h2, if_neg h3]
              exact hrec

/-- A call of `ini_readline` that returns a line without meeting the end of the stream
returns the same line when more characters follow. -/
theorem ini_readline_append (N : Nat) (d s : List Char) (l : CStr) (d1 : List Char)
    (h : ini_readline N ⟨d, false⟩ = some (some l, ⟨d1, false⟩)) :
    ini_readline N ⟨d ++ s, false⟩ = some (some l, ⟨d1 ++ s, false⟩) := by
  unfold ini_readline at h ⊢
  simp only at h ⊢
  cases hs : skip_lines N (d.length + 1) ⟨d, false⟩ with
  | none => rw [hs] at h; simp at h
  | some r =>
    obtain ⟨o, fp1⟩ := r
    obtain ⟨d2, e2⟩ := fp1
    rw [hs] at h
    cases o with
    | none => simp at h
    | some pr =>
      obtain ⟨line_buf, adj⟩ := pr
      simp only at h
      cases e2 with
      | true => simp at h
      | false =>
        have hs2 := (skip_lines_append N (d.length + 1) d false s _ d2 hs).2
        have hs3 := skip_lines_mono N (d.length + 1) s.length _ _ hs2
        have hfuel : (d ++ s).length + 1 = d.length + 1 + s.length := by
          rw [List.length_append]; omega
        rw [hfuel, hs3]
        simp only [Bool.false_eq_true, if_false] at h ⊢
        by_cases hodd : ((get_nend line_buf ['\\', '\n'] : Int) - 1 > 0 ∧
            Int.tmod ((get_nend line_buf ['\\', '\n'] : Int) - 1) 2 ≠ 0)
        · rw [if_pos hodd] at h ⊢
          cases hc : cont_loop N (d2.length + 1) ⟨d2, false⟩
              (List.take (line_buf.length -
                (Int.tdiv ((get_nend line_buf ['\\', '\n'] : Int) - 1) 2).toNat - 1) line_buf ++
                ['\n'] ++ [NUL])
              ((line_buf.length : Int) - Int.tdiv ((get_nend line_buf ['\\', '\n'] : Int) - 1) 2
                - 2 - adj) with
          | none => rw [hc] at h; simp at h
          | some q =>
            obtain ⟨rl, fp2⟩ := q
            obtain ⟨d3, e3⟩ := fp2
            rw [hc] at h
            simp only at h
            split at h
            · rename_i hnul
              simp only [Option.some.injEq, Prod.mk.injEq, FILE.mk.injEq] at h
              obtain ⟨hl, hd3, he3⟩ := h
              rw [hd3, he3] at hc
              have hc2 := (cont_loop_append N (d2.length + 1) d2 false s _ _ rl d1 hc).2
              have hc3 := cont_loop_mono N (d2.length + 1) s.length _ _ _ _ hc2
              have hfuel2 : (d2 ++ s).length + 1 = d2.length + 1 + s.length := by
                rw [List.length_append]; omega
              rw [hfuel2, hc3]
              simp only
              rw [if_pos hnul, hl]
            · simp at h
        · rw [if_neg hodd] at h ⊢
          simp only at h ⊢
          split at h
          · rename_i hnul
            simp only [Option.some.injEq, Prod.mk.injEq, FILE.mk.injEq] at h
            rw [if_pos hnul, h.1, h.2.1]
          · simp at h

/-! ## Streams that stop at a line boundary -/

theorem fgets_chars_split (m : Nat) (d : List Char) :
    (fgets_chars m d).1 ++ (fgets_chars m d).2.1 = d := by
  induction m generalizing d with
  | zero => simp [fgets_chars]
  | succ m ih =>
    cases d with
    | nil => simp [fgets_chars]
    | cons c cs =>
      unfold fgets_chars
      by_cases hc : c = '\n'
      · simp [hc]
      · simp only [hc, if_false, List.cons_append, ih cs]

theorem ends_with_newline_suffix (a b : List Char) (h : ends_with_newline (a ++ b)) :
    ends_with_newline b := by
  unfold ends_with_newline at h ⊢
  cases b with
  | nil => exact Or.inl rfl
  | cons x xs =>
    right
    rcases h with h | h
    · simp at h
    · rw [List.getLast?_append_of_ne_nil _ (by simp)] at h
      exact h

theorem fgets_chars_ends_nl (m : Nat) (d : List Char) (hd : ends_with_newline d) (hne : d ≠ []) :
    (fgets_chars m d).2.2 = false := by
  induction m generalizing d with
  | zero => simp [fgets_chars]
  | succ m ih =>
    cases d with
    | nil => exact absurd rfl hne
    | cons c cs =>
      unfold fgets_chars
      by_cases hc : c = '\n'
      · simp [hc]
      · simp only [hc, if_false]
        have hcs : cs ≠ [] := by
          intro h0
          rw [h0] at hd
          unfold ends_with_newline at hd
          simp at hd
          exact hc hd
        exact ih cs (ends_with_newline_suffix [c] cs hd) hcs

theorem fgets_ends_nl (N : Nat) (d : List Char) (hd : ends_with_newline d) (hne : d ≠ []) :
    ∃ chunk rest, fgets N ⟨d, false⟩ = (some chunk, ⟨rest, false⟩) ∧ ends_with_newline rest := by
  have h1 := fgets_chars_ends_nl (N - 1) d hd hne
  have h2 := fgets_chars_split (N - 1) d
  refine ⟨(fgets_chars (N - 1) d).1, (fgets_chars (N - 1) d).2.1, ?_, ?_⟩
  · unfold fgets
    simp only [h1, Bool.false_eq_true, and_false, if_false, Bool.or_false]
  · rw [← h2] at hd
    exact ends_with_newline_suffix _ _ hd

theorem fgets_data_ends_nl (N : Nat) (fp : FILE) (hd : ends_with_newline fp.data) :
    ends_with_newline (fgets N fp).2.data := by
  have h2 := fgets_chars_split (N - 1) fp.data
  rw [← h2] at hd
  have := ends_with_newline_suffix _ _ hd
  unfold fgets
  simp only
  split
  · exact this
  · exact this

theorem skip_lines_data_ends_nl (N k : Nat) (fp : FILE) (r : Option (CStr × Nat)) (fp1 : FILE)
    (hd : ends_with_newline fp.data) (h : skip_lines N k fp = some (r, fp1)) :
    ends_with_newline fp1.data := by
  induction k generalizing fp with
  | zero => simp [skip_lines] at h
  | succ k ih =>
    unfold skip_lines at h
    have hf := fgets_data_ends_nl N fp hd
    cases hg : fgets N fp with
    | mk o fp2 =>
      rw [hg] at h hf
      cases o with
      | none =>
        simp only [Option.some.injEq, Prod.mk.injEq] at h
        rw [← h.2]; exact hf
      | some chunk =>
        simp only at h
        split at h
        · simp only [Option.some.injEq, Prod.mk.injEq] at h
          rw [← h.2]; exact hf
        · exact ih fp2 hf h

theorem cont_loop_data_ends_nl (N k : Nat) (fp : FILE) (rl : List Char) (cumlen : Int)
    (rl1 : List Char) (fp1 : FILE)
    (hd : ends_with_newline fp.data) (h : cont_loop N k fp rl cumlen = some (rl1, fp1)) :
    ends_with_newline fp1.data := by
  induction k generalizing fp rl cumlen with
  | zero => simp [cont_loop] at h
  | succ k ih =>
    unfold cont_loop at h
    have hf := fgets_data_ends_nl N fp hd
    cases hg : fgets N fp with
    | mk o fp2 =>
      rw [hg] at h hf
      cases o with
      | none =>
        simp only [Option.some.injEq, Prod.mk.injEq] at h
        rw [← h.2]; exact hf
      | some chunk =>
        simp only at h
        split at h
        · simp at h
        · split at h
          · simp at h
          · split at h
            · split at h
              · simp at h
              · simp only [Option.some.injEq, Prod.mk.injEq] at h
                rw [← h.2]; exact hf
            · exact ih fp2 _ _ hf h

theorem ini_readline_data_ends_nl (N : Nat) (fp : FILE) (o : Option CStr) (fp1 : FILE)
    (hd : ends_with_newline fp.data) (h : ini_readline N fp = some (o, fp1)) :
    ends_with_newline fp1.data := by
  unfold ini_readline at h
  simp only at h
  cases hs : skip_lines N (fp.data.length + 1) fp with
  | none => rw [hs] at h; simp at h
  | some r =>
    obtain ⟨o2, fp2⟩ := r
    have h2 := skip_lines_data_ends_nl N _ fp o2 fp2 hd hs
    rw [hs] at h
    cases o2 with
    | none =>
      simp only [Option.some.injEq, Prod.mk.injEq] at h
      rw [← h.2]; exact h2
    | some pr =>
      obtain ⟨line_buf, adj⟩ := pr
      simp only at h
      by_cases he : fp2.eof = true
      · rw [if_pos he] at h
        simp only [Option.some.injEq, Prod.mk.injEq] at h
        rw [← h.2]; exact h2
      · rw [if_neg he] at h
        by_cases hodd : ((get_nend line_buf ['\\', '\n'] : Int) - 1 > 0 ∧
            Int.tmod ((get_nend line_buf ['\\', '\n'] : Int) - 1) 2 ≠ 0)
        · rw [if_pos hodd] at h
          cases hc : cont_loop N (fp2.data.length + 1) fp2
              (List.take (line_buf.length -
                (Int.tdiv ((get_nend line_buf ['\\', '\n'] : Int) - 1) 2).toNat - 1) line_buf ++
                ['\n'] ++ [NUL])
              ((line_buf.length : Int) - Int.tdiv ((get_nend line_buf ['\\', '\n'] : Int) - 1) 2
                - 2 - adj) with
          | none => rw [hc] at h; simp at h
          | some q =>
            obtain ⟨rl, fp3⟩ := q
            have h3 := cont_loop_data_ends_nl N _ fp2 _ _ rl fp3 h2 hc
            rw [hc] at h
            simp only at h
            split at h
            · simp only [Option.some.injEq, Prod.mk.injEq] at h
              rw [← h.2]; exact h3
            · simp at h
        · rw [if_neg hodd] at h
          simp only at h
          split at h
          · simp only [Option.some.injEq, Prod.mk.injEq] at h
            rw [← h.2]; exact h2
          · simp at h

theorem skip_lines_accept_no_eof (N k : Nat) (d : List Char) (x : CStr × Nat) (fp1 : FILE)
    (hd : ends_with_newline d) (h : skip_lines N k ⟨d, false⟩ = some (some x, fp1)) :
    fp1.eof = false := by
  induction k generalizing d with
  | zero => simp [skip_lines] at h
  | succ k ih =>
    by_cases hne : d = []
    · rw [hne] at h
      unfold skip_lines at h
      cases hg : fgets N ⟨[], false⟩ with
      | mk o fp2 =>
        rw [hg] at h
        unfold fgets at hg
        cases hm : N - 1 with
        | zero =>
          rw [hm] at hg
          simp only [fgets_chars, Bool.false_eq_true, and_false, if_false, Bool.or_false,
            Prod.mk.injEq] at hg
          rw [← hg.1, ← hg.2] at h
          simp only at h
          split at h
          · simp only [Option.some.injEq, Prod.mk.injEq] at h
            rw [← h.2]
          · exact ih [] (Or.inl rfl) h
        | succ m =>
          rw [hm] at hg
          simp only [fgets_chars, and_self, if_true, Prod.mk.injEq] at hg
          rw [← hg.1] at h
          simp at h
    · obtain ⟨chunk, rest, hf, hr⟩ := fgets_ends_nl N d hd hne
      unfold skip_lines at h
      rw [hf] at h
      simp only at h
      split at h
      · simp only [Option.some.injEq, Prod.mk.injEq] at h
        rw [← h.2]
      · exact ih rest hr h

/-- Lines that `filter_line` rejects, up to the end of a stream that stops at a line
boundary, are passed over in the same way when more characters follow. -/
theorem skip_lines_through (N k j : Nat) (d X : List Char) (fp1 : FILE)
    (r : Option (CStr × Nat) × FILE) (hd : ends_with_newline d)
    (h : skip_lines N (k + 1) ⟨d, false⟩ = some (none, fp1))
    (hX : skip_lines N j ⟨X, false⟩ = some r) :
    skip_lines N (k + j) ⟨d ++ X, false⟩ = some r := by
  induction k generalizing d with
  | zero =>
    by_cases hne : d = []
    · rw [hne, List.nil_append, Nat.zero_add]
      exact hX
    · obtain ⟨chunk, rest, hf, hr⟩ := fgets_ends_nl N d hd hne
      unfold skip_lines at h
      rw [hf] at h
      simp only at h
      split at h
      · simp at h
      · simp [skip_lines] at h
  | succ k ih =>
    by_cases hne : d = []
    · rw [hne, List.nil_append, Nat.add_comm (k + 1) j]
      exact skip_lines_mono N j (k + 1) _ _ hX
    · obtain ⟨chunk, rest, hf, hr⟩ := fgets_ends_nl N d hd hne
      unfold skip_lines at h
      rw [hf] at h
      simp only at h
      split at h
      · simp at h
      · rename_i ha
        have hrec := ih rest hr h
        have hf2 := (fgets_append N d false X _ rest hf).2
        have hk : k + 1 + j = (k + j) + 1 := by omega
        rw [hk]
        unfold skip_lines
        rw [hf2]
        simp only
        rw [if_neg ha]
        exact hrec

theorem ini_readline_of_skip (N : Nat) (fp fq : FILE)
    (h : skip_lines N (fp.data.length + 1) fp = skip_lines N (fq.data.length + 1) fq) :
    ini_readline N fp = ini_readline N fq := by
  unfold ini_readline
  rw [h]

/-- The end of a stream that stops at a line boundary is passed over when more characters
follow: the call returns what it returns on the characters that follow. -/
theorem ini_readline_through (N : Nat) (d X : List Char) (fp1 : FILE)
    (r : Option CStr × FILE) (hd : ends_with_newline d)
    (h : ini_readline N ⟨d, false⟩ = some (none, fp1))
    (hX : ini_readline N ⟨X, false⟩ = some r) :
    ini_readline N ⟨d ++ X, false⟩ = some r := by
  have hsd : ∃ fp2, skip_lines N (d.length + 1) ⟨d, false⟩ = some (none, fp2) := by
    unfold ini_readline at h
    simp only at h
    cases hs : skip_lines N (d.length + 1) ⟨d, false⟩ with
    | none => rw [hs] at h; simp at h
    | some q =>
      obtain ⟨o2, fp2⟩ := q
      cases o2 with
      | none => exact ⟨fp2, rfl⟩
      | some pr =>
        exfalso
        have he := skip_lines_accept_no_eof N _ d pr fp2 hd hs
        rw [hs] at h
        simp only [he, Bool.false_eq_true, if_false] at h
        split at h
        · simp at h
        · split at h
          · simp at h
          · simp at h
  obtain ⟨fp2, hs⟩ := hsd
  cases hsx : skip_lines N (X.length + 1) ⟨X, false⟩ with
  | none =>
    unfold ini_readline at hX
    simp only at hX
    rw [hsx] at hX
    simp at hX
  | some q =>
    have hthr := skip_lines_through N d.length (X.length + 1) d X fp2 q hd hs hsx
    rw [← hX]
    apply ini_readline_of_skip
    simp only [List.length_append]
    rw [hsx, ← hthr]
    congr 1

/-- An unterminated last line that fits the buffer is not returned: `ini_readline` signals
the end of the stream. -/
theorem ini_readline_unterminated (N : Nat) (last : List Char) (hne : last ≠ [])
    (hnl : ∀ x ∈ last, x ≠ '\n') (hN : last.length + 2 ≤ N) :
    ini_readline N ⟨last, false⟩ = some (none, ⟨[], true⟩) := by
  have hf := fgets_last N last false hnl hne hN
  have hlen : 1 ≤ last.length := by
    cases last with
    | nil => exact absurd rfl hne
    | cons a as => simp
  obtain ⟨k, hk⟩ : ∃ k, last.length = k + 1 := ⟨last.length - 1, by omega⟩
  have hs : ∃ o, skip_lines N (last.length + 1) ⟨last, false⟩ = some (o, ⟨[], true⟩) := by
    by_cases ha : (filter_line (cstr last) (cstr last).length).2.2 = true
    · refine ⟨some ((filter_line (cstr last) (cstr last).length).1,
        (filter_line (cstr last) (cstr last).length).2.1), ?_⟩
      unfold skip_lines
      rw [hf]
      simp only
      rw [if_pos ha]
    · refine ⟨none, ?_⟩
      have ha2 : (filter_line (cstr last) (cstr last).length).2.2 = false := by
        simpa using ha
      rw [skip_lines_step_reject N last.length ⟨last, false⟩ ⟨[], true⟩ last hf ha2, hk]
      exact skip_lines_step_eof N k ⟨[], true⟩ ⟨[], true⟩ (fgets_eof N true (by omega))
  obtain ⟨o, hs⟩ := hs
  unfold ini_readline
  simp only
  rw [hs]
  cases o with
  | none => rfl
  | some pr => simp

theorem complete_lines_logical (N k : Nat) (fp : FILE) (ls : List CStr)
    (h : complete_lines N k fp = some ls) : logical_lines N k fp = some ls := by
  induction k generalizing fp ls with
  | zero => simp [complete_lines] at h
  | succ k ih =>
    unfold complete_lines at h
    unfold logical_lines
    cases hr : ini_readline N fp with
    | none => rw [hr] at h; simp at h
    | some q =>
      obtain ⟨o, fp1⟩ := q
      rw [hr] at h
      cases o with
      | none => exact h
      | some line =>
        simp only at h ⊢
        split at h
        · simp at h
        · cases hc : complete_lines N k fp1 with
          | none => rw [hc] at h; simp at h
          | some ls1 =>
            rw [hc] at h
            rw [ih fp1 ls1 hc]
            exact h

/-- The logical lines of a text made of a first part that stops at a line boundary, none
of whose lines is cut short, and of a second part: those of the first part, then those of
the second part. -/
theorem complete_lines_append (N k j : Nat) (d X : List Char) (ls1 ls2 : List CStr)
    (hd : ends_with_newline d)
    (h : complete_lines N (k + 1) ⟨d, false⟩ = some ls1)
    (hX : logical_lines N j ⟨X, false⟩ = some ls2) :
    logical_lines N (k + j) ⟨d ++ X, false⟩ = some (ls1 ++ ls2) := by
  induction k generalizing d ls1 with
  | zero =>
    unfold complete_lines at h
    cases hr : ini_readline N ⟨d, false⟩ with
    | none => rw [hr] at h; simp at h
    | some q =>
      obtain ⟨o, fp1⟩ := q
      rw [hr] at h
      cases o with
      | some line =>
        simp only [complete_lines, Option.map_none', ite_self] at h
        simp at h
      | none =>
        simp only [Option.some.injEq] at h
        rw [← h, List.nil_append, Nat.zero_add]
        cases j with
        | zero => simp [logical_lines] at hX
        | succ j =>
          unfold logical_lines at hX ⊢
          cases hrx : ini_readline N ⟨X, false⟩ with
          | none => rw [hrx] at hX; simp at hX
          | some qx =>
            rw [ini_readline_through N d X fp1 qx hd hr hrx]
            rw [hrx] at hX
            exact hX
  | succ k ih =>
    unfold complete_lines at h
    cases hr : ini_readline N ⟨d, false⟩ with
    | none => rw [hr] at h; simp at h
    | some q =>
      obtain ⟨o, fp1⟩ := q
      rw [hr] at h
      cases o with
      | some line =>
        obtain ⟨d1, e1⟩ := fp1
        simp only at h
        cases e1 with
        | true => simp at h
        | false =>
          simp only [Bool.false_eq_true, if_false] at h
          cases hc : complete_lines N (k + 1) ⟨d1, false⟩ with
          | none => rw [hc] at h; simp at h
          | some ls3 =>
            rw [hc] at h
            simp only [Option.map_some', Option.some.injEq] at h
            have hd1 := ini_readline_data_ends_nl N ⟨d, false⟩ _ _ hd hr
            have hrec := ih d1 ls3 hd1 hc
            have hk : k + 1 + j = (k + j) + 1 := by omega
            rw [hk]
            unfold logical_lines
            rw [ini_readline_append N d X line d1 hr]
            simp only
            rw [hrec, ← h]
            rfl
      | none =>
        simp only [Option.some.injEq] at h
        rw [← h, List.nil_append]
        cases j with
        | zero => simp [logical_lines] at hX
        | succ j =>
          have hgoal : logical_lines N (j + 1) ⟨d ++ X, false⟩ = some ls2 := by
            unfold logical_lines at hX ⊢
            cases hrx : ini_readline N ⟨X, false⟩ with
            | none => rw [hrx] at hX; simp at hX
            | some qx =>
              rw [ini_readline_through N d X fp1 qx hd hr hrx]
              rw [hrx] at hX
              exact hX
          have := logical_lines_mono N (j + 1) (k + 1) _ _ hgoal
          rw [Nat.add_comm (k + 1) (j + 1)]
          exact this

/-! ## The stream search, line by line -/

theorem search_loop_skip (sect key : CStr) (pre rest : List CStr) (e : IniErr)
    (hpre : ∀ l ∈ pre, get_section l ≠ some sect) :
    search_loop sect key (pre ++ rest) false e = search_loop sect key rest false e := by
  induction pre with
  | nil => rfl
  | cons x xs ih =>
    have hxs : ∀ l ∈ xs, get_section l ≠ some sect := fun l hl => hpre l (List.mem_cons_of_mem _ hl)
    rw [List.cons_append]
    conv_lhs => unfold search_loop
    cases hx : get_section x with
    | none =>
      simp only [Bool.false_eq_true, if_false]
      exact ih hxs
    | some sec =>
      have hne : sect ≠ sec := by
        intro h0
        exact hpre x (List.mem_cons_self _ _) (by rw [hx, h0])
      simp only [Bool.false_eq_true, if_false, if_neg hne]
      exact ih hxs

theorem search_loop_block (sect key : CStr) (block rest : List CStr) (e : IniErr)
    (hb : ∀ l ∈ block, get_section l = none ∧ get_val_from_string l key = none)
    (hrest : rest = [] ∨ ∃ h2 p tl, rest = h2 :: tl ∧ get_section h2 = some p) :
    search_loop sect key (block ++ rest) true e = (none, e) := by
  induction block with
  | nil =>
    rw [List.nil_append]
    rcases hrest with h | ⟨h2, p, tl, h, hp⟩
    · rw [h]; rfl
    · rw [h]
      unfold search_loop
      simp only [hp, if_true]
  | cons x xs ih =>
    rw [List.cons_append]
    unfold search_loop
    have hx := hb x (List.mem_cons_self _ _)
    simp only [hx.1, hx.2, if_true]
    exact ih (fun l hl => hb l (List.mem_cons_of_mem _ hl))

theorem search_loop_in_section_err (sect key : CStr) (ls : List CStr) (e : IniErr) :
    (search_loop sect key ls true e).2 = e ∨
      (search_loop sect key ls true e).2 = IniErr.INI_OK := by
  induction ls with
  | nil => left; rfl
  | cons x xs ih =>
    unfold search_loop
    cases hx : get_section x with
    | some sec => left; simp
    | none =>
      simp only [if_true]
      cases hv : get_val_from_string x key with
      | some v => right; rfl
      | none => exact ih

/-- The stream search reports `INI_NOSECTION` exactly when no logical line is a header with
the target name. -/
theorem search_loop_nosection_iff (sect key : CStr) (ls : List CStr) :
    (search_loop sect key ls false IniErr.INI_NOSECTION).2 = IniErr.INI_NOSECTION ↔
      ∀ l ∈ ls, get_section l ≠ some sect := by
  induction ls with
  | nil => simp [search_loop]
  | cons x xs ih =>
    unfold search_loop
    cases hx : get_section x with
    | none =>
      simp only [Bool.false_eq_true, if_false, List.mem_cons, forall_eq_or_imp, hx, ne_eq,
        not_false_eq_true, true_and, reduceCtorEq]
      exact ih
    | some sec =>
      by_cases hs : sect = sec
      · simp only [Bool.false_eq_true, if_false, if_pos hs, List.mem_cons, forall_eq_or_imp, hx,
          hs, ne_eq, not_true_eq_false, false_and, iff_false]
        cases hv : get_val_from_string (get_section_reterm x) key with
        | some v => simp
        | none =>
          simp only
          rcases search_loop_in_section_err sec key xs IniErr.INI_NOKEY with h | h
          · rw [if_pos trivial, h]; simp
          · rw [if_pos trivial, h]; simp
      · have hne : ¬ (sec = sect) := fun h0 => hs h0.symm
        simp only [Bool.false_eq_true, if_false, if_neg hs, List.mem_cons, forall_eq_or_imp, hx,
          ne_eq, Option.some.injEq, hne, not_false_eq_true, true_and]
        exact ih

/-- The stream search between the first header with the target name and the next header:
when neither the header line as `get_section` leaves it nor a line of the block gives a
value for the key, the search reports `INI_NOKEY` and returns no value, whatever follows
the next header. -/
theorem search_loop_nokey (sect key : CStr) (pre : List CStr) (h : CStr)
    (block rest : List CStr)
    (hpre : ∀ l ∈ pre, get_section l ≠ some sect) (hh : get_section h = some sect)
    (hself : get_val_from_string (get_section_reterm h) key = none)
    (hb : ∀ l ∈ block, get_section l = none ∧ get_val_from_string l key = none)
    (hrest : rest = [] ∨ ∃ h2 p tl, rest = h2 :: tl ∧ get_section h2 = some p) :
    search_loop sect key (pre ++ h :: (block ++ rest)) false IniErr.INI_NOSECTION
      = (none, IniErr.INI_NOKEY) := by
  rw [search_loop_skip sect key pre _ _ hpre]
  unfold search_loop
  simp only [hh, Bool.false_eq_true, if_false, if_true, hself]
  exact search_loop_block sect key block rest _ hb hrest

/-- The classification of the results of `ini_read_value` on a content all of whose calls
of `ini_readline` have a result. -/
theorem ini_read_value_classification (N : Nat) (content : List Char) (sect key : CStr)
    (ls : List CStr) (hl : logical_lines N (content.length + 1) ⟨content, false⟩ = some ls) :
    (∃ r, ini_read_value N content sect key = some r ∧
      (r.2 = IniErr.INI_NOSECTION ↔ ∀ l ∈ ls, get_section l ≠ some sect)) ∧
    (∀ (pre : List CStr) (h : CStr) (block rest : List CStr),
      ls = pre ++ h :: (block ++ rest) →
      (∀ l ∈ pre, get_section l ≠ some sect) → get_section h = some sect →
      get_val_from_string (get_section_reterm h) key = none →
      (∀ l ∈ block, get_section l = none ∧ get_val_from_string l key = none) →
      (rest = [] ∨ ∃ h2 p tl, rest = h2 :: tl ∧ get_section h2 = some p) →
      ini_read_value N content sect key = some (none, IniErr.INI_NOKEY)) := by
  have he := ini_read_value_loop_eq N sect key (content.length + 1) ⟨content, false⟩ false
    IniErr.INI_NOSECTION ls hl
  constructor
  · refine ⟨_, he, search_loop_nosection_iff sect key ls⟩
  · intro pre h block rest hls hpre hh hself hb hrest
    unfold ini_read_value
    rw [he, hls, search_loop_nokey sect key pre h block rest hpre hh hself hb hrest]

/-! ## The builder when every allocation succeeds -/

theorem add_kvp_raw_of (d : ini_file) (kv : ini_kv_pair) :
    add_kvp_raw (ini_file_raw_of d) kv = (add_kvp d kv).map ini_file_raw_of := by
  unfold add_kvp_raw add_kvp ini_file_raw_of
  simp only [List.getLast?_map]
  cases h : d.first.getLast? with
  | none => rfl
  | some s =>
    simp only [Option.map_some', Option.some.injEq, ini_file_raw.mk.injEq, and_true,
      List.map_append, List.map_dropLast, List.map_cons, List.map_nil]

theorem do_kvp_alloc_nil (d : ini_file) (line : CStr) :
    do_kvp_alloc (ini_file_raw_of d) line []
      = (do_kvp d line).map (fun d1 => (some (ini_file_raw_of d1), [])) := by
  unfold do_kvp_alloc do_kvp get_key_value_alloc
  cases h : get_key_value line with
  | none => rfl
  | some kv =>
    obtain ⟨k, v⟩ := kv
    simp only [alloc_next, if_true]
    rw [add_kvp_raw_of]
    cases add_kvp d ⟨k, v⟩ <;> rfl

theorem add_section_raw_of (d : ini_file) (p : CStr) :
    (⟨(ini_file_raw_of d).first ++ [⟨some p, []⟩], (ini_file_raw_of d).n_sec + 1⟩ : ini_file_raw)
      = ini_file_raw_of (add_section d p) := by
  unfold ini_file_raw_of add_section
  simp only [List.map_append, List.map_cons, List.map_nil]

/-- With an oracle under which every allocation succeeds, the loop of the builder with
allocations is the loop of `ini_read_stream`. -/
theorem ini_read_stream_alloc_loop_nil (N fuel : Nat) (fp : FILE) (d : ini_file) (b : Bool) :
    ini_read_stream_alloc_loop N fuel fp [] (ini_file_raw_of d) b
      = (ini_read_stream_loop N fuel fp d b).map
          (fun d1 => (some (ini_file_raw_of d1), IniErr.INI_OK)) := by
  induction fuel generalizing fp d b with
  | zero => rfl
  | succ k ih =>
    unfold ini_read_stream_alloc_loop ini_read_stream_loop
    cases hr : ini_readline N fp with
    | none => rfl
    | some q =>
      obtain ⟨o, fp1⟩ := q
      cases o with
      | none => rfl
      | some line =>
        simp only
        cases hg : get_section line with
        | some p =>
          simp only [ne_eq, reduceCtorEq, not_false_eq_true, true_or, if_true, alloc_next,
            Option.getD_some, if_false]
          rw [add_section_raw_of, ih]
        | none =>
          cases b with
          | false =>
            simp only [ne_eq, not_true_eq_false, or_true, if_true, alloc_next,
              Option.getD_none, false_or]
            rw [add_section_raw_of, do_kvp_alloc_nil]
            cases hd : do_kvp (add_section d []) line with
            | none => rfl
            | some d2 =>
              simp only [Option.map_some']
              exact ih fp1 d2 true
          | true =>
            simp only [ne_eq, not_true_eq_false, Bool.true_eq_false, or_self, if_false]
            rw [do_kvp_alloc_nil]
            cases hd : do_kvp d line with
            | none => rfl
            | some d2 =>
              simp only [Option.map_some']
              exact ih fp1 d2 true

/-- With an oracle under which every allocation succeeds, the builder with allocations is
`ini_read_stream`. -/
theorem ini_read_stream_alloc_nil (N : Nat) (fp : FILE) :
    ini_read_stream_alloc N [] fp
      = (ini_read_stream N fp).map (fun r => (some (ini_file_raw_of r.1), r.2)) := by
  unfold ini_read_stream_alloc ini_read_stream
  simp only [alloc_next, if_true]
  have := ini_read_stream_alloc_loop_nil N (fp.data.length + 1) fp ⟨[], 0⟩ false
  have e : ini_file_raw_of ⟨[], 0⟩ = ⟨[], 0⟩ := rfl
  rw [e] at this
  rw [this, Option.map_map]
  rfl

/-- The continuation loop at the end of the stream returns the block as it is. -/
theorem cont_loop_eof (N k : Nat) (e : Bool) (rl : List Char) (cumlen : Int) (hN : 2 ≤ N) :
    cont_loop N (k + 1) ⟨[], e⟩ rl cumlen = some (rl, ⟨[], true⟩) := by
  unfold cont_loop
  rw [fgets_eof N e hN]

/-- The spec's instance of a joined line: `a`, backslash, newline, `b`, end of stream. -/
theorem ini_readline_a_b (N : Nat) (hN : 4 ≤ N) :
    ini_readline N ⟨['a', '\\', '\n', 'b'], false⟩ = some (some ['a', 'b'], ⟨[], true⟩) := by
  have h := ini_readline_first N ['a'] 1 ['b'] (by decide) (by simpa using hN)
  have hfg : fgets N ⟨['b'], false⟩ = (some ['b'], ⟨[], true⟩) :=
    fgets_last N ['b'] false (by decide) (by decide) (by simp only [List.length_singleton]; omega)
  have hloop : cont_loop N (['b'].length + 1) ⟨['b'], false⟩
      (['a'] ++ List.replicate (1 - 1 / 2) '\\' ++ ['\n', NUL])
      (((['a'].length + 1 - 1 / 2 - 1 : Nat) : Int))
      = some (['a', 'b', '\n', NUL], ⟨[], true⟩) := by
    have e1 : ['b'].length + 1 = 1 + 1 := rfl
    rw [e1]
    unfold cont_loop
    rw [hfg]
    have hc : cstr ['b'] = ['b'] := by decide
    simp only [hc]
    rw [cont_loop_eof N 0 true _ _ (by omega)]
    decide
  simp only [List.replicate, List.append_assoc, List.cons_append, List.nil_append] at h hloop
  rw [h]
  simp only [Nat.one_mod, if_true]
  rw [hloop]
  decide

theorem header_sections_names (ls : List CStr) (s : ini_section) (h : s ∈ header_sections ls) :
    ∃ l ∈ ls, get_section l = some s.name := by
  induction ls with
  | nil => simp [header_sections] at h
  | cons l ls ih =>
    unfold header_sections at h
    cases hs : get_section l with
    | some p =>
      rw [hs] at h
      simp only [List.mem_cons] at h
      rcases h with h | h
      · exact ⟨l, List.mem_cons_self _ _, by rw [h, hs]⟩
      · obtain ⟨l1, hl1, h1⟩ := ih h
        exact ⟨l1, List.mem_cons_of_mem _ hl1, h1⟩
    | none =>
      rw [hs] at h
      obtain ⟨l1, hl1, h1⟩ := ih h
      exact ⟨l1, List.mem_cons_of_mem _ hl1, h1⟩

/-- Every section of a built document is the implicit one or comes from a header line. -/
theorem document_sections_names (ls : List CStr) (s : ini_section)
    (h : s ∈ document_sections ls) :
    s.name = [] ∨ ∃ l ∈ ls, get_section l = some s.name := by
  cases ls with
  | nil => simp [document_sections] at h
  | cons l ls =>
    cases hs : get_section l with
    | some p =>
      simp only [document_sections, hs] at h
      exact Or.inr (header_sections_names _ s h)
    | none =>
      simp only [document_sections, hs, List.mem_cons] at h
      rcases h with h | h
      · left; rw [h]
      · exact Or.inr (header_sections_names _ s h)

/-- A document returned by `ini_read_stream` is the document of the logical lines. -/
theorem ini_read_stream_some (N : Nat) (fp : FILE) (doc : ini_file) (e : IniErr)
    (h : ini_read_stream N fp = some (doc, e)) :
    ∃ ls, logical_lines N (fp.data.length + 1) fp = some ls ∧
      doc = ⟨document_sections ls, (document_sections ls).length⟩ ∧ e = IniErr.INI_OK := by
  unfold ini_read_stream at h
  rw [ini_read_stream_loop_eq] at h
  cases hl : logical_lines N (fp.data.length + 1) fp with
  | none => rw [hl] at h; simp at h
  | some ls =>
    rw [hl] at h
    simp only [Option.some_bind, build_loop_start, Option.map_some', Option.some.injEq,
      Prod.mk.injEq] at h
    exact ⟨ls, rfl, h.1.symm, h.2.symm⟩

theorem content_ok_replicate_a (m : Nat) : content_ok (List.replicate (m + 1) 'a') := by
  refine ⟨by simp [List.replicate_succ], by simp [List.replicate_succ],
    by simp [List.replicate_succ], by simp [List.replicate_succ],
    by simp [List.replicate_succ], ?_, ?_⟩
  · rw [List.replicate_succ', List.getLast?_concat]; decide
  · intro x hx
    rw [List.eq_of_mem_replicate hx]; decide

/-- A line longer than the buffer: `fgets` returns its first `N - 1` characters, the
retermination overwrites the last of them with a newline, and `ini_readline` returns
the first `N - 2` characters as a logical line of its own. -/
theorem ini_readline_overlong (N M : Nat) (rest : List Char) (hN : 3 ≤ N) (hM : N ≤ M + 1) :
    ini_readline N ⟨List.replicate M 'a' ++ rest, false⟩
      = some (some (List.replicate (N - 2) 'a'),
          ⟨List.replicate (M + 1 - N) 'a' ++ rest, false⟩) := by
  obtain ⟨m, rfl⟩ : ∃ m, N = m + 3 := ⟨N - 3, by omega⟩
  have hsplit : List.replicate M 'a' ++ rest
      = List.replicate (m + 2) 'a' ++ (List.replicate (M + 1 - (m + 3)) 'a' ++ rest) := by
    rw [← List.append_assoc, ← List.replicate_add]
    congr 2
    omega
  have hnl : ∀ x ∈ List.replicate (m + 2) 'a', x ≠ '\n' := by
    intro x hx; rw [List.eq_of_mem_replicate hx]; decide
  have hnul : ∀ x ∈ List.replicate (m + 2) 'a', x ≠ NUL := by
    intro x hx; rw [List.eq_of_mem_replicate hx]; decide
  have hfg : fgets (m + 3) ⟨List.replicate M 'a' ++ rest, false⟩
      = (some (List.replicate (m + 2) 'a'),
          ⟨List.replicate (M + 1 - (m + 3)) 'a' ++ rest, false⟩) := by
    unfold fgets
    simp only
    have := fgets_chars_full (List.replicate (m + 2) 'a')
      (List.replicate (M + 1 - (m + 3)) 'a' ++ rest) hnl
    rw [List.length_replicate] at this
    have e0 : m + 3 - 1 = m + 2 := rfl
    rw [hsplit, e0, this]
    simp [List.replicate_succ]
  have hfl : filter_line (List.replicate (m + 2) 'a') (List.replicate (m + 2) 'a').length
      = (List.replicate (m + 2) 'a', 0, true) := by
    have := filter_line_content 'a' (List.replicate (m + 1) 'a')
      (by simp [List.replicate_succ]) (by decide)
    rw [← List.replicate_succ] at this
    exact this
  have hskip : skip_lines (m + 3) ((List.replicate M 'a' ++ rest).length + 1)
      ⟨List.replicate M 'a' ++ rest, false⟩
      = some (some (List.replicate (m + 2) 'a', 0),
          ⟨List.replicate (M + 1 - (m + 3)) 'a' ++ rest, false⟩) := by
    unfold skip_lines
    rw [hfg]
    simp only [cstr_of_no_nul _ hnul, hfl, if_true]
  have hnend : get_nend (List.replicate (m + 2) 'a') ['\\', '\n'] = 0 := by
    rw [List.replicate_succ', get_nend_concat, if_neg (by decide)]
  have hnul2 : ∀ x ∈ List.replicate (m + 1) 'a' ++ ['\n'], x ≠ NUL := by
    intro x hx
    rcases List.mem_append.mp hx with h | h
    · rw [List.eq_of_mem_replicate h]; decide
    · rw [List.mem_singleton.mp h]; decide
  unfold ini_readline
  simp only [hskip]
  simp only [hnend, Bool.false_eq_true, if_false]
  have e1 : Int.tdiv (((0 : Nat) : Int) - 1) 2 = 0 := by decide
  have e2 : ¬ ((((0 : Nat) : Int) - 1 > 0) ∧ Int.tmod (((0 : Nat) : Int) - 1) 2 ≠ 0) := by decide
  rw [if_neg e2]
  simp only [e1, Int.toNat_zero, Nat.sub_zero, List.length_replicate, Nat.add_sub_cancel]
  have ht : (List.replicate (m + 2) 'a').take (m + 2 - 1) = List.replicate (m + 1) 'a' := by
    rw [List.take_replicate]; congr 1; omega
  have e3 : m + 3 - 2 = m + 1 := rfl
  rw [ht, e3, if_pos (by simp)]
  have hr : List.replicate (m + 1) 'a' ++ ['\n'] ++ [NUL]
      = (List.replicate (m + 1) 'a' ++ ['\n']) ++ NUL :: [] := by simp
  rw [hr, cstr_app_nul _ [] hnul2, take_get_nend_eq_rstrip, rstrip_concat_newline,
    List.replicate_succ', rstrip_of_last _ 'a' (by decide)]

theorem line_pair_none (m : CStr) (h : get_key_value m = none) : line_pair m = none := by
  unfold line_pair kv_of_line
  rw [h]
  simp

theorem document_sections_names_ne (ls : List CStr) (A : CStr) (hA : A ≠ [])
    (h : ∀ l ∈ ls, get_section l ≠ some A) : ∀ s ∈ document_sections ls, s.name ≠ A := by
  intro s hs hn
  rcases document_sections_names ls s hs with h0 | ⟨l, hl, hg⟩
  · exact hA (hn ▸ h0)
  · exact h l hl (hn ▸ hg)

theorem get_key_value_replicate_a (m : Nat) :
    get_key_value (List.replicate (m + 1) 'a') = none := by
  have := get_key_value_no_separator (List.replicate (m + 1) 'a') [] []
    (by simp [List.replicate_succ])
    (by intro c hc; rw [List.eq_of_mem_replicate hc]; decide)
    (by simp) (Or.inl rfl)
  rw [List.append_nil, List.append_nil] at this
  exact this

theorem get_section_replicate_a (m : Nat) :
    get_section (List.replicate (m + 1) 'a') = none := by
  apply get_section_none_of_head
  rw [List.replicate_succ]
  simp

/-- An unterminated last line of `N - 1` characters: `fgets` fills the buffer without
meeting the end of the stream, and the line is returned, its last character lost. -/
theorem ini_read_stream_overlong_last (N : Nat) (hN : 3 ≤ N) :
    ini_readline N ⟨List.replicate (N - 1) 'a', false⟩
      = some (some (List.replicate (N - 2) 'a'), ⟨[], false⟩) ∧
    ini_read_stream N ⟨List.replicate (N - 1) 'a', false⟩
      = some (⟨[⟨[], []⟩], 1⟩, IniErr.INI_OK) := by
  obtain ⟨m, rfl⟩ : ∃ m, N = m + 3 := ⟨N - 3, by omega⟩
  have h1 : ini_readline (m + 3) ⟨List.replicate (m + 3 - 1) 'a', false⟩
      = some (some (List.replicate (m + 3 - 2) 'a'), ⟨[], false⟩) := by
    have := ini_readline_overlong (m + 3) (m + 3 - 1) [] (by omega) (by omega)
    rw [List.append_nil, List.append_nil] at this
    have e : m + 3 - 1 + 1 - (m + 3) = 0 := by omega
    rw [e] at this
    exact this
  refine ⟨h1, ?_⟩
  have hl : logical_lines (m + 3)
      ((⟨List.replicate (m + 3 - 1) 'a', false⟩ : FILE).data.length + 1)
      ⟨List.replicate (m + 3 - 1) 'a', false⟩ = some [List.replicate (m + 3 - 2) 'a'] := by
    simp only [List.length_replicate]
    have e : m + 3 - 1 + 1 = (m + 1 + 1) + 1 := by omega
    rw [e]
    unfold logical_lines
    rw [h1]
    simp only
    unfold logical_lines
    rw [ini_readline_eof (m + 3) false (by omega)]
    rfl
  rw [ini_read_stream_of_lines _ _ _ hl]
  have e2 : m + 3 - 2 = m + 1 := rfl
  rw [e2]
  have hd : document_sections [List.replicate (m + 1) 'a'] = [⟨[], []⟩] := by
    simp only [document_sections, get_section_replicate_a m, header_sections]
    rw [block_items_line _ _ (get_section_replicate_a m)]
    simp [kv_of_line, get_key_value_replicate_a m, block_items]
  rw [hd]
  rfl

theorem header_sections_nonempty_names (ls : List CStr) (hls : ∀ l ∈ ls, ∀ c ∈ l, c ≠ NUL)
    (s : ini_section) (hs : s ∈ header_sections ls) : s.name ≠ [] := by
  obtain ⟨l, hl, hg⟩ := header_sections_names ls s hs
  have := (get_section_nonempty l s.name (hls l hl) hg).2
  intro h0
  rw [h0] at this
  simp at this

theorem ini_read_value_loop_empty_name (N : Nat) (key : CStr) (fuel : Nat) (fp : FILE)
    (r : Option CStr × IniErr)
    (h : ini_read_value_loop N [] key fuel fp false IniErr.INI_NOSECTION = some r) :
    r = (none, IniErr.INI_NOSECTION) := by
  induction fuel generalizing fp with
  | zero => simp [ini_read_value_loop] at h
  | succ k ih =>
    unfold ini_read_value_loop at h
    cases hr : ini_readline N fp with
    | none => rw [hr] at h; simp at h
    | some q =>
      obtain ⟨o, fp1⟩ := q
      rw [hr] at h
      cases o with
      | none =>
        simp only [Option.some.injEq] at h
        exact h.symm
      | some line =>
        simp only at h
        cases hg : get_section line with
        | none =>
          rw [hg] at h
          simp only [Bool.false_eq_true, if_false] at h
          exact ih fp1 h
        | some sec =>
          rw [hg] at h
          have hne : ([] : CStr) ≠ sec := by
            intro h0
            have := (get_section_nonempty line sec (ini_readline_no_nul N fp fp1 line hr) hg).2
            rw [← h0] at this
            simp at this
          simp only [Bool.false_eq_true, if_false, if_neg hne] at h
          exact ih fp1 h

/-! ## The claims -/

/-- C1: for a valid section name `s`, a valid key `k` and a valid value `v`, either
separator and any runs of spaces and tabs around it, with both lines within the
line-buffer limit, `ini_read_stream` on the text `[s]`, newline, `k ws* sep ws* v`,
newline returns a document with error OK, and `ini_get_value` on it with `s` and `k`
returns exactly `v` with error OK.  The three strings are parts of lines of text: they
hold no newline and no NUL. -/
theorem C1_parse_then_lookup (N : Nat) (s k v ws1 ws2 : CStr) (sep : Char)
    (hs : valid_section_name s) (hk : valid_key k) (hv : valid_value v)
    (hsep : sep = '=' ∨ sep = ':')
    (h1 : ∀ c ∈ ws1, c = ' ' ∨ c = '\t') (h2 : ∀ c ∈ ws2, c = ' ' ∨ c = '\t')
    (hts : line_text s) (htk : line_text k) (htv : line_text v)
    (hfit1 : ('[' :: s ++ [']']).length + 2 ≤ N)
    (hfit2 : (k ++ ws1 ++ [sep] ++ ws2 ++ v).length + 2 ≤ N) :
    ∃ doc, ini_read_stream N
        ⟨('[' :: s ++ [']']) ++ ['\n'] ++ (k ++ ws1 ++ [sep] ++ ws2 ++ v) ++ ['\n'], false⟩
      = some (doc, IniErr.INI_OK) ∧
    ini_get_value doc s k = (some v, IniErr.INI_OK) := by
  obtain ⟨hL1, hsec1⟩ := header_line N s hs hts hfit1
  obtain ⟨hL2, hsec2, hkv⟩ := kv_line N k v ws1 ws2 sep hk hv htk htv hsep h1 h2 hfit2
  have hN : 2 ≤ N := by omega
  have hstream : ('[' :: s ++ [']']) ++ ['\n'] ++ (k ++ ws1 ++ [sep] ++ ws2 ++ v) ++ ['\n']
      = (['[' :: s ++ [']'], k ++ ws1 ++ [sep] ++ ws2 ++ v].map (fun l => l ++ ['\n'])).flatten := by
    simp
  have hall : ∀ l ∈ ['[' :: s ++ [']'], k ++ ws1 ++ [sep] ++ ws2 ++ v], simple_line N l := by
    intro l hl
    simp only [List.mem_cons, List.mem_singleton, List.not_mem_nil, or_false] at hl
    rcases hl with h | h
    · rw [h]; exact hL1
    · rw [h]; exact hL2
  refine ⟨⟨[⟨s, [⟨k, v⟩]⟩], 1⟩, ?_, ?_⟩
  · rw [hstream, ini_read_stream_simple N _ hall hN]
    simp only [build_loop, hsec1, hsec2, hkv, do_kvp, add_kvp, add_section]
    simp
  · simp [ini_get_value, ini_get_value_loop, find_key]

/-- Witness for C1: section `s`, key `k`, value `v`, separator `=` between single blanks. -/
theorem C1_parse_then_lookup_witness :
    ∃ doc, ini_read_stream 1024
        ⟨('[' :: ['s'] ++ [']']) ++ ['\n'] ++ (['k'] ++ [' '] ++ ['='] ++ [' '] ++ ['v']) ++ ['\n'],
          false⟩
      = some (doc, IniErr.INI_OK) ∧
    ini_get_value doc ['s'] ['k'] = (some ['v'], IniErr.INI_OK) :=
  C1_parse_then_lookup 1024 ['s'] ['k'] ['v'] [' '] [' '] '=' (by decide) (by decide) (by decide)
    (by decide) (by decide) (by decide) (by decide) (by decide) (by decide) (by decide) (by decide)

/-- C2, as stated, fails in five ways, each on a short file read with a buffer of 1024
(by `buffer_length_irrelevant` every buffer length that holds the lines gives the same):
the empty section name (the search never enters the implicit top section); a key with an
empty value (the search returns the empty string, the document holds no such pair); a key
holding a blank; a key starting with `[` that matches the reterminated header line; and
the empty key. -/
theorem C2_counterexample :
    (ini_read_value 1024 ['k', '=', 'v', '\n'] [] ['k'] = some (none, IniErr.INI_NOSECTION) ∧
      (ini_read_file 1024 ['k', '=', 'v', '\n']).map (fun r => ini_get_value r.1 [] ['k'])
        = some (some ['v'], IniErr.INI_OK)) ∧
    (ini_read_value 1024 ['[', 's', ']', '\n', 'k', '=', '\n'] ['s'] ['k']
        = some (some [], IniErr.INI_OK) ∧
      (ini_read_file 1024 ['[', 's', ']', '\n', 'k', '=', '\n']).map
          (fun r => ini_get_value r.1 ['s'] ['k'])
        = some (none, IniErr.INI_NOKEY)) ∧
    (ini_read_value 1024 ['[', 's', ']', '\n', 'a', ' ', 'b', '=', 'c', '\n'] ['s'] ['a', ' ', 'b']
        = some (some ['c'], IniErr.INI_OK) ∧
      (ini_read_file 1024 ['[', 's', ']', '\n', 'a', ' ', 'b', '=', 'c', '\n']).map
          (fun r => ini_get_value r.1 ['s'] ['a', ' ', 'b'])
        = some (none, IniErr.INI_NOKEY)) ∧
    (ini_read_value 1024 ['[', ' ', '=', 'x', ']', '\n'] ['=', 'x'] ['[']
        = some (some ['x'], IniErr.INI_OK) ∧
      (ini_read_file 1024 ['[', ' ', '=', 'x', ']', '\n']).map
          (fun r => ini_get_value r.1 ['=', 'x'] ['['])
        = some (none, IniErr.INI_NOKEY)) ∧
    (ini_read_value 1024 ['[', 's', ']', '\n', '=', 'v', '\n'] ['s'] []
        = some (some ['v'], IniErr.INI_OK) ∧
      (ini_read_file 1024 ['[', 's', ']', '\n', '=', 'v', '\n']).map
          (fun r => ini_get_value r.1 ['s'] [])
        = some (none, IniErr.INI_NOKEY)) := by
  refine ⟨⟨?_, ?_⟩, ⟨?_, ?_⟩, ⟨?_, ?_⟩, ⟨?_, ?_⟩, ⟨?_, ?_⟩⟩ <;> decide

/-- C2 (amended): for every file content that `ini_readline` reads to its end with a
defined result and in which no logical line gives the key an empty value, every non-empty
section name and every key that is non-empty, holds no space, tab, `=` or `:` and does
not start with `[`, the full parse returns a document with OK and the single-key stream
search returns exactly what `ini_get_value` returns on that document: the same value, or
no value with the same error (SectionNotFound or KeyNotFound). -/
theorem C2_stream_search_equivalence (N : Nat) (content : List Char) (sect key : CStr)
    (ls : List CStr)
    (hdef : logical_lines N (content.length + 1) ⟨content, false⟩ = some ls)
    (hsect : sect ≠ [])
    (hkne : key ≠ []) (hkc : ∀ c ∈ key, c ≠ ' ' ∧ c ≠ '\t' ∧ c ≠ '=' ∧ c ≠ ':')
    (hk : key.head? ≠ some '[')
    (hval : ∀ l ∈ ls, get_val_from_string l key ≠ some []) :
    ∃ doc, ini_read_file N content = some (doc, IniErr.INI_OK) ∧
      ini_read_value N content sect key = some (ini_get_value doc sect key) := by
  refine ⟨⟨document_sections ls, (document_sections ls).length⟩, ?_, ?_⟩
  · unfold ini_read_file
    exact ini_read_stream_of_lines N ⟨content, false⟩ ls hdef
  · unfold ini_read_value
    rw [ini_read_value_loop_eq N sect key _ _ false IniErr.INI_NOSECTION ls hdef,
      search_loop_headers sect key ls hkc hkne hk hval]
    unfold ini_get_value
    simp only
    rw [ini_get_value_loop_document sect key ls hsect]

/-- Witness for C2: a file with a top pair, two sections and a comment, searched for
`k` in section `B`. -/
theorem C2_stream_search_equivalence_witness :
    ∃ doc, ini_read_file 1024
        ['t', '=', '0', '\n', '[', 'A', ']', '\n', 'k', '=', '1', '\n', ';', 'c', '\n',
          '[', 'B', ']', '\n', 'j', ':', '3', '\n', 'k', ' ', '=', ' ', '2', '\n']
        = some (doc, IniErr.INI_OK) ∧
      ini_read_value 1024
        ['t', '=', '0', '\n', '[', 'A', ']', '\n', 'k', '=', '1', '\n', ';', 'c', '\n',
          '[', 'B', ']', '\n', 'j', ':', '3', '\n', 'k', ' ', '=', ' ', '2', '\n']
        ['B'] ['k'] = some (ini_get_value doc ['B'] ['k']) :=
  C2_stream_search_equivalence 1024
    ['t', '=', '0', '\n', '[', 'A', ']', '\n', 'k', '=', '1', '\n', ';', 'c', '\n',
      '[', 'B', ']', '\n', 'j', ':', '3', '\n', 'k', ' ', '=', ' ', '2', '\n']
    ['B'] ['k']
    [['t', '=', '0'], ['[', 'A', ']'], ['k', '=', '1'], ['[', 'B', ']'], ['j', ':', '3'],
      ['k', ' ', '=', ' ', '2']]
    (by decide) (by decide) (by decide) (by decide) (by decide) (by decide)

/-- C3, as stated, fails on the spec's own text: `[A]`, `k=1`, `[B]`, `k=2` without a
newline after the last line.  `ini_readline` returns `NULL` on the unterminated last
line, section `B` stays empty and the lookup of `k` in `B` reports KeyNotFound.  The
buffer length is 1024; by `buffer_length_irrelevant` every length that holds the lines
gives the same. -/
theorem C3_counterexample :
    ini_read_stream 1024
        ⟨['[', 'A', ']', '\n', 'k', '=', '1', '\n', '[', 'B', ']', '\n', 'k', '=', '2'], false⟩
      = some (⟨[⟨['A'], [⟨['k'], ['1']⟩]⟩, ⟨['B'], []⟩], 2⟩, IniErr.INI_OK) ∧
    ini_get_value ⟨[⟨['A'], [⟨['k'], ['1']⟩]⟩, ⟨['B'], []⟩], 2⟩ ['B'] ['k']
      = (none, IniErr.INI_NOKEY) := by
  constructor <;> decide

/-- C3 (amended): for every two distinct valid section names `A`, `B` and valid values
`v1`, `v2` (each a part of a line of text, the lines within the line-buffer limit), the
text `[A]`, `k=v1`, `[B]`, `k=v2` with every line newline-terminated builds a document
of exactly two sections, `A` holding the pair `(k, v1)` and `B` the pair `(k, v2)`, and
`ini_get_value` returns `v1` for `A`, `k` and `v2` for `B`, `k`, both with OK.  With
`A`, `B`, `1`, `2` this is the spec's text followed by a newline. -/
theorem C3_section_scoping (N : Nat) (A B v1 v2 : CStr)
    (hA : valid_section_name A) (hB : valid_section_name B) (hAB : A ≠ B)
    (hv1 : valid_value v1) (hv2 : valid_value v2)
    (htA : line_text A) (htB : line_text B) (ht1 : line_text v1) (ht2 : line_text v2)
    (hfA : ('[' :: A ++ [']']).length + 2 ≤ N) (hfB : ('[' :: B ++ [']']).length + 2 ≤ N)
    (hf1 : (['k', '='] ++ v1).length + 2 ≤ N) (hf2 : (['k', '='] ++ v2).length + 2 ≤ N) :
    ini_read_stream N
        ⟨('[' :: A ++ [']']) ++ ['\n'] ++ (['k', '='] ++ v1) ++ ['\n'] ++
          ('[' :: B ++ [']']) ++ ['\n'] ++ (['k', '='] ++ v2) ++ ['\n'], false⟩
      = some (⟨[⟨A, [⟨['k'], v1⟩]⟩, ⟨B, [⟨['k'], v2⟩]⟩], 2⟩, IniErr.INI_OK) ∧
    ini_get_value ⟨[⟨A, [⟨['k'], v1⟩]⟩, ⟨B, [⟨['k'], v2⟩]⟩], 2⟩ A ['k']
      = (some v1, IniErr.INI_OK) ∧
    ini_get_value ⟨[⟨A, [⟨['k'], v1⟩]⟩, ⟨B, [⟨['k'], v2⟩]⟩], 2⟩ B ['k']
      = (some v2, IniErr.INI_OK) := by
  obtain ⟨hLA, hsA⟩ := header_line N A hA htA hfA
  obtain ⟨hLB, hsB⟩ := header_line N B hB htB hfB
  have hkv1 := kv_line N ['k'] v1 [] [] '=' (by decide) hv1 (by decide) ht1 (Or.inl rfl)
    (by simp) (by simp) (by simpa using hf1)
  have hkv2 := kv_line N ['k'] v2 [] [] '=' (by decide) hv2 (by decide) ht2 (Or.inl rfl)
    (by simp) (by simp) (by simpa using hf2)
  have e1 : ['k'] ++ [] ++ ['='] ++ [] ++ v1 = ['k', '='] ++ v1 := by simp
  have e2 : ['k'] ++ [] ++ ['='] ++ [] ++ v2 = ['k', '='] ++ v2 := by simp
  rw [e1] at hkv1
  rw [e2] at hkv2
  obtain ⟨hL1, hs1, hk1⟩ := hkv1
  obtain ⟨hL2, hs2, hk2⟩ := hkv2
  have hN : 2 ≤ N := by omega
  have hstream : ('[' :: A ++ [']']) ++ ['\n'] ++ (['k', '='] ++ v1) ++ ['\n'] ++
      ('[' :: B ++ [']']) ++ ['\n'] ++ (['k', '='] ++ v2) ++ ['\n']
      = (['[' :: A ++ [']'], ['k', '='] ++ v1, '[' :: B ++ [']'], ['k', '='] ++ v2].map
          (fun l => l ++ ['\n'])).flatten := by
    simp
  have hall : ∀ l ∈ ['[' :: A ++ [']'], ['k', '='] ++ v1, '[' :: B ++ [']'], ['k', '='] ++ v2],
      simple_line N l := by
    intro l hl
    simp only [List.mem_cons, List.mem_singleton, List.not_mem_nil, or_false] at hl
    rcases hl with h | h | h | h <;> rw [h] <;> assumption
  have hdoc : document_sections
      ['[' :: A ++ [']'], ['k', '='] ++ v1, '[' :: B ++ [']'], ['k', '='] ++ v2]
      = [⟨A, [⟨['k'], v1⟩]⟩, ⟨B, [⟨['k'], v2⟩]⟩] := by
    simp only [document_sections, header_sections, hsA, hs1, hsB, hs2]
    rw [block_items_line _ _ hs1, block_items_header _ _ B hsB, block_items_line _ _ hs2]
    simp only [kv_of_line, hk1, hk2, Option.map_some', Option.toList_some]
    rfl
  refine ⟨?_, ?_, ?_⟩
  · rw [hstream, ini_read_stream_simple N _ hall hN, build_loop_start, hdoc]
    rfl
  · unfold ini_get_value
    simp only
    unfold ini_get_value_loop
    rw [if_pos rfl]
    unfold find_key
    rw [if_pos rfl]
  · unfold ini_get_value
    simp only
    unfold ini_get_value_loop
    rw [if_neg hAB]
    unfold ini_get_value_loop
    rw [if_pos rfl]
    unfold find_key
    rw [if_pos rfl]

/-- Witness for C3: the spec's text followed by a newline, read with a buffer of 1024. -/
theorem C3_section_scoping_witness :
    ini_read_stream 1024
        ⟨('[' :: ['A'] ++ [']']) ++ ['\n'] ++ (['k', '='] ++ ['1']) ++ ['\n'] ++
          ('[' :: ['B'] ++ [']']) ++ ['\n'] ++ (['k', '='] ++ ['2']) ++ ['\n'], false⟩
      = some (⟨[⟨['A'], [⟨['k'], ['1']⟩]⟩, ⟨['B'], [⟨['k'], ['2']⟩]⟩], 2⟩, IniErr.INI_OK) ∧
    ini_get_value ⟨[⟨['A'], [⟨['k'], ['1']⟩]⟩, ⟨['B'], [⟨['k'], ['2']⟩]⟩], 2⟩ ['A'] ['k']
      = (some ['1'], IniErr.INI_OK) ∧
    ini_get_value ⟨[⟨['A'], [⟨['k'], ['1']⟩]⟩, ⟨['B'], [⟨['k'], ['2']⟩]⟩], 2⟩ ['B'] ['k']
      = (some ['2'], IniErr.INI_OK) :=
  C3_section_scoping 1024 ['A'] ['B'] ['1'] ['2'] (by decide) (by decide) (by decide)
    (by decide) (by decide) (by decide) (by decide) (by decide) (by decide) (by decide)
    (by decide) (by decide) (by decide)

/-- C4: for every text whose first logical line is not a section header and is split by
`get_key_value` into `(k, v)` (the rest of the text being read with a defined result),
`ini_read_stream` returns with OK a document whose first section has the empty name and
holds, in order, the pairs of all valid key/value lines before the first header, and
`ini_get_value` with the empty section name and `k` returns `v` with OK. -/
theorem C4_implicit_top_section (N : Nat) (fp : FILE) (L : CStr) (Ls : List CStr) (k v : CStr)
    (hlines : logical_lines N (fp.data.length + 1) fp = some (L :: Ls))
    (hsec : get_section L = none) (hkv : get_key_value L = some (k, v)) :
    ∃ doc rest, ini_read_stream N fp = some (doc, IniErr.INI_OK) ∧
      doc.first = ⟨[], block_items (L :: Ls)⟩ :: rest ∧
      (∃ more, block_items (L :: Ls) = ⟨k, v⟩ :: more) ∧
      ini_get_value doc [] k = (some v, IniErr.INI_OK) := by
  have hitems : block_items (L :: Ls) = ⟨k, v⟩ :: block_items Ls := by
    rw [block_items_line L Ls hsec]
    simp [kv_of_line, hkv]
  have hdoc : document_sections (L :: Ls)
      = ⟨[], block_items (L :: Ls)⟩ :: header_sections (L :: Ls) := by
    simp only [document_sections, hsec]
  refine ⟨⟨document_sections (L :: Ls), (document_sections (L :: Ls)).length⟩,
    header_sections (L :: Ls), ini_read_stream_of_lines N fp _ hlines, hdoc,
    ⟨block_items Ls, hitems⟩, ?_⟩
  unfold ini_get_value
  simp only
  rw [hdoc]
  unfold ini_get_value_loop
  rw [if_pos rfl, hitems]
  unfold find_key
  rw [if_pos rfl]

/-- Witness for C4: two pairs, a malformed line and a comment before the first header. -/
theorem C4_implicit_top_section_witness :
    ∃ doc rest, ini_read_stream 1024
        ⟨['k', '=', 'v', '\n', 'x', '\n', '#', 'c', '\n', 'a', ':', 'b', '\n',
          '[', 's', ']', '\n', 'k', '=', 'w', '\n'], false⟩ = some (doc, IniErr.INI_OK) ∧
      doc.first = ⟨[], block_items
        (['k', '=', 'v'] :: [['x'], ['a', ':', 'b'], ['[', 's', ']'], ['k', '=', 'w']])⟩ :: rest ∧
      (∃ more, block_items
        (['k', '=', 'v'] :: [['x'], ['a', ':', 'b'], ['[', 's', ']'], ['k', '=', 'w']])
          = ⟨['k'], ['v']⟩ :: more) ∧
      ini_get_value doc [] ['k'] = (some ['v'], IniErr.INI_OK) :=
  C4_implicit_top_section 1024
    ⟨['k', '=', 'v', '\n', 'x', '\n', '#', 'c', '\n', 'a', ':', 'b', '\n',
      '[', 's', ']', '\n', 'k', '=', 'w', '\n'], false⟩
    ['k', '=', 'v'] [['x'], ['a', ':', 'b'], ['[', 's', ']'], ['k', '=', 'w']] ['k'] ['v']
    (by decide) (by decide) (by decide)

/-- C5: `ini_get_value` returns no value with SectionNotFound exactly when no section of
the document has the name; no value with KeyNotFound exactly when the first section with
the name holds no pair with the key; and the value of the first pair with the key in the
first section with the name, with OK, exactly when such a pair exists.  No other result
occurs. -/
theorem C5_get_value_classification (doc : ini_file) (s k : CStr) :
    (ini_get_value doc s k = (none, IniErr.INI_NOSECTION) ↔ ∀ x ∈ doc.first, x.name ≠ s) ∧
    (ini_get_value doc s k = (none, IniErr.INI_NOKEY) ↔
      ∃ pre sec post, doc.first = pre ++ sec :: post ∧ (∀ x ∈ pre, x.name ≠ s) ∧
        sec.name = s ∧ ∀ kv ∈ sec.items, kv.key ≠ k) ∧
    (∀ v, ini_get_value doc s k = (some v, IniErr.INI_OK) ↔
      ∃ pre sec post ip kv ipost, doc.first = pre ++ sec :: post ∧ (∀ x ∈ pre, x.name ≠ s) ∧
        sec.name = s ∧ sec.items = ip ++ kv :: ipost ∧ (∀ x ∈ ip, x.key ≠ k) ∧
        kv.key = k ∧ kv.value = v) ∧
    (ini_get_value doc s k = (none, IniErr.INI_NOSECTION) ∨
      ini_get_value doc s k = (none, IniErr.INI_NOKEY) ∨
      ∃ v, ini_get_value doc s k = (some v, IniErr.INI_OK)) := by
  unfold ini_get_value
  rcases first_named_split s doc.first with hno | ⟨pre, sec, post, heq, hpre, hs⟩
  · have hr := ini_get_value_loop_nosec s k doc.first hno
    rw [hr]
    refine ⟨⟨fun _ => hno, fun _ => rfl⟩, ⟨fun h => by simp at h, ?_⟩, ?_, Or.inl rfl⟩
    · rintro ⟨pre, sec, post, heq, -, hs, -⟩
      exact absurd hs (hno sec (by rw [heq]; simp))
    · intro v
      refine ⟨fun h => by simp at h, ?_⟩
      rintro ⟨pre, sec, post, ip, kv, ipost, heq, -, hs, -⟩
      exact absurd hs (hno sec (by rw [heq]; simp))
  · have hr := ini_get_value_loop_split s k pre sec post hpre hs
    rw [heq, hr]
    have hmem : ¬ ∀ x ∈ pre ++ sec :: post, x.name ≠ s := fun h => h sec (by simp) hs
    cases hf : find_key k sec.items with
    | none =>
      have hnone := (find_key_none_iff k sec.items).mp hf
      refine ⟨⟨fun h => by simp at h, fun h => absurd h hmem⟩,
        ⟨fun _ => ⟨pre, sec, post, rfl, hpre, hs, hnone⟩, fun _ => rfl⟩, ?_, Or.inr (Or.inl rfl)⟩
      intro v
      refine ⟨fun h => by simp at h, ?_⟩
      rintro ⟨pre2, sec2, post2, ip, kv, ipost, heq2, hpre2, hs2, hit, -, hk, -⟩
      have hsec : sec = sec2 := first_named_unique s pre pre2 sec sec2 post post2 heq2 hpre hs hpre2 hs2
      subst hsec
      exact absurd hk (hnone kv (by rw [hit]; simp))
    | some w =>
      obtain ⟨ip, kv, ipost, hit, hip, hk, hval⟩ := (find_key_some_iff k w sec.items).mp hf
      refine ⟨⟨fun h => by simp at h, fun h => absurd h hmem⟩, ⟨fun h => by simp at h, ?_⟩, ?_,
        Or.inr (Or.inr ⟨w, rfl⟩)⟩
      · rintro ⟨pre2, sec2, post2, heq2, hpre2, hs2, hall⟩
        have hsec : sec = sec2 := first_named_unique s pre pre2 sec sec2 post post2 heq2 hpre hs hpre2 hs2
        subst hsec
        exact absurd hk (hall kv (by rw [hit]; simp))
      · intro v
        constructor
        · intro h
          have hwv : w = v := by simpa using h
          exact ⟨pre, sec, post, ip, kv, ipost, rfl, hpre, hs, hit, hip, hk, hwv ▸ hval⟩
        · rintro ⟨pre2, sec2, post2, ip2, kv2, ipost2, heq2, hpre2, hs2, hit2, hip2, hk2, hval2⟩
          have hsec : sec = sec2 := first_named_unique s pre pre2 sec sec2 post post2 heq2 hpre hs hpre2 hs2
          subst hsec
          have : find_key k sec.items = some v :=
            (find_key_some_iff k v sec.items).mpr ⟨ip2, kv2, ipost2, hit2, hip2, hk2, hval2⟩
          rw [hf] at this
          simp only [Option.some.injEq] at this
          rw [this]

/-- C6, as stated, fails on a line longer than the buffer: with `INIREAD_LINEBUF = 1024`
and `c` made of 1024 letters `a`, the stream `c`, backslash, newline, `b`, newline gives
the logical line of the first 1022 letters, not `c` followed by `b`.  (By
`ini_readline_overlong` every buffer length has such a line.) -/
theorem C6_counterexample :
    content_ok (List.replicate 1024 'a') ∧ 1 % 2 = 1 ∧
    (['b'] : CStr).getLast? ≠ some '\\' ∧ line_text ['b'] ∧
    ini_readline 1024
        ⟨List.replicate 1024 'a' ++ List.replicate 1 '\\' ++ '\n' :: (['b'] ++ ['\n']), false⟩
      = some (some (List.replicate 1022 'a'),
          ⟨List.replicate 1 'a' ++ (List.replicate 1 '\\' ++ '\n' :: (['b'] ++ ['\n'])), false⟩) ∧
    List.replicate 1022 'a'
      ≠ rstrip (List.replicate 1024 'a' ++ List.replicate ((1 - 1) / 2) '\\' ++ ['b']) := by
  refine ⟨content_ok_replicate_a 1023, by decide, by decide, by decide, ?_, ?_⟩
  · have := ini_readline_overlong 1024 1024
      (List.replicate 1 '\\' ++ '\n' :: (['b'] ++ ['\n'])) (by decide) (by decide)
    rw [List.append_assoc]
    exact this
  · intro h
    have hl := congrArg List.length h
    have e : rstrip (List.replicate 1024 'a' ++ List.replicate ((1 - 1) / 2) '\\' ++ ['b'])
        = List.replicate 1024 'a' ++ List.replicate ((1 - 1) / 2) '\\' ++ ['b'] :=
      rstrip_of_last _ 'b' (by decide)
    rw [e] at hl
    simp only [List.length_replicate, List.length_append, List.length_singleton] at hl
    omega

/-- C6 (amended): for content `c` (no leading whitespace, not blank, not a comment, not
ending in a backslash), odd `n` and a newline-terminated next physical line `d` that does
not end in a backslash, both lines within the line-buffer limit, `ini_readline` on `c`,
`n` backslashes, newline, `d`, newline returns the single logical line `c`, `(n-1)/2`
backslashes, `d`, with trailing whitespace removed; the continuation backslash and the
newline after it do not appear.  The spec's instance `a`, backslash, newline, `b` yields
`ab`. -/
theorem C6_backslash_continuation_joins (N : Nat) (c d : CStr) (n : Nat) (rest : List Char)
    (hc : content_ok c) (hn : n % 2 = 1)
    (hd : d.getLast? ≠ some '\\') (hdt : line_text d)
    (hN : c.length + n + 2 ≤ N) (hNd : d.length + 2 ≤ N) :
    ini_readline N ⟨c ++ List.replicate n '\\' ++ '\n' :: (d ++ '\n' :: rest), false⟩
      = some (some (rstrip (c ++ List.replicate ((n - 1) / 2) '\\' ++ d)), ⟨rest, false⟩) ∧
    ini_readline N ⟨['a', '\\', '\n', 'b'], false⟩ = some (some ['a', 'b'], ⟨[], true⟩) := by
  refine ⟨ini_readline_join N c d n rest hc hn hd hdt hN hNd, ini_readline_a_b N ?_⟩
  have : 0 < c.length := List.length_pos.mpr hc.1
  omega

/-- Witness for C6: `key=a`, one backslash, newline, `bc`, newline, read with a buffer of 1024. -/
theorem C6_backslash_continuation_joins_witness :
    ini_readline 1024
        ⟨['k', '=', 'a'] ++ List.replicate 1 '\\' ++ '\n' :: (['b', 'c'] ++ '\n' :: []), false⟩
      = some (some (rstrip (['k', '=', 'a'] ++ List.replicate ((1 - 1) / 2) '\\' ++ ['b', 'c'])),
          ⟨[], false⟩) ∧
    ini_readline 1024 ⟨['a', '\\', '\n', 'b'], false⟩ = some (some ['a', 'b'], ⟨[], true⟩) :=
  C6_backslash_continuation_joins 1024 ['k', '=', 'a'] ['b', 'c'] 1 [] (by decide) (by decide)
    (by decide) (by decide) (by decide) (by decide)

/-- C7, as stated, fails on the spec's own instance: after `a`, two backslashes, newline,
the line `b` ends the stream without a newline; the first call returns `a` and one
backslash, but the next call returns `NULL` (end of stream), not `b`.  The buffer length
is 1024; by `buffer_length_irrelevant` every length that holds the lines gives the same. -/
theorem C7_counterexample :
    ini_readline 1024 ⟨['a', '\\', '\\', '\n', 'b'], false⟩
      = some (some ['a', '\\'], ⟨['b'], false⟩) ∧
    ini_readline 1024 ⟨['b'], false⟩ = some (none, ⟨[], true⟩) := by
  constructor <;> decide

/-- C7 (amended): for content `c` (no leading whitespace, not blank, not a comment, not
ending in a backslash) and even `n`, with the line within the line-buffer limit,
`ini_readline` on `c`, `n` backslashes, newline, followed by anything, returns `c` and
exactly `n/2` backslashes (for `n = 0`, `c` with trailing whitespace removed) and leaves
the following text unread; when the following physical line `d` is itself such content,
newline-terminated and within the limit, the next call returns `d` (trailing whitespace
removed) as an independent logical line. -/
theorem C7_even_backslashes_do_not_join (N : Nat) (c d : CStr) (n : Nat)
    (tail rest : List Char)
    (hc : content_ok c) (hn : n % 2 = 0) (hd : content_ok d)
    (hN : c.length + n + 2 ≤ N) (hNd : d.length + 2 ≤ N) :
    ini_readline N ⟨c ++ List.replicate n '\\' ++ '\n' :: tail, false⟩
      = some (some (if n = 0 then rstrip c else c ++ List.replicate (n / 2) '\\'),
          ⟨tail, false⟩) ∧
    ini_readline N ⟨d ++ '\n' :: rest, false⟩ = some (some (rstrip d), ⟨rest, false⟩) := by
  constructor
  · rw [ini_readline_even N c n tail hc hn hN]
    by_cases h0 : n = 0
    · subst h0; simp
    · rw [if_neg h0]
      obtain ⟨j, hj⟩ : ∃ j, n / 2 = j + 1 := ⟨n / 2 - 1, by omega⟩
      rw [hj, List.replicate_succ', ← List.append_assoc, rstrip_of_last _ '\\' (by decide)]
  · have := ini_readline_even N d 0 rest hd (by rfl) (by omega)
    simpa using this

/-- Witness for C7: the spec's instance with its last line newline-terminated. -/
theorem C7_even_backslashes_do_not_join_witness :
    ini_readline 1024 ⟨['a'] ++ List.replicate 2 '\\' ++ '\n' :: (['b'] ++ '\n' :: []), false⟩
      = some (some (if 2 = 0 then rstrip ['a'] else ['a'] ++ List.replicate (2 / 2) '\\'),
          ⟨['b'] ++ '\n' :: [], false⟩) ∧
    ini_readline 1024 ⟨['b'] ++ '\n' :: [], false⟩ = some (some (rstrip ['b']), ⟨[], false⟩) :=
  C7_even_backslashes_do_not_join 1024 ['a'] ['b'] 2 (['b'] ++ '\n' :: []) [] (by decide)
    (by decide) (by decide) (by decide) (by decide)

/-- C8: on a stream whose physical lines (within the line-buffer limit, the last one
possibly without newline) are all empty, made of spaces and tabs only, or comments,
`filter_line` rejects every line, `ini_readline` signals end-of-stream without returning
a logical line, and `ini_read_stream` returns with OK a document with no section and no
pair.  The buffer holds at least one character (`2 ≤ N`). -/
theorem C8_comment_blank_filtering (N : Nat) (lines : List CStr) (last : CStr)
    (h : ∀ l ∈ lines, blank_or_comment l = true ∧ (∀ x ∈ l, x ≠ '\n') ∧ l.length + 2 ≤ N)
    (hb : blank_or_comment last = true) (hnl : ∀ x ∈ last, x ≠ '\n')
    (hfit : last.length + 1 ≤ N) (hN : 2 ≤ N) :
    (∀ l ∈ lines, (filter_line (cstr (l ++ ['\n'])) (cstr (l ++ ['\n'])).length).2.2 = false) ∧
    (filter_line (cstr last) (cstr last).length).2.2 = false ∧
    ini_readline N ⟨(lines.map (fun l => l ++ ['\n'])).flatten ++ last, false⟩
      = some (none, ⟨[], true⟩) ∧
    ini_read_stream N ⟨(lines.map (fun l => l ++ ['\n'])).flatten ++ last, false⟩
      = some (⟨[], 0⟩, IniErr.INI_OK) := by
  have hrl := ini_readline_all_rejected N lines last h hb hnl hfit hN
  refine ⟨fun l hl => filter_line_blank_or_comment l ['\n'] (h l hl).1 (Or.inr rfl), ?_, hrl, ?_⟩
  · have := filter_line_blank_or_comment last [] hb (Or.inl rfl)
    rwa [List.append_nil] at this
  · unfold ini_read_stream
    simp only
    unfold ini_read_stream_loop
    rw [hrl]
    rfl

/-- Witness for C8: a `;` comment, a `#` comment after blanks, an empty line, a line of
blanks, and an unterminated comment at the end. -/
theorem C8_comment_blank_filtering_witness :
    (∀ l ∈ [[';', ' ', 'c'], [' ', '\t', '#', 'c'], [], [' ', ' ']],
      (filter_line (cstr (l ++ ['\n'])) (cstr (l ++ ['\n'])).length).2.2 = false) ∧
    (filter_line (cstr ['#', 'e']) (cstr ['#', 'e']).length).2.2 = false ∧
    ini_readline 1024
        ⟨(([[';', ' ', 'c'], [' ', '\t', '#', 'c'], [], [' ', ' ']] : List CStr).map
          (fun l => l ++ ['\n'])).flatten ++ ['#', 'e'], false⟩
      = some (none, ⟨[], true⟩) ∧
    ini_read_stream 1024
        ⟨(([[';', ' ', 'c'], [' ', '\t', '#', 'c'], [], [' ', ' ']] : List CStr).map
          (fun l => l ++ ['\n'])).flatten ++ ['#', 'e'], false⟩
      = some (⟨[], 0⟩, IniErr.INI_OK) :=
  C8_comment_blank_filtering 1024 [[';', ' ', 'c'], [' ', '\t', '#', 'c'], [], [' ', ' ']]
    ['#', 'e'] (by decide) (by decide) (by decide) (by decide) (by decide)

/-- C9: for a non-empty key without space, tab, `=` or `:` and a non-empty value not
starting with space or tab, `get_key_value` on `k = v` (blanks around `=`) and on `k:v`
both succeed with the same pair `(k, v)`, and so does every layout with either separator
and any runs of spaces and tabs on both sides of it. -/
theorem C9_separator_spacing_independence (k v : CStr)
    (hk : k ≠ []) (hkc : ∀ c ∈ k, c ≠ ' ' ∧ c ≠ '\t' ∧ c ≠ '=' ∧ c ≠ ':')
    (hv : v ≠ []) (hv0 : v.head? ≠ some ' ' ∧ v.head? ≠ some '\t') :
    get_key_value (k ++ [' ', '=', ' '] ++ v) = some (k, v) ∧
    get_key_value (k ++ [':'] ++ v) = some (k, v) ∧
    ∀ (ws1 ws2 : CStr) (sep : Char),
      (∀ c ∈ ws1, c = ' ' ∨ c = '\t') → (∀ c ∈ ws2, c = ' ' ∨ c = '\t') →
      (sep = '=' ∨ sep = ':') →
      get_key_value (k ++ ws1 ++ [sep] ++ ws2 ++ v) = some (k, v) := by
  refine ⟨?_, ?_, fun ws1 ws2 sep h1 h2 hs => get_key_value_layout k v ws1 ws2 sep hk hkc hv hv0 h1 h2 hs⟩
  · have := get_key_value_layout k v [' '] [' '] '=' hk hkc hv hv0 (by simp) (by simp) (Or.inl rfl)
    simpa using this
  · have := get_key_value_layout k v [] [] ':' hk hkc hv hv0 (by simp) (by simp) (Or.inr rfl)
    simpa using this

/-- Witness for C9 at the key `key` and the value `value`. -/
theorem C9_separator_spacing_independence_witness :
    get_key_value ("key".toList ++ [' ', '=', ' '] ++ "value".toList)
        = some ("key".toList, "value".toList) ∧
    get_key_value ("key".toList ++ [':'] ++ "value".toList)
        = some ("key".toList, "value".toList) ∧
    ∀ (ws1 ws2 : CStr) (sep : Char),
      (∀ c ∈ ws1, c = ' ' ∨ c = '\t') → (∀ c ∈ ws2, c = ' ' ∨ c = '\t') →
      (sep = '=' ∨ sep = ':') →
      get_key_value ("key".toList ++ ws1 ++ [sep] ++ ws2 ++ "value".toList)
        = some ("key".toList, "value".toList) :=
  C9_separator_spacing_independence "key".toList "value".toList (by decide) (by decide)
    (by decide) (by decide)

/-- C10, as stated, fails: a name may hold `[` (the line `[a[b]` names the section `a[b`),
and it may be `]` itself (the lines `[]]` and `[ ]` both name the section `]`); the
document built from these three lines, read with a buffer of 1024, holds the three names. -/
theorem C10_counterexample :
    get_section ['[', 'a', '[', 'b', ']'] = some ['a', '[', 'b'] ∧
    get_section ['[', ']', ']'] = some [']'] ∧
    get_section ['[', ' ', ']'] = some [']'] ∧
    ini_read_stream 1024
        ⟨['[', 'a', '[', 'b', ']', '\n', '[', ']', ']', '\n', '[', ' ', ']', '\n'], false⟩
      = some (⟨[⟨['a', '[', 'b'], []⟩, ⟨[']'], []⟩, ⟨[']'], []⟩], 3⟩, IniErr.INI_OK) := by
  refine ⟨?_, ?_, ?_, ?_⟩ <;> decide

/-- C10 (amended): every name returned by `get_section`, and every section name of a
document returned by `ini_read_stream`, has no leading and no trailing space or tab and
holds no `]` after its first character. -/
theorem C10_section_name_invariant :
    (∀ str name : CStr, get_section str = some name →
      name.head? ≠ some ' ' ∧ name.head? ≠ some '\t' ∧
      name.getLast? ≠ some ' ' ∧ name.getLast? ≠ some '\t' ∧
      ∀ c ∈ name.tail, c ≠ ']') ∧
    (∀ (N : Nat) (fp : FILE) (doc : ini_file) (e : IniErr),
      ini_read_stream N fp = some (doc, e) →
      ∀ s ∈ doc.first,
        s.name.head? ≠ some ' ' ∧ s.name.head? ≠ some '\t' ∧
        s.name.getLast? ≠ some ' ' ∧ s.name.getLast? ≠ some '\t' ∧
        ∀ c ∈ s.name.tail, c ≠ ']') := by
  refine ⟨get_section_name_props, ?_⟩
  intro N fp doc e h s hs
  obtain ⟨ls, -, hdoc, -⟩ := ini_read_stream_some N fp doc e h
  rw [hdoc] at hs
  rcases document_sections_names ls s hs with h0 | ⟨l, -, hl⟩
  · rw [h0]; simp
  · exact get_section_name_props l s.name hl

/-- Witness for C10: the header `[ a b ]` alone, and a document with a top pair and
that header. -/
theorem C10_section_name_invariant_witness :
    (['a', ' ', 'b'] : CStr).head? ≠ some ' ' ∧ (['a', ' ', 'b'] : CStr).head? ≠ some '\t' ∧
      (['a', ' ', 'b'] : CStr).getLast? ≠ some ' ' ∧
      (['a', ' ', 'b'] : CStr).getLast? ≠ some '\t' ∧
      (∀ c ∈ (['a', ' ', 'b'] : CStr).tail, c ≠ ']') ∧
    ∀ s ∈ (⟨[⟨[], [⟨['k'], ['v']⟩]⟩, ⟨['a', ' ', 'b'], []⟩], 2⟩ : ini_file).first,
      s.name.head? ≠ some ' ' ∧ s.name.head? ≠ some '\t' ∧
      s.name.getLast? ≠ some ' ' ∧ s.name.getLast? ≠ some '\t' ∧
      ∀ c ∈ s.name.tail, c ≠ ']' :=
  ⟨(C10_section_name_invariant.1 ['[', ' ', 'a', ' ', 'b', ' ', ']'] ['a', ' ', 'b']
      (by decide)).1,
    (C10_section_name_invariant.1 ['[', ' ', 'a', ' ', 'b', ' ', ']'] ['a', ' ', 'b']
      (by decide)).2.1,
    (C10_section_name_invariant.1 ['[', ' ', 'a', ' ', 'b', ' ', ']'] ['a', ' ', 'b']
      (by decide)).2.2.1,
    (C10_section_name_invariant.1 ['[', ' ', 'a', ' ', 'b', ' ', ']'] ['a', ' ', 'b']
      (by decide)).2.2.2.1,
    (C10_section_name_invariant.1 ['[', ' ', 'a', ' ', 'b', ' ', ']'] ['a', ' ', 'b']
      (by decide)).2.2.2.2,
    C10_section_name_invariant.2 1024
      ⟨['k', '=', 'v', '\n', '[', ' ', 'a', ' ', 'b', ' ', ']', '\n'], false⟩
      ⟨[⟨[], [⟨['k'], ['v']⟩]⟩, ⟨['a', ' ', 'b'], []⟩], 2⟩ IniErr.INI_OK (by decide)⟩

/-- C11: every pair stored in a document returned by `ini_read_stream` has a key of length
at least 1 without space, tab, `=` or `:` and a value of length at least 1 that does not
begin with a space or tab; `get_key_value` rejects a line with an empty key, a line with no
separator after the key and a line with nothing after the separator; and a logical line
that `get_key_value` rejects adds no pair and raises no error: the document is returned
with `INI_OK` and its pairs are those of the other lines. -/
theorem C11_key_value_invariant :
    (∀ (N : Nat) (fp : FILE) (doc : ini_file) (e : IniErr),
      ini_read_stream N fp = some (doc, e) →
      ∀ s ∈ doc.first, ∀ kv ∈ s.items,
        1 ≤ kv.key.length ∧ (∀ c ∈ kv.key, c ≠ ' ' ∧ c ≠ '\t' ∧ c ≠ '=' ∧ c ≠ ':') ∧
        1 ≤ kv.value.length ∧ kv.value.head? ≠ some ' ' ∧ kv.value.head? ≠ some '\t') ∧
    (∀ l : CStr,
      (l = [] ∨ l.head? = some ' ' ∨ l.head? = some '\t' ∨ l.head? = some '=' ∨
        l.head? = some ':') → get_key_value l = none) ∧
    (∀ k w rest : CStr, k ≠ [] → (∀ c ∈ k, c ≠ ' ' ∧ c ≠ '\t' ∧ c ≠ '=' ∧ c ≠ ':') →
      (∀ c ∈ w, c = ' ' ∨ c = '\t') →
      (rest = [] ∨ (w ≠ [] ∧ ∃ c t, rest = c :: t ∧ c ≠ ' ' ∧ c ≠ '\t' ∧ c ≠ '=' ∧ c ≠ ':')) →
      get_key_value (k ++ w ++ rest) = none) ∧
    (∀ (k w1 w2 : CStr) (sep : Char), k ≠ [] →
      (∀ c ∈ k, c ≠ ' ' ∧ c ≠ '\t' ∧ c ≠ '=' ∧ c ≠ ':') →
      (∀ c ∈ w1, c = ' ' ∨ c = '\t') → (∀ c ∈ w2, c = ' ' ∨ c = '\t') →
      (sep = '=' ∨ sep = ':') →
      get_key_value (k ++ w1 ++ [sep] ++ w2) = none) ∧
    (∀ (N : Nat) (fp : FILE) (ls1 : List CStr) (m : CStr) (ls2 : List CStr),
      logical_lines N (fp.data.length + 1) fp = some (ls1 ++ m :: ls2) →
      get_key_value m = none →
      ∃ doc, ini_read_stream N fp = some (doc, IniErr.INI_OK) ∧
        (doc.first.map (fun s => s.items)).flatten = (ls1 ++ ls2).filterMap line_pair) := by
  refine ⟨?_, get_key_value_empty_key, get_key_value_no_separator, get_key_value_no_value, ?_⟩
  · intro N fp doc e h s hs kv hkv
    obtain ⟨ls, _, hdoc, _⟩ := ini_read_stream_some N fp doc e h
    rw [hdoc] at hs
    obtain ⟨l, _, hl⟩ := document_sections_items ls s hs kv hkv
    exact get_key_value_props l kv.key kv.value hl
  · intro N fp ls1 m ls2 hl hm
    refine ⟨_, ini_read_stream_of_lines N fp _ hl, ?_⟩
    simp only
    rw [document_sections_all_items, List.filterMap_append, List.filterMap_cons,
      line_pair_none m hm, List.filterMap_append]

theorem C11_key_value_invariant_witness :
    (∀ s ∈ (⟨[⟨[], [⟨['a'], ['1']⟩, ⟨['c'], ['d', ' ', '\\']⟩]⟩], 1⟩ : ini_file).first,
      ∀ kv ∈ s.items,
        1 ≤ kv.key.length ∧ (∀ c ∈ kv.key, c ≠ ' ' ∧ c ≠ '\t' ∧ c ≠ '=' ∧ c ≠ ':') ∧
        1 ≤ kv.value.length ∧ kv.value.head? ≠ some ' ' ∧ kv.value.head? ≠ some '\t') ∧
    get_key_value ['=', 'x'] = none ∧
    get_key_value (['b', 'a', 'r', 'e'] ++ [] ++ []) = none ∧
    get_key_value (['b'] ++ [' '] ++ ['='] ++ [' ']) = none ∧
    ∃ doc, ini_read_stream 1024
        ⟨['a', '=', '1', '\n', 'b', 'a', 'r', 'e', '\n', '=', 'x', '\n', 'b', ' ', '=', ' ', '\n',
          'c', ':', ' ', 'd', ' ', '\\', '\\', '\n'], false⟩ = some (doc, IniErr.INI_OK) ∧
      (doc.first.map (fun s => s.items)).flatten
        = (([['a', '=', '1']] : List CStr) ++
            [['=', 'x'], ['b', ' ', '='], ['c', ':', ' ', 'd', ' ', '\\']]).filterMap line_pair :=
  ⟨C11_key_value_invariant.1 1024
      ⟨['a', '=', '1', '\n', 'b', 'a', 'r', 'e', '\n', '=', 'x', '\n', 'b', ' ', '=', ' ', '\n',
        'c', ':', ' ', 'd', ' ', '\\', '\\', '\n'], false⟩ _ IniErr.INI_OK (by decide),
    C11_key_value_invariant.2.1 _ (by decide),
    C11_key_value_invariant.2.2.1 _ _ _ (by decide) (by decide) (by decide) (Or.inl rfl),
    C11_key_value_invariant.2.2.2.1 _ _ _ _ (by decide) (by decide) (by decide) (by decide)
      (by decide),
    C11_key_value_invariant.2.2.2.2 1024 _ [['a', '=', '1']] ['b', 'a', 'r', 'e']
      [['=', 'x'], ['b', ' ', '='], ['c', ':', ' ', 'd', ' ', '\\']] (by decide) (by decide)⟩

/-- C12: the code on the file holding the single line `[=x]`, searched for section `=x` and
key `[`.  No line follows the header, so the claim asks for `INI_NOKEY` and no value; the
code passes the matching header line itself, reterminated to `[=x`, to
`get_val_from_string`, which finds the key `[`, the separator `=` and returns the value
`x` with `INI_OK`.  The document built from the same file has no pair in section `=x`. -/
theorem C12_matching_header_searched_for_key :
    get_section ['[', '=', 'x', ']'] = some ['=', 'x'] ∧
    get_section_reterm ['[', '=', 'x', ']'] = ['[', '=', 'x'] ∧
    get_val_from_string ['[', '=', 'x'] ['['] = some ['x'] ∧
    ini_read_value 1024 ['[', '=', 'x', ']', '\n'] ['=', 'x'] ['[']
      = some (some ['x'], IniErr.INI_OK) ∧
    ini_read_file 1024 ['[', '=', 'x', ']', '\n']
      = some (⟨[⟨['=', 'x'], []⟩], 1⟩, IniErr.INI_OK) ∧
    ini_get_value ⟨[⟨['=', 'x'], []⟩], 1⟩ ['=', 'x'] ['['] = (none, IniErr.INI_NOKEY) := by
  decide

/-- C13: when the logical lines of a stream hold two header lines with the same name `A`,
`ini_read_stream` returns with `INI_OK` a document holding two separate sections named
`A`, in the order of their headers, each with exactly the pairs of the lines between its
header and the next header, in their order, and `n_sec` counts both; when no earlier
header is named `A`, `ini_find_section` returns the first of the two and `ini_get_value`
reports `INI_NOKEY` for every key absent from the first block, whatever the second block
holds. -/
theorem C13_duplicate_sections_not_merged (N : Nat) (fp : FILE) (pre : List CStr) (h1 : CStr)
    (mid : List CStr) (h2 : CStr) (post : List CStr) (A : CStr)
    (hl : logical_lines N (fp.data.length + 1) fp = some (pre ++ h1 :: (mid ++ h2 :: post)))
    (hA1 : get_section h1 = some A) (hA2 : get_section h2 = some A) :
    ∃ doc, ini_read_stream N fp = some (doc, IniErr.INI_OK) ∧
      doc.first = document_sections pre ++ ⟨A, block_items mid⟩ ::
        (header_sections mid ++ ⟨A, block_items post⟩ :: header_sections post) ∧
      doc.n_sec = (document_sections pre).length + 1 + (header_sections mid).length + 1 +
        (header_sections post).length ∧
      ((∀ l ∈ mid, get_section l = none) →
        block_items mid = mid.filterMap kv_of_line ∧ header_sections mid = []) ∧
      ((∀ l ∈ pre, get_section l ≠ some A) →
        ini_find_section doc A = some ⟨A, block_items mid⟩ ∧
        ∀ key, (∀ kv ∈ block_items mid, kv.key ≠ key) →
          ini_get_value doc A key = (none, IniErr.INI_NOKEY) ∧
          (ini_find_section doc A).bind (fun s => ini_get_section_value s key) = none) := by
  have hdoc : document_sections (pre ++ h1 :: (mid ++ h2 :: post))
      = document_sections pre ++ ⟨A, block_items mid⟩ ::
        (header_sections mid ++ ⟨A, block_items post⟩ :: header_sections post) := by
    rw [document_sections_append_header pre h1 _ A hA1]
    congr 1
    conv_lhs => unfold header_sections
    simp only [hA1]
    rw [block_items_append_header mid h2 post A hA2,
      header_sections_append_header mid h2 post A hA2]
    congr 2
    conv_lhs => unfold header_sections
    simp only [hA2]
  have hAne : A ≠ [] := by
    have hn := logical_lines_no_nul N _ fp _ hl h1 (by simp)
    have := (get_section_nonempty h1 A hn hA1).2
    intro h0
    rw [h0] at this
    simp at this
  refine ⟨_, ini_read_stream_of_lines N fp _ hl, ?_, ?_, ?_, ?_⟩
  · exact hdoc
  · simp only
    rw [hdoc]
    simp only [List.length_append, List.length_cons]
    omega
  · intro hmid
    refine ⟨block_items_no_header mid hmid, ?_⟩
    cases hs : header_sections mid with
    | nil => rfl
    | cons s ss =>
      obtain ⟨l, hlm, hg⟩ := header_sections_names mid s (by rw [hs]; simp)
      rw [hmid l hlm] at hg
      simp at hg
  · intro hpre
    have hne := document_sections_names_ne pre A hAne hpre
    have hfind : ini_find_section
        ⟨document_sections (pre ++ h1 :: (mid ++ h2 :: post)),
          (document_sections (pre ++ h1 :: (mid ++ h2 :: post))).length⟩ A
        = some ⟨A, block_items mid⟩ := by
      unfold ini_find_section
      simp only
      rw [hdoc, List.find?_append]
      have h0 : (document_sections pre).find? (fun s => decide (s.name = A)) = none := by
        rw [List.find?_eq_none]
        intro s hs
        simpa using hne s hs
      rw [h0]
      simp
    refine ⟨hfind, ?_⟩
    intro key hkey
    have hk : find_key key (block_items mid) = none := (find_key_none_iff key _).mpr hkey
    constructor
    · unfold ini_get_value
      simp only
      rw [hdoc, ini_get_value_loop_split A key _ ⟨A, block_items mid⟩ _ hne rfl]
      simp only [hk]
    · rw [hfind]
      simp only [Option.some_bind, ini_get_section_value, hk]

theorem C13_duplicate_sections_not_merged_witness :
    ∃ doc, ini_read_stream 1024
        ⟨['t', '=', '0', '\n', '[', 'A', ']', '\n', 'a', '=', '1', '\n',
          '[', 'A', ']', '\n', 'b', '=', '2', '\n'], false⟩ = some (doc, IniErr.INI_OK) ∧
      doc.first = document_sections [['t', '=', '0']] ++ ⟨['A'], block_items [['a', '=', '1']]⟩ ::
        (header_sections [['a', '=', '1']] ++
          ⟨['A'], block_items [['b', '=', '2']]⟩ :: header_sections [['b', '=', '2']]) ∧
      doc.n_sec = (document_sections [['t', '=', '0']]).length + 1 +
        (header_sections [['a', '=', '1']]).length + 1 +
        (header_sections [['b', '=', '2']]).length ∧
      ((∀ l ∈ [['a', '=', '1']], get_section l = none) →
        block_items [['a', '=', '1']] = [['a', '=', '1']].filterMap kv_of_line ∧
          header_sections [['a', '=', '1']] = []) ∧
      ((∀ l ∈ [['t', '=', '0']], get_section l ≠ some ['A']) →
        ini_find_section doc ['A'] = some ⟨['A'], block_items [['a', '=', '1']]⟩ ∧
        ∀ key, (∀ kv ∈ block_items [['a', '=', '1']], kv.key ≠ key) →
          ini_get_value doc ['A'] key = (none, IniErr.INI_NOKEY) ∧
          (ini_find_section doc ['A']).bind (fun s => ini_get_section_value s key) = none) :=
  C13_duplicate_sections_not_merged 1024
    ⟨['t', '=', '0', '\n', '[', 'A', ']', '\n', 'a', '=', '1', '\n',
      '[', 'A', ']', '\n', 'b', '=', '2', '\n'], false⟩
    [['t', '=', '0']] ['[', 'A', ']'] [['a', '=', '1']] ['[', 'A', ']'] [['b', '=', '2']] ['A']
    (by decide) (by decide) (by decide)

/-- C14 fails on the code: the line `x` is neither a header nor a pair, yet inserted before
the first header of the text `[A]`, `k=1` it opens the implicit empty-named section, so
that the document has one section more and `n_sec` is 2 instead of 1. -/
theorem C14_counterexample :
    get_section ['x'] = none ∧ get_key_value ['x'] = none ∧
    ini_read_stream 1024 ⟨['[', 'A', ']', '\n', 'k', '=', '1', '\n'], false⟩
      = some (⟨[⟨['A'], [⟨['k'], ['1']⟩]⟩], 1⟩, IniErr.INI_OK) ∧
    ini_read_stream 1024 ⟨['x', '\n', '[', 'A', ']', '\n', 'k', '=', '1', '\n'], false⟩
      = some (⟨[⟨[], []⟩, ⟨['A'], [⟨['k'], ['1']⟩]⟩], 2⟩, IniErr.INI_OK) := by
  decide

/-- C14, amended: let a text be cut at a line boundary into `pre`, none of whose logical
lines is cut short, and `post`, and let `m` be a line returned as it stands that is
neither a header nor a pair.  Inserting `m` with its newline at the cut leaves the result
of `ini_read_stream` unchanged whenever a logical line precedes the cut or the first
logical line after it is not a header; when no logical line precedes the cut and the text
after it is empty of logical lines or starts with a header, the result is the same
document with an empty section of empty name put first and `n_sec` one more.  The error is
`INI_OK` in every case. -/
theorem C14_malformed_line_insertion (N : Nat) (pre post : List Char) (m : CStr)
    (ls1 ls2 : List CStr)
    (hpre : ends_with_newline pre)
    (h1 : complete_lines N (pre.length + 1) ⟨pre, false⟩ = some ls1)
    (h2 : logical_lines N (post.length + 1) ⟨post, false⟩ = some ls2)
    (hm : simple_line N m) (hs : get_section m = none) (hk : get_key_value m = none) :
    (∃ doc, ini_read_stream N ⟨pre ++ post, false⟩ = some (doc, IniErr.INI_OK) ∧
      doc.first = document_sections (ls1 ++ ls2) ∧
      ((ls1 = [] ∧ (ls2 = [] ∨ ∃ l rest p, ls2 = l :: rest ∧ get_section l = some p)) →
        ini_read_stream N ⟨pre ++ (m ++ '\n' :: post), false⟩
          = some (⟨⟨[], []⟩ :: doc.first, doc.n_sec + 1⟩, IniErr.INI_OK))) ∧
    ((ls1 ≠ [] ∨ ∃ l rest, ls2 = l :: rest ∧ get_section l = none) →
      ini_read_stream N ⟨pre ++ (m ++ '\n' :: post), false⟩
        = ini_read_stream N ⟨pre ++ post, false⟩) := by
  have hA : logical_lines N ((⟨pre ++ post, false⟩ : FILE).data.length + 1) ⟨pre ++ post, false⟩
      = some (ls1 ++ ls2) := by
    have := complete_lines_append N pre.length (post.length + 1) pre post ls1 ls2 hpre h1 h2
    simp only [List.length_append]
    rw [Nat.add_assoc]
    exact this
  have hB : logical_lines N ((m ++ '\n' :: post).length + 1) ⟨m ++ '\n' :: post, false⟩
      = some (m :: ls2) := by
    unfold logical_lines
    rw [ini_readline_simple N m post hm]
    simp only
    have h3 := logical_lines_mono N (post.length + 1) m.length _ _ h2
    have hlen : (m ++ '\n' :: post).length = post.length + 1 + m.length := by
      simp only [List.length_append, List.length_cons]
      omega
    rw [hlen, h3]
    rfl
  have hC : logical_lines N ((⟨pre ++ (m ++ '\n' :: post), false⟩ : FILE).data.length + 1)
      ⟨pre ++ (m ++ '\n' :: post), false⟩ = some (ls1 ++ m :: ls2) := by
    have := complete_lines_append N pre.length ((m ++ '\n' :: post).length + 1) pre
      (m ++ '\n' :: post) ls1 (m :: ls2) hpre h1 hB
    simp only [List.length_append] at this ⊢
    rw [Nat.add_assoc]
    exact this
  have rA := ini_read_stream_of_lines N _ _ hA
  have rC := ini_read_stream_of_lines N _ _ hC
  refine ⟨⟨_, rA, rfl, ?_⟩, ?_⟩
  · rintro ⟨h0, hpos⟩
    rw [rC]
    rw [h0, List.nil_append, List.nil_append]
    rw [document_sections_insert_first m ls2 hs hk hpos]
    simp only [List.length_cons]
  · intro hpos
    rw [rA, rC, document_sections_insert ls1 m ls2 hs hk hpos]

theorem C14_malformed_line_insertion_witness :
    (∃ doc, ini_read_stream 1024
        ⟨['#', 'c', '\n', '[', 'A', ']', '\n', 'k', '=', '1', '\n'] ++
          ['[', 'B', ']', '\n', 'j', '=', '2', '\n'], false⟩ = some (doc, IniErr.INI_OK) ∧
      doc.first = document_sections
        ([['[', 'A', ']'], ['k', '=', '1']] ++ [['[', 'B', ']'], ['j', '=', '2']]) ∧
      ((([['[', 'A', ']'], ['k', '=', '1']] : List CStr) = [] ∧
          (([['[', 'B', ']'], ['j', '=', '2']] : List CStr) = [] ∨
            ∃ l rest p, ([['[', 'B', ']'], ['j', '=', '2']] : List CStr) = l :: rest ∧
              get_section l = some p)) →
        ini_read_stream 1024
            ⟨['#', 'c', '\n', '[', 'A', ']', '\n', 'k', '=', '1', '\n'] ++
              (['b', 'a', 'r', 'e'] ++ '\n' :: ['[', 'B', ']', '\n', 'j', '=', '2', '\n']), false⟩
          = some (⟨⟨[], []⟩ :: doc.first, doc.n_sec + 1⟩, IniErr.INI_OK))) ∧
    ((([['[', 'A', ']'], ['k', '=', '1']] : List CStr) ≠ [] ∨
        ∃ l rest, ([['[', 'B', ']'], ['j', '=', '2']] : List CStr) = l :: rest ∧
          get_section l = none) →
      ini_read_stream 1024
          ⟨['#', 'c', '\n', '[', 'A', ']', '\n', 'k', '=', '1', '\n'] ++
            (['b', 'a', 'r', 'e'] ++ '\n' :: ['[', 'B', ']', '\n', 'j', '=', '2', '\n']), false⟩
        = ini_read_stream 1024
          ⟨['#', 'c', '\n', '[', 'A', ']', '\n', 'k', '=', '1', '\n'] ++
            ['[', 'B', ']', '\n', 'j', '=', '2', '\n'], false⟩) :=
  C14_malformed_line_insertion 1024
    ['#', 'c', '\n', '[', 'A', ']', '\n', 'k', '=', '1', '\n']
    ['[', 'B', ']', '\n', 'j', '=', '2', '\n'] ['b', 'a', 'r', 'e']
    [['[', 'A', ']'], ['k', '=', '1']] [['[', 'B', ']'], ['j', '=', '2']]
    (by decide) (by decide) (by decide) (by decide) (by decide) (by decide)

/-- C15: the code with a failing allocation in the builder.  On the stream `k=v` a failure
of the key copy or of the value copy inside `get_key_value` makes it return 1, as for a
malformed line: the pair is dropped and the document, with the implicit section and no
pair, is returned with `INI_OK`.  On the stream `[A]` a failure of the `strdup` of the
section name is not tested: the document is returned with `INI_OK` and a section whose
name is `NULL`.  Only a failure of the `ini_file` record, of a section record or of a pair
record returns `NULL` with `INI_NOMEM`, as the claim asks for every one of them. -/
theorem C15_allocation_failure_returns_partial_document :
    ini_read_stream_alloc 1024 [true, true, true, false] ⟨['k', '=', 'v', '\n'], false⟩
      = some (some ⟨[⟨some [], []⟩], 1⟩, IniErr.INI_OK) ∧
    ini_read_stream_alloc 1024 [true, true, true, true, false] ⟨['k', '=', 'v', '\n'], false⟩
      = some (some ⟨[⟨some [], []⟩], 1⟩, IniErr.INI_OK) ∧
    ini_read_stream_alloc 1024 [true, true, false] ⟨['[', 'A', ']', '\n'], false⟩
      = some (some ⟨[⟨none, []⟩], 1⟩, IniErr.INI_OK) ∧
    ini_read_stream_alloc 1024 [] ⟨['k', '=', 'v', '\n'], false⟩
      = some (some ⟨[⟨some [], [⟨['k'], ['v']⟩]⟩], 1⟩, IniErr.INI_OK) ∧
    ini_read_stream_alloc 1024 [false] ⟨['k', '=', 'v', '\n'], false⟩
      = some (none, IniErr.INI_NOMEM) ∧
    ini_read_stream_alloc 1024 [true, true, true, false]
        ⟨['[', 'A', ']', '\n', '[', 'B', ']', '\n'], false⟩
      = some (none, IniErr.INI_NOMEM) ∧
    ini_read_stream_alloc 1024 [true, true, true, true, true, false]
        ⟨['k', '=', 'v', '\n'], false⟩
      = some (none, IniErr.INI_NOMEM) := by
  decide

/-- C16: the code on indented lines.  The `memmove` of `filter_line` moves the string
without its terminating NUL, so the last `l_white` characters stay behind the moved text:
the line of two spaces, `ab`, newline is returned as `ab`, newline, `b` where the claim
asks for `ab`, and the indented pair `k=v` is stored with the value `v`, newline, `v`.
With one leading space the buffer ends in two newlines, which the code takes for a
continuation: the next line is written over the last character of the content, and
space, `ab`, newline, `cd`, newline is returned as the single line `acd`. -/
theorem C16_indented_line_not_stripped :
    filter_line [' ', ' ', 'a', 'b', '\n'] 5 = (['a', 'b', '\n', 'b', '\n'], 2, true) ∧
    ini_readline 1024 ⟨[' ', ' ', 'a', 'b', '\n'], false⟩
      = some (some ['a', 'b', '\n', 'b'], ⟨[], false⟩) ∧
    ini_readline 1024 ⟨['a', 'b', '\n'], false⟩ = some (some ['a', 'b'], ⟨[], false⟩) ∧
    ini_read_stream 1024 ⟨[' ', ' ', 'k', '=', 'v', '\n'], false⟩
      = some (⟨[⟨[], [⟨['k'], ['v', '\n', 'v']⟩]⟩], 1⟩, IniErr.INI_OK) ∧
    ini_read_stream 1024 ⟨['k', '=', 'v', '\n'], false⟩
      = some (⟨[⟨[], [⟨['k'], ['v']⟩]⟩], 1⟩, IniErr.INI_OK) ∧
    ini_readline 1024 ⟨[' ', 'a', 'b', '\n', 'c', 'd', '\n'], false⟩
      = some (some ['a', 'c', 'd'], ⟨[], false⟩) := by
  decide

/-- C17: the code on a stream that ends inside a continuation.  For content `c` and odd
`n`, on the last physical line `c`, `n` backslashes, newline followed by the end of the
stream, `ini_readline` returns a logical line, but the line is `c` followed by
`(n + 1) / 2` backslashes: the continuation backslash, which the next physical line would
have overwritten, stays, where the claim asks for `(n - 1) / 2` backslashes. -/
theorem C17_continuation_backslash_kept_at_eof (N : Nat) (c : CStr) (n : Nat)
    (hc : content_ok c) (hn : n % 2 = 1) (hN : c.length + n + 2 ≤ N) :
    ini_readline N ⟨c ++ List.replicate n '\\' ++ ['\n'], false⟩
      = some (some (c ++ List.replicate ((n + 1) / 2) '\\'), ⟨[], true⟩) ∧
    c ++ List.replicate ((n + 1) / 2) '\\' ≠ c ++ List.replicate ((n - 1) / 2) '\\' := by
  have hcn : ∀ x ∈ c, x ≠ NUL := fun x hx => (hc.2.2.2.2.2.2 x hx).2
  have hk : n - n / 2 = (n + 1) / 2 := by omega
  obtain ⟨j, hj⟩ : ∃ j, (n + 1) / 2 = j + 1 := ⟨(n + 1) / 2 - 1, by omega⟩
  constructor
  · rw [ini_readline_first N c n [] hc (by omega), if_pos hn]
    simp only [List.length_nil, Nat.zero_add]
    rw [cont_loop_eof N 0 false _ _ (by omega)]
    simp only
    rw [if_pos (by simp)]
    have hr : c ++ List.replicate (n - n / 2) '\\' ++ ['\n', NUL]
        = (c ++ List.replicate (n - n / 2) '\\' ++ ['\n']) ++ NUL :: [] := by simp
    have hnn : ∀ x ∈ c ++ List.replicate (n - n / 2) '\\' ++ ['\n'], x ≠ NUL := by
      intro x hx
      rcases List.mem_append.mp hx with h | h
      · rcases List.mem_append.mp h with h1 | h1
        · exact hcn x h1
        · rw [List.eq_of_mem_replicate h1]; decide
      · rw [List.mem_singleton.mp h]; decide
    rw [hr, cstr_app_nul _ [] hnn, rstrip_concat_newline, hk, hj, List.replicate_succ',
      ← List.append_assoc, rstrip_of_last _ '\\' (by decide)]
  · intro h
    have hl := congrArg List.length h
    simp only [List.length_append, List.length_replicate] at hl
    omega

theorem C17_continuation_backslash_kept_at_eof_witness :
    ini_readline 1024 ⟨['a'] ++ List.replicate 1 '\\' ++ ['\n'], false⟩
      = some (some (['a'] ++ List.replicate ((1 + 1) / 2) '\\'), ⟨[], true⟩) ∧
    ['a'] ++ List.replicate ((1 + 1) / 2) '\\' ≠ ['a'] ++ List.replicate ((1 - 1) / 2) '\\' :=
  C17_continuation_backslash_kept_at_eof 1024 ['a'] 1 (by decide) (by decide) (by decide)

/-- C18: `get_section` answers "not a section" exactly when the line has length at most 2,
or does not start with `[`, or does not end with `]`, and then the line buffer is left as
it was; on a line `[`, blanks, name, blanks, `]` whose name is non-empty, holds no `]`, and
neither starts nor ends with a space or tab (nor ends with a NUL, being part of a C string),
it returns exactly the name. -/
theorem C18_section_detector :
    (∀ str : CStr, get_section str = none ↔
      (str.length ≤ 2 ∨ str.head? ≠ some '[' ∨ str.getLast? ≠ some ']')) ∧
    (∀ str : CStr, get_section str = none → get_section_reterm str = str) ∧
    (∀ w1 name w2 : CStr,
      (∀ c ∈ w1, c = ' ' ∨ c = '\t') → (∀ c ∈ w2, c = ' ' ∨ c = '\t') →
      name ≠ [] → (∀ c ∈ name, c ≠ ']') →
      (name.head? ≠ some ' ' ∧ name.head? ≠ some '\t') →
      (name.getLast? ≠ some ' ' ∧ name.getLast? ≠ some '\t' ∧ name.getLast? ≠ some NUL) →
      get_section ('[' :: w1 ++ name ++ w2 ++ [']']) = some name) := by
  refine ⟨?_, ?_, ?_⟩
  · intro str
    unfold get_section
    constructor
    · intro h
      split at h
      · simp at h
      · rename_i hc
        by_cases h1 : str.head? = some '['
        · by_cases h2 : str.getLast? = some ']'
          · left
            have : ¬ str.length > 2 := fun h3 => hc ⟨h1, h3, h2⟩
            omega
          · exact Or.inr (Or.inr h2)
        · exact Or.inr (Or.inl h1)
    · intro h
      rw [if_neg]
      rintro ⟨h1, h2, h3⟩
      rcases h with h | h | h
      · omega
      · exact h h1
      · exact h h3
  · intro str h
    unfold get_section at h
    unfold get_section_reterm
    split at h
    · simp at h
    · rename_i hc
      rw [if_neg hc]
  · intro w1 name w2 hw1 hw2 hne hb hh hl
    exact get_section_header w1 name w2 hw1 hw2 hne hh hl hb

theorem C18_section_detector_witness :
    (get_section ['[', ']'] = none ↔
      ((['[', ']'] : CStr).length ≤ 2 ∨ (['[', ']'] : CStr).head? ≠ some '[' ∨
        (['[', ']'] : CStr).getLast? ≠ some ']')) ∧
    get_section_reterm ['k', '=', '[', 'v', ']'] = ['k', '=', '[', 'v', ']'] ∧
    get_section ('[' :: [' ', '\t'] ++ ['a', ' ', 'b'] ++ [' '] ++ [']']) = some ['a', ' ', 'b'] :=
  ⟨C18_section_detector.1 ['[', ']'],
    C18_section_detector.2.1 ['k', '=', '[', 'v', ']'] (by decide),
    C18_section_detector.2.2 [' ', '\t'] ['a', ' ', 'b'] [' '] (by decide) (by decide)
      (by decide) (by decide) (by decide) (by decide)⟩

/-- C19 fails on the code when the unterminated last line fills the line buffer: with
`INIREAD_LINEBUF = 1024` and a stream of 1023 letters `a` without newline, `fgets` returns
the 1023 letters without meeting the end of the stream, `ini_readline` returns the first
1022 of them as a logical line, and `ini_read_stream` builds a document with the implicit
section, while the stream with that line removed gives a document without section. -/
theorem C19_counterexample :
    (∀ x ∈ List.replicate 1023 'a', x ≠ '\n') ∧
    ini_readline 1024 ⟨List.replicate 1023 'a', false⟩
      = some (some (List.replicate 1022 'a'), ⟨[], false⟩) ∧
    ini_read_stream 1024 ⟨List.replicate 1023 'a', false⟩
      = some (⟨[⟨[], []⟩], 1⟩, IniErr.INI_OK) ∧
    ini_read_stream 1024 ⟨[], false⟩ = some (⟨[], 0⟩, IniErr.INI_OK) := by
  refine ⟨?_, (ini_read_stream_overlong_last 1024 (by decide)).1,
    (ini_read_stream_overlong_last 1024 (by decide)).2, by decide⟩
  intro x hx
  rw [List.eq_of_mem_replicate hx]
  decide

/-- C19, amended: let a stream be made of a text `A` that stops at a line boundary, none
of whose logical lines is cut short by the end of `A`, followed by a non-empty last line
without newline that is at least two characters shorter than the line buffer.  Then
`ini_readline` at the last line signals the end of the stream, the logical lines of the
stream are those of `A`, and `ini_read_stream` returns with `INI_OK` exactly the document
it returns for `A`; the text `k=v` alone gives a document without section. -/
theorem C19_unterminated_last_line_dropped (N : Nat) (A last : List Char) (ls : List CStr)
    (hA : ends_with_newline A)
    (hc : complete_lines N (A.length + 1) ⟨A, false⟩ = some ls)
    (hne : last ≠ []) (hnl : ∀ x ∈ last, x ≠ '\n') (hN : last.length + 2 ≤ N) :
    ini_readline N ⟨last, false⟩ = some (none, ⟨[], true⟩) ∧
    logical_lines N ((A ++ last).length + 1) ⟨A ++ last, false⟩ = some ls ∧
    ini_read_stream N ⟨A ++ last, false⟩ = ini_read_stream N ⟨A, false⟩ ∧
    ini_read_stream N ⟨A, false⟩
      = some (⟨document_sections ls, (document_sections ls).length⟩, IniErr.INI_OK) ∧
    (5 ≤ N → ini_read_stream N ⟨['k', '=', 'v'], false⟩ = some (⟨[], 0⟩, IniErr.INI_OK)) := by
  have hlast := ini_readline_unterminated N last hne hnl hN
  have hX : logical_lines N (last.length + 1) ⟨last, false⟩ = some [] := by
    unfold logical_lines
    rw [hlast]
  have hall : logical_lines N ((A ++ last).length + 1) ⟨A ++ last, false⟩ = some ls := by
    have := complete_lines_append N A.length (last.length + 1) A last ls [] hA hc hX
    rw [List.append_nil] at this
    rw [List.length_append, Nat.add_assoc]
    exact this
  have rA := ini_read_stream_of_lines N ⟨A, false⟩ ls (complete_lines_logical N _ _ ls hc)
  have rB := ini_read_stream_of_lines N ⟨A ++ last, false⟩ ls hall
  refine ⟨hlast, hall, by rw [rA, rB], rA, ?_⟩
  intro h5
  have hk := ini_readline_unterminated N ['k', '=', 'v'] (by decide) (by decide)
    (by simp only [List.length_cons, List.length_nil]; omega)
  have hlk : logical_lines N ((⟨['k', '=', 'v'], false⟩ : FILE).data.length + 1)
      ⟨['k', '=', 'v'], false⟩ = some [] := by
    unfold logical_lines
    rw [hk]
  rw [ini_read_stream_of_lines N _ [] hlk]
  rfl

theorem C19_unterminated_last_line_dropped_witness :
    ini_readline 1024 ⟨['j', '=', '2'], false⟩ = some (none, ⟨[], true⟩) ∧
    logical_lines 1024 ((['[', 'A', ']', '\n', 'k', '=', '1', '\n'] ++ ['j', '=', '2']).length + 1)
        ⟨['[', 'A', ']', '\n', 'k', '=', '1', '\n'] ++ ['j', '=', '2'], false⟩
      = some [['[', 'A', ']'], ['k', '=', '1']] ∧
    ini_read_stream 1024 ⟨['[', 'A', ']', '\n', 'k', '=', '1', '\n'] ++ ['j', '=', '2'], false⟩
      = ini_read_stream 1024 ⟨['[', 'A', ']', '\n', 'k', '=', '1', '\n'], false⟩ ∧
    ini_read_stream 1024 ⟨['[', 'A', ']', '\n', 'k', '=', '1', '\n'], false⟩
      = some (⟨document_sections [['[', 'A', ']'], ['k', '=', '1']],
          (document_sections [['[', 'A', ']'], ['k', '=', '1']]).length⟩, IniErr.INI_OK) ∧
    (5 ≤ 1024 →
      ini_read_stream 1024 ⟨['k', '=', 'v'], false⟩ = some (⟨[], 0⟩, IniErr.INI_OK)) :=
  C19_unterminated_last_line_dropped 1024 ['[', 'A', ']', '\n', 'k', '=', '1', '\n']
    ['j', '=', '2'] [['[', 'A', ']'], ['k', '=', '1']]
    (by decide) (by decide) (by decide) (by decide) (by decide)

/-- C20: on a line that is a C string, a name returned by `get_section` has length at
least 1, neither starts nor ends with a space or tab, and the trimming loop leaves `stop`
at or after `start`; the line `[ ]` yields the name `]`; in a document returned by
`ini_read_stream` a section with the empty name exists only as the first section, opened
by a first logical line that is not a header, every section opened by a header having a
non-empty name; and `ini_read_value` asked for the empty section name reports
`INI_NOSECTION` whenever it has a result, which it has when every call of `ini_readline`
on the content has one. -/
theorem C20_header_never_names_empty_section :
    (∀ str name : CStr, (∀ c ∈ str, c ≠ NUL) → get_section str = some name →
      1 ≤ name.length ∧
      name.head? ≠ some ' ' ∧ name.head? ≠ some '\t' ∧
      name.getLast? ≠ some ' ' ∧ name.getLast? ≠ some '\t' ∧
      (section_bounds str).1 ≤ (section_bounds str).2) ∧
    get_section ['[', ' ', ']'] = some [']'] ∧
    (∀ (N : Nat) (fp : FILE) (doc : ini_file) (e : IniErr),
      ini_read_stream N fp = some (doc, e) →
      ∃ ls, logical_lines N (fp.data.length + 1) fp = some ls ∧
        (∀ s ∈ header_sections ls, s.name ≠ []) ∧
        (doc.first = header_sections ls ∨
          ∃ l rest, ls = l :: rest ∧ get_section l = none ∧
            doc.first = ⟨[], block_items ls⟩ :: header_sections ls)) ∧
    (∀ (N : Nat) (content : List Char) (key : CStr) (r : Option CStr × IniErr),
      ini_read_value N content [] key = some r → r = (none, IniErr.INI_NOSECTION)) ∧
    (∀ (N : Nat) (content : List Char) (key : CStr) (ls : List CStr),
      logical_lines N (content.length + 1) ⟨content, false⟩ = some ls →
      ini_read_value N content [] key = some (none, IniErr.INI_NOSECTION)) := by
  refine ⟨?_, by decide, ?_, ?_, ?_⟩
  · intro str name hstr h
    have h1 := get_section_nonempty str name hstr h
    have h2 := get_section_name_props str name h
    exact ⟨h1.2, h2.1, h2.2.1, h2.2.2.1, h2.2.2.2.1, h1.1⟩
  · intro N fp doc e h
    obtain ⟨ls, hls, hdoc, _⟩ := ini_read_stream_some N fp doc e h
    refine ⟨ls, hls, header_sections_nonempty_names ls (logical_lines_no_nul N _ fp ls hls), ?_⟩
    rw [hdoc]
    simp only
    cases ls with
    | nil => left; rfl
    | cons l rest =>
      cases hg : get_section l with
      | some p =>
        left
        simp only [document_sections, hg]
      | none =>
        right
        refine ⟨l, rest, rfl, hg, ?_⟩
        simp only [document_sections, hg]
  · intro N content key r h
    exact ini_read_value_loop_empty_name N key _ _ r h
  · intro N content key ls h
    have he := ini_read_value_loop_eq N [] key (content.length + 1) ⟨content, false⟩ false
      IniErr.INI_NOSECTION ls h
    have hr := ini_read_value_loop_empty_name N key _ _ _ he
    unfold ini_read_value
    rw [he, hr]

theorem C20_header_never_names_empty_section_witness :
    (1 ≤ (['a'] : CStr).length ∧
      (['a'] : CStr).head? ≠ some ' ' ∧ (['a'] : CStr).head? ≠ some '\t' ∧
      (['a'] : CStr).getLast? ≠ some ' ' ∧ (['a'] : CStr).getLast? ≠ some '\t' ∧
      (section_bounds ['[', ' ', 'a', ' ', ']']).1 ≤ (section_bounds ['[', ' ', 'a', ' ', ']']).2) ∧
    (∃ ls, logical_lines 1024 ((⟨['k', '=', 'v', '\n', '[', ' ', ']', '\n'], false⟩ : FILE).data.length + 1)
        ⟨['k', '=', 'v', '\n', '[', ' ', ']', '\n'], false⟩ = some ls ∧
      (∀ s ∈ header_sections ls, s.name ≠ []) ∧
      ((⟨[⟨[], [⟨['k'], ['v']⟩]⟩, ⟨[']'], []⟩], 2⟩ : ini_file).first = header_sections ls ∨
        ∃ l rest, ls = l :: rest ∧ get_section l = none ∧
          (⟨[⟨[], [⟨['k'], ['v']⟩]⟩, ⟨[']'], []⟩], 2⟩ : ini_file).first
            = ⟨[], block_items ls⟩ :: header_sections ls)) ∧
    (none, IniErr.INI_NOSECTION) = ((none, IniErr.INI_NOSECTION) : Option CStr × IniErr) ∧
    ini_read_value 1024 ['[', ' ', ']', '\n', 'k', '=', 'v', '\n'] [] ['k']
      = some (none, IniErr.INI_NOSECTION) :=
  ⟨C20_header_never_names_empty_section.1 ['[', ' ', 'a', ' ', ']'] ['a'] (by decide) (by decide),
    C20_header_never_names_empty_section.2.2.1 1024
      ⟨['k', '=', 'v', '\n', '[', ' ', ']', '\n'], false⟩
      ⟨[⟨[], [⟨['k'], ['v']⟩]⟩, ⟨[']'], []⟩], 2⟩ IniErr.INI_OK (by decide),
    C20_header_never_names_empty_section.2.2.2.1 1024 ['k', '=', 'v', '\n'] ['k'] _ (by decide),
    C20_header_never_names_empty_section.2.2.2.2 1024 ['[', ' ', ']', '\n', 'k', '=', 'v', '\n']
      ['k'] [['[', ' ', ']'], ['k', '=', 'v']] (by decide)⟩

end IniRead
